import Mathlib

/-!
go-nobadfuncs: filtering, ordering and reporting of function references.

A shallow embedding of `nobadfuncs/nobadfuncs.go`.

Modelling conventions.

* Go `string` values are Lean strings (sequences of Unicode scalar values, that is, valid
  UTF-8 text).  Go compares strings byte-wise; on valid UTF-8 this is the code-point-wise
  lexicographic order, which is what `strLess` computes.
* Go `int` values are integers.  Line and column numbers come from `token.FileSet.Position`
  and are small non-negative numbers, so `pos.Line - 1` never wraps.
* A Go `map` is a finite table with pairwise distinct keys (`GoMap`).  The order of the
  entries of the table stands for the unspecified iteration order of `range`.
* An `io.Writer` is the text written to it so far; `fmt.Fprintf` appends to it and its
  error result is discarded by the source.
* A visitor closure that updates captured variables is a function on the state it captures.
* Collaborators that are not part of `nobadfuncs.go` are parameters: the sorting routine of
  package `sort` (any routine meeting its contract, `SortImpl`), the canonical signature of
  a function object, the Unicode table behind `strconv.IsPrint`, and `packages.Load`.
-/

set_option maxRecDepth 100000

namespace NoBadFuncs

/-! ## Go maps and sorting -/

/-- Go map from keys to values: an association list without duplicate keys. -/
abbrev GoMap (κ ν : Type) [DecidableEq κ] := AList (fun _ : κ => ν)

/-- Update of every value of a map in place; the set of keys does not change. -/
def GoMap.mapVals {κ ν μ : Type} [DecidableEq κ] (f : κ → ν → μ) (m : GoMap κ ν) : GoMap κ μ :=
  ⟨m.entries.map (fun e => ⟨e.1, f e.1 e.2⟩), by
    have h := m.nodupKeys
    have hk : (m.entries.map (fun e : Sigma (fun _ : κ => ν) =>
        (⟨e.1, f e.1 e.2⟩ : Sigma (fun _ : κ => μ)))).keys = m.entries.keys := by
      simp [List.keys, List.map_map, Function.comp_def]
    unfold List.NodupKeys at h ⊢
    rw [hk]
    exact h⟩

/-- Contract of `sort.Sort` (and `sort.Strings`): the result is a rearrangement of the
input and, when `less` is a strict weak ordering, no element is less than an earlier one.
The sort need not be stable. -/
structure SortImpl where
  sort : {α : Type} → (α → α → Bool) → List α → List α
  perm : ∀ {α : Type} (less : α → α → Bool) (l : List α), List.Perm (sort less l) l
  sorted : ∀ {α : Type} (less : α → α → Bool) (l : List α),
    (∀ a b, less a b = true → less b a = false) →
    (∀ a b c, less a b = false → less b c = false → less a c = false) →
    List.Pairwise (fun a b => less b a = false) (sort less l)

/-- A sorting routine meeting the contract: insertion sort. -/
def insertionSortImpl : SortImpl where
  sort := fun {α} less l => List.insertionSort (fun a b : α => less b a = false) l
  perm := fun {α} less l => List.perm_insertionSort (fun a b : α => less b a = false) l
  sorted := fun {α} less l hasym htrans =>
    @List.sorted_insertionSort α (fun a b : α => less b a = false) _
      ⟨fun a b => by
        cases hab : less b a
        · exact Or.inl rfl
        · exact Or.inr (hasym b a hab)⟩
      ⟨fun a b c hab hbc => htrans c b a hbc hab⟩ l

/-- Go string comparison `a < b` on the characters of two strings. -/
def lexLess : List Char → List Char → Bool
  | _, [] => false
  | [], _ :: _ => true
  | a :: as, b :: bs =>
    if a.toNat < b.toNat then true
    else if b.toNat < a.toNat then false
    else lexLess as bs

/-- Go string comparison `a < b`. -/
def strLess (a b : String) : Bool := lexLess a.data b.data

/-! ## Errors -/

/-- Go error values built by the program: `fmt.Errorf(msg)` (also any error of a
collaborator, known by its message) and `errors.Wrapf(cause, msg)`. -/
inductive GoError where
  | errorf (msg : String)
  | wrapf (cause : GoError) (msg : String)
deriving DecidableEq, Repr

/-- The `Error()` method. -/
def GoError.Error : GoError → String
  | GoError.errorf msg => msg
  | GoError.wrapf cause msg => msg ++ ": " ++ cause.Error

/-! ## Positions (package go/token) -/

/-- The type `token.Position`. -/
structure Position where
  Filename : String
  Offset : Int
  Line : Int
  Column : Int
deriving DecidableEq, Repr

/-- The function `strconv.Itoa`, also the verb `%d`. -/
def Itoa (i : Int) : String := toString i

/-- The method `token.Position.IsValid`. -/
def Position.IsValid (pos : Position) : Bool := decide (pos.Line > 0)

/-- The method `token.Position.String`: `file:line:column`, with the file name left out
when it is empty, the column left out when it is zero, line and column left out when the
position is invalid, and `-` when nothing remains. -/
def Position.String (pos : Position) : String :=
  let s := pos.Filename
  let s :=
    if pos.IsValid then
      let s := if s ≠ "" then s ++ ":" else s
      let s := s ++ Itoa pos.Line
      if pos.Column ≠ 0 then s ++ (":" ++ Itoa pos.Column) else s
    else s
  if s = "" then "-" else s

/-- The type `token.FileSet`, by its method `Position`, which resolves a `token.Pos`. -/
structure FileSet where
  Position : Int → Position

/-! ## Quoting (packages strconv and fmt) -/

/-- The function `strconv.IsPrint`, with the Unicode table for runes above U+00FF as a
parameter. -/
def IsPrint (wide : Char → Bool) (r : Char) : Bool :=
  if r.toNat ≤ 0xFF then
    if 0x20 ≤ r.toNat ∧ r.toNat < 0x7F then true
    else if 0xA1 ≤ r.toNat then decide (r.toNat ≠ 0xAD)
    else false
  else wide r

/-- Hexadecimal digits of the lowest `4 * width` bits, most significant first. -/
def hexDigits (width n : Nat) : List Char :=
  (List.range width).reverse.map (fun i => Nat.digitChar ((n >>> (4 * i)) % 16))

/-- The function `appendEscapedRune` of package strconv for the double quote, neither
ASCII-only nor graphic-only. -/
def appendEscapedRune (wide : Char → Bool) (r : Char) : List Char :=
  if r = '"' ∨ r = '\\' then ['\\', r]
  else if IsPrint wide r then [r]
  else if r = '\x07' then ['\\', 'a']
  else if r = '\x08' then ['\\', 'b']
  else if r = '\x0c' then ['\\', 'f']
  else if r = '\n' then ['\\', 'n']
  else if r = '\r' then ['\\', 'r']
  else if r = '\t' then ['\\', 't']
  else if r = '\x0b' then ['\\', 'v']
  else if r.toNat < 0x20 ∨ r.toNat = 0x7f then '\\' :: 'x' :: hexDigits 2 r.toNat
  else if r.toNat < 0x10000 then '\\' :: 'u' :: hexDigits 4 r.toNat
  else '\\' :: 'U' :: hexDigits 8 r.toNat

/-- The function `strconv.Quote`, which the verb `%q` applies to a string. -/
def Quote (wide : Char → Bool) (s : String) : String :=
  String.mk ('"' :: (s.data.flatMap (appendEscapedRune wide) ++ ['"']))

/-! ## Regular expressions (package regexp) -/

/-- Regular expressions over characters, with character classes given by predicates. -/
inductive Regex where
  | fail
  | eps
  | cls (p : Char → Bool)
  | cat (a b : Regex)
  | alt (a b : Regex)
  | star (a : Regex)

/-- Whether the expression matches the empty text. -/
def Regex.nullable : Regex → Bool
  | Regex.fail => false
  | Regex.eps => true
  | Regex.cls _ => false
  | Regex.cat a b => a.nullable && b.nullable
  | Regex.alt a b => a.nullable || b.nullable
  | Regex.star _ => true

/-- Derivative of an expression by one character. -/
def Regex.deriv (c : Char) : Regex → Regex
  | Regex.fail => Regex.fail
  | Regex.eps => Regex.fail
  | Regex.cls p => if p c then Regex.eps else Regex.fail
  | Regex.cat a b =>
    if a.nullable then Regex.alt (Regex.cat (a.deriv c) b) (b.deriv c)
    else Regex.cat (a.deriv c) b
  | Regex.alt a b => Regex.alt (a.deriv c) (b.deriv c)
  | Regex.star a => Regex.cat (a.deriv c) (Regex.star a)

/-- Whether some initial segment of the text matches the expression. -/
def Regex.matchesPrefix (r : Regex) : List Char → Bool
  | [] => r.nullable
  | c :: cs => r.nullable || (r.deriv c).matchesPrefix cs

/-- The method `(*regexp.Regexp).MatchString`: whether the text contains a match, at any
offset. -/
def Regex.MatchString (r : Regex) (s : String) : Bool :=
  s.data.tails.any r.matchesPrefix

/-- The expression that matches exactly the given text. -/
def Regex.literal : List Char → Regex
  | [] => Regex.eps
  | c :: cs => Regex.cat (Regex.cls (fun x => x == c)) (Regex.literal cs)

/-- The function `regexp.QuoteMeta`, compiled: the text taken literally. -/
def Regex.QuoteMeta (s : String) : Regex := Regex.literal s.data

/-- The class `\s` of package regexp: tab, newline, form feed, carriage return, space. -/
def isSpace (c : Char) : Bool :=
  c == '\t' || c == '\n' || c == '\x0c' || c == '\r' || c == ' '

/-- The class `\S`. -/
def Regex.notSpace : Regex := Regex.cls (fun c => !isSpace c)

/-- The class `.` without the flag `s`: any character but newline. -/
def Regex.anyChar : Regex := Regex.cls (fun c => c != '\n')

/-- The variable `okCommentRegxp`: the marker, `\S`, then `.*`. -/
def okCommentRegxp : Regex :=
  Regex.cat (Regex.QuoteMeta "// OK: ") (Regex.cat Regex.notSpace (Regex.star Regex.anyChar))

/-! ## The program model (packages go/ast, go/types, golang.org/x/tools/go/packages) -/

/-- The type `FuncRef`: the canonical signature of a function, as text. -/
abbrev FuncRef := String

/-- The type `ast.Ident`; its method `Pos` returns `NamePos`. -/
structure Ident where
  NamePos : Int
  Name : String
deriving DecidableEq, Repr

/-- The method `(*ast.Ident).Pos`. -/
def Ident.Pos (id : Ident) : Int := id.NamePos

/-- The interface `types.Object` as far as the program inspects it: the type assertion
`obj.(*types.Func)` succeeds on `func` and fails on everything else. -/
inductive Object (Func : Type) where
  | func (f : Func)
  | other
deriving DecidableEq, Repr

/-- The type `ast.Comment`; its method `Pos` returns `Slash`. -/
structure Comment where
  Slash : Int
  Text : String
deriving DecidableEq, Repr

/-- The type `ast.CommentGroup`. -/
structure CommentGroup where
  List : List Comment
deriving DecidableEq, Repr

/-- The type `ast.File`, by its comments. -/
structure File where
  Comments : List CommentGroup
deriving DecidableEq, Repr

/-- The type `packages.Package`, by the fields the program reads: `TypesInfo.Uses`,
`Fset` and `Syntax`. -/
structure Package (Func : Type) where
  Uses : GoMap Ident (Object Func)
  Fset : FileSet
  Syntax : List File

/-- What the program takes from outside `nobadfuncs.go`. -/
structure Env (Func : Type) where
  /-- The sorting routine behind `sort.Sort` and `sort.Strings`. -/
  sorter : SortImpl
  /-- The text `toFuncWithNoIdentifiersRemoveVendor(f).String()`. -/
  canon : Func → FuncRef
  /-- The Unicode table of `strconv.IsPrint` for runes above U+00FF. -/
  wide : Char → Bool
  /-- The call `packages.Load`, given the directory and the patterns. -/
  Load : String → List String → Except GoError (List (Package Func))

/-- Reference map: file name to position to signature. -/
abbrev RefMap := GoMap String (GoMap Position FuncRef)

/-- Comment table: file name to line number to comment text. -/
abbrev CommentMap := GoMap String (GoMap Int String)

/-! ## nobadfuncs.go -/

/-- The method `posSlice.Less`. -/
def posSliceLess (a b : Position) : Bool :=
  if a.Line ≠ b.Line then decide (a.Line < b.Line)
  else decide (a.Column < b.Column)

/-- The method `identSlice.Less`. -/
def identSliceLess (a b : Ident) : Bool := decide (a.Pos < b.Pos)

/-- The function `filterFuncRefs`.  The inner maps are updated in place, so the outer map
keeps its keys. -/
def filterFuncRefs (funcRefs : RefMap) (comments : CommentMap) (filter : String → Bool) :
    RefMap :=
  GoMap.mapVals (fun file posToFuncRef =>
    match comments.lookup file with
    | none => posToFuncRef
    | some lineToComment =>
      posToFuncRef.keys.foldl (fun inner pos =>
        match lineToComment.lookup (pos.Line - 1) with
        | none => inner
        | some commentForLine =>
          if filter commentForLine then inner.erase pos else inner) posToFuncRef) funcRefs

/-- The function `visitInOrder`; the visitor acts on a state. -/
def visitInOrder {σ : Type} (S : SortImpl) (funcRefs : RefMap)
    (visitor : Position → FuncRef → σ → σ) (s : σ) : σ :=
  let sortedKeys := S.sort strLess funcRefs.keys
  sortedKeys.foldl (fun st currFile =>
    let posToFuncRef := (funcRefs.lookup currFile).getD ∅
    let allPos := S.sort posSliceLess posToFuncRef.keys
    allPos.foldl (fun st currPos =>
      visitor currPos ((posToFuncRef.lookup currPos).getD "") st) st) s

/-- The function `fileLineCommentMap`. -/
def fileLineCommentMap (fset : FileSet) (files : List File) : CommentMap :=
  files.foldl (fun m f =>
    f.Comments.foldl (fun m commentGroup =>
      commentGroup.List.foldl (fun m comment =>
        let currPos := fset.Position comment.Slash
        let lineToComment := (m.lookup currPos.Filename).getD ∅
        m.insert currPos.Filename (lineToComment.insert currPos.Line comment.Text)) m) m) ∅

/-- The function `filePosFuncRefMap`. -/
def filePosFuncRefMap {Func : Type} (S : SortImpl) (canon : Func → FuncRef)
    (uses : GoMap Ident (Object Func)) (fset : FileSet) (sigs : GoMap String String) :
    RefMap :=
  let keys := S.sort identSliceLess uses.keys
  keys.foldl (fun fileToPosToFuncRef id =>
    match uses.lookup id with
    | some (Object.func funcPtr) =>
      let currSig := canon funcPtr
      if sigs.keys.length > 0 ∧ (sigs.lookup currSig).isNone then fileToPosToFuncRef
      else
        let currPos := fset.Position id.Pos
        let posToRef := (fileToPosToFuncRef.lookup currPos.Filename).getD ∅
        fileToPosToFuncRef.insert currPos.Filename (posToRef.insert currPos currSig)
    | _ => fileToPosToFuncRef) ∅

/-- The default message of `printFuncRefUsages`, with the signature under the verb `%q`. -/
def defaultReason (wide : Char → Bool) (ref : FuncRef) : String :=
  "references to " ++ Quote wide ref ++
    " are not allowed. Remove this reference or whitelist it by adding a comment of the form '// OK: [reason]' to the line before it."

/-- The visitor of list-all mode in `printFuncRefUsages`: format `%s: %s\n`. -/
def printAllVisitor (pos : Position) (ref : FuncRef) (st : Bool × String) : Bool × String :=
  (st.1, st.2 ++ (pos.String ++ ": " ++ ref ++ "\n"))

/-- The visitor of check mode in `printFuncRefUsages`; the state is `noBadRefs` and the
text written so far. -/
def printBadVisitor (wide : Char → Bool) (sigs : GoMap String String)
    (pos : Position) (ref : FuncRef) (st : Bool × String) : Bool × String :=
  match sigs.lookup ref with
  | none => st
  | some reason =>
    let reason := if reason = "" then defaultReason wide ref else reason
    (false, st.2 ++ (pos.String ++ ": " ++ reason ++ "\n"))

/-- The function `printFuncRefUsages`: the results `(noBadRefs, err)` and the text on the
writer afterwards. -/
def printFuncRefUsages {Func : Type} (E : Env Func) (pkgs : List String)
    (sigs : GoMap String String) (dir : String) (stdout : String) :
    (Bool × Option GoError) × String :=
  match E.Load dir pkgs with
  | Except.error err => ((false, some (GoError.wrapf err "failed to load packages")), stdout)
  | Except.ok loadedPkgs =>
    let st := loadedPkgs.foldl (fun (st : Bool × String) loadedPkg =>
      let funcRefMap := filePosFuncRefMap E.sorter E.canon loadedPkg.Uses loadedPkg.Fset sigs
      if sigs.keys.length = 0 then
        visitInOrder E.sorter funcRefMap printAllVisitor st
      else
        let commentMap := fileLineCommentMap loadedPkg.Fset loadedPkg.Syntax
        let funcRefMap := filterFuncRefs funcRefMap commentMap okCommentRegxp.MatchString
        visitInOrder E.sorter funcRefMap (printBadVisitor E.wide sigs) st) (true, stdout)
    ((st.1, none), st.2)

/-- The function `PrintAllFuncRefs`: the error returned and the text on the writer. -/
def PrintAllFuncRefs {Func : Type} (E : Env Func) (pkgs : List String) (dir : String)
    (w : String) : Option GoError × String :=
  let r := printFuncRefUsages E pkgs ∅ dir w
  (r.1.2, r.2)

/-- The function `printBadFuncRefsHelper`. -/
def printBadFuncRefsHelper {Func : Type} (E : Env Func) (pkgs : List String)
    (sigs : GoMap String String) (dir : String) (w : String) :
    (Bool × Option GoError) × String :=
  if sigs.keys.length = 0 then ((true, none), w)
  else printFuncRefUsages E pkgs sigs dir w

/-- The function `PrintBadFuncRefs`: the error returned and the text on the writer. -/
def PrintBadFuncRefs {Func : Type} (E : Env Func) (pkgs : List String)
    (sigs : GoMap String String) (dir : String) (w : String) : Option GoError × String :=
  let r := printBadFuncRefsHelper E pkgs sigs dir w
  match r.1.2 with
  | some err => (some err, r.2)
  | none => if r.1.1 = false then (some (GoError.errorf ""), r.2) else (none, r.2)

/-! ## Specification-level notions -/

/-- The texts an expression matches as a whole (the usual language of the expression). -/
inductive Regex.Matches : Regex → List Char → Prop where
  | eps : Regex.Matches Regex.eps []
  | cls (p : Char → Bool) (c : Char) : p c = true → Regex.Matches (Regex.cls p) [c]
  | cat {a b : Regex} {u v : List Char} :
    Regex.Matches a u → Regex.Matches b v → Regex.Matches (Regex.cat a b) (u ++ v)
  | altL {a b : Regex} {u : List Char} : Regex.Matches a u → Regex.Matches (Regex.alt a b) u
  | altR {a b : Regex} {u : List Char} : Regex.Matches b u → Regex.Matches (Regex.alt a b) u
  | starNil {a : Regex} : Regex.Matches (Regex.star a) []
  | starCons {a : Regex} {c : Char} {u v : List Char} :
    Regex.Matches a (c :: u) → Regex.Matches (Regex.star a) v →
    Regex.Matches (Regex.star a) (c :: u ++ v)

/-- The reference a reference map holds at a file and a position, if any. -/
def refAt (m : RefMap) (file : String) (pos : Position) : Option FuncRef :=
  (m.lookup file).bind (fun posToFuncRef => posToFuncRef.lookup pos)

/-- A visitor that records the calls made to it, in order. -/
def recordVisits (pos : Position) (ref : FuncRef) (calls : List (Position × FuncRef)) :
    List (Position × FuncRef) :=
  calls ++ [(pos, ref)]

/-- The sequence of calls `visitInOrder` makes to its visitor. -/
def visitSeq (S : SortImpl) (funcRefs : RefMap) : List (Position × FuncRef) :=
  (S.sort strLess funcRefs.keys).flatMap (fun currFile =>
    (S.sort posSliceLess ((funcRefs.lookup currFile).getD ∅).keys).map (fun currPos =>
      (currPos, (((funcRefs.lookup currFile).getD ∅).lookup currPos).getD "")))

/-- Order of two positions by file path, then line, then column. -/
def posLE (a b : Position) : Prop :=
  strLess a.Filename b.Filename = true ∨
    (a.Filename = b.Filename ∧ (a.Line < b.Line ∨ (a.Line = b.Line ∧ a.Column ≤ b.Column)))

instance posLE_decidable (a b : Position) : Decidable (posLE a b) := by
  unfold posLE
  infer_instance

/-- Whether every position of a reference map is filed under its own file name, as in the
maps `filePosFuncRefMap` builds. -/
def wellKeyed (m : RefMap) : Bool :=
  m.entries.all (fun e => e.2.keys.all (fun pos => decide (pos.Filename = e.1)))

/-- One iteration of the loop of `filePosFuncRefMap`. -/
def filePosStep {Func : Type} (canon : Func → FuncRef) (uses : GoMap Ident (Object Func))
    (fset : FileSet) (sigs : GoMap String String) (fileToPosToFuncRef : RefMap) (id : Ident) :
    RefMap :=
  match uses.lookup id with
  | some (Object.func funcPtr) =>
    let currSig := canon funcPtr
    if sigs.keys.length > 0 ∧ (sigs.lookup currSig).isNone then fileToPosToFuncRef
    else
      let currPos := fset.Position id.Pos
      let posToRef := (fileToPosToFuncRef.lookup currPos.Filename).getD ∅
      fileToPosToFuncRef.insert currPos.Filename (posToRef.insert currPos currSig)
  | _ => fileToPosToFuncRef

/-- Concatenation of texts, in order. -/
def joinLines (l : List String) : String := l.foldr (fun a b => a ++ b) ""

/-- The calls made to the visitor for one package in list-all mode. -/
def allVisits {Func : Type} (E : Env Func) (p : Package Func) : List (Position × FuncRef) :=
  visitInOrder E.sorter (filePosFuncRefMap E.sorter E.canon p.Uses p.Fset ∅) recordVisits []

/-- The calls made to the visitor for one package in check mode. -/
def checkVisits {Func : Type} (E : Env Func) (sigs : GoMap String String) (p : Package Func) :
    List (Position × FuncRef) :=
  visitInOrder E.sorter
    (filterFuncRefs (filePosFuncRefMap E.sorter E.canon p.Uses p.Fset sigs)
      (fileLineCommentMap p.Fset p.Syntax) okCommentRegxp.MatchString)
    recordVisits []

/-- The text one call of the list-all visitor writes. -/
def allLine (x : Position × FuncRef) : String :=
  (printAllVisitor x.1 x.2 (true, "")).2

/-- The text one call of the check-mode visitor writes. -/
def badLine (wide : Char → Bool) (sigs : GoMap String String) (x : Position × FuncRef) :
    String :=
  (printBadVisitor wide sigs x.1 x.2 (true, "")).2

/-- Whether the comment table of a package has, for the file of the position and the line
before it, a comment that `okCommentRegxp` accepts. -/
def suppressed {Func : Type} (p : Package Func) (pos : Position) : Prop :=
  ∃ (lineToComment : GoMap Int String) (text : String),
    (fileLineCommentMap p.Fset p.Syntax).lookup pos.Filename = some lineToComment ∧
    lineToComment.lookup (pos.Line - 1) = some text ∧
    okCommentRegxp.MatchString text = true

/-! ## Example inputs -/

/-- A file set given by a table from `token.Pos` values to positions; every other value
resolves to the zero position, as `NoPos` does. -/
def FileSet.ofTable (t : List (Int × NoBadFuncs.Position)) : FileSet :=
  ⟨fun p => (t.lookup p).getD ⟨"", 0, 0, 0⟩⟩

/-- The signature used by the tests of the repository. -/
def exDo : FuncRef :=
  "func (*net/http.Client).Do(*net/http.Request) (*net/http.Response, error)"

/-- An environment whose function objects are given by their canonical signature and whose
load step returns the given packages. -/
def exEnv (ps : List (Package FuncRef)) : Env FuncRef :=
  ⟨insertionSortImpl, fun f => f, fun _ => true, fun _ _ => Except.ok ps⟩

/-- A denylist with one signature and the given message. -/
def exSigs (sig msg : String) : GoMap String String := AList.singleton sig msg

/-- A package of two files, `foo/foo.go` and `foo/foo2.go`, each calling `Do` at line 9
column 21; line 8 of `foo/foo.go` holds the comment `// OK: ` without a reason. -/
def exPkgTwoFiles : Package FuncRef :=
  ⟨[⟨⟨205, "Do"⟩, Object.func exDo⟩, ⟨⟨95, "Do"⟩, Object.func exDo⟩,
     ⟨⟨76, "http"⟩, Object.other⟩].toAList,
   FileSet.ofTable [(95, ⟨"foo/foo.go", 94, 9, 21⟩), (205, ⟨"foo/foo2.go", 94, 9, 21⟩),
     (76, ⟨"foo/foo.go", 75, 9, 2⟩), (60, ⟨"foo/foo.go", 59, 8, 2⟩)],
   [⟨[⟨[⟨60, "// OK: "⟩]⟩]⟩]⟩

/-- A reference map with one reference at line 9 column 21 in each of `a/b.go` and
`a/a.go`. -/
def exRefMap : RefMap :=
  [⟨"a/b.go", [⟨(⟨"a/b.go", 94, 9, 21⟩ : Position), exDo⟩].toAList⟩,
   ⟨"a/a.go", [⟨(⟨"a/a.go", 94, 9, 21⟩ : Position), exDo⟩].toAList⟩].toAList

/-- A package of two files `a.go` and `b.go` that both carry the directive
`//line gen.go:7` before a call of `Do` at the same offset: both calls resolve to the one
position `gen.go:7`. -/
def exPkgLineDirective : Package FuncRef :=
  ⟨[⟨⟨40, "Do"⟩, Object.func exDo⟩, ⟨⟨101, "Do"⟩, Object.func exDo⟩].toAList,
   FileSet.ofTable [(40, ⟨"gen.go", 39, 7, 0⟩), (101, ⟨"gen.go", 39, 7, 0⟩)],
   []⟩

/-- Package `a`, with the file `a/z.go`. -/
def exPkgA : Package FuncRef :=
  ⟨[⟨⟨30, "f"⟩, Object.func "func a.f()"⟩].toAList,
   FileSet.ofTable [(30, ⟨"a/z.go", 29, 3, 2⟩)], []⟩

/-- Package `a/b`, with the file `a/b/x.go`. -/
def exPkgAB : Package FuncRef :=
  ⟨[⟨⟨130, "g"⟩, Object.func "func a/b.g()"⟩].toAList,
   FileSet.ofTable [(130, ⟨"a/b/x.go", 29, 3, 2⟩)], []⟩

/-- A signature with an anonymous struct parameter whose field carries the tag `k`. -/
def exTagged : FuncRef := "func p.F(struct\x7bA int \"k\"\x7d)"

/-- A package with one call of the function `exTagged`. -/
def exPkgTagged : Package FuncRef :=
  ⟨[⟨⟨30, "F"⟩, Object.func exTagged⟩].toAList,
   FileSet.ofTable [(30, ⟨"p/p.go", 29, 3, 2⟩)], []⟩

/-- A package whose file sets its name to the empty text (directives `//line :5` and then
`//line :10:3`) before a call of `Do`. -/
def exPkgNoName : Package FuncRef :=
  ⟨[⟨⟨50, "Do"⟩, Object.func exDo⟩].toAList,
   FileSet.ofTable [(50, ⟨"", 49, 10, 5⟩)], []⟩

/-- A file set with two comments that start on line 3 of `a.go`, a block comment and a
line comment after it, as in the source line `/* first */ // second`. -/
def exFsetSameLine : FileSet :=
  FileSet.ofTable [(30, ⟨"a.go", 29, 3, 1⟩), (42, ⟨"a.go", 41, 3, 13⟩)]

/-- The file with the two comments of `exFsetSameLine`, each in its own comment group. -/
def exFilesSameLine : List File :=
  [⟨[⟨[⟨30, "/* first */"⟩]⟩, ⟨[⟨42, "// second"⟩]⟩]⟩]

/-- An environment whose load step fails with the given error. -/
def exEnvLoadError (err : GoError) : Env FuncRef :=
  ⟨insertionSortImpl, fun f => f, fun _ => true, fun _ _ => Except.error err⟩

/-! ## Configuration (package encoding/json and cmd/cmd.go) -/

/-- Value of a hexadecimal digit, if the character is one. -/
def hexVal (c : Char) : Option Nat :=
  if '0' ≤ c ∧ c ≤ '9' then some (c.toNat - '0'.toNat)
  else if 'a' ≤ c ∧ c ≤ 'f' then some (c.toNat - 'a'.toNat + 10)
  else if 'A' ≤ c ∧ c ≤ 'F' then some (c.toNat - 'A'.toNat + 10)
  else none

/-- The function `getu4` of package encoding/json: the number written by four
hexadecimal digits. -/
def getu4 (a b c d : Char) : Option Nat :=
  match hexVal a, hexVal b, hexVal c, hexVal d with
  | some x, some y, some z, some t => some (((x * 16 + y) * 16 + z) * 16 + t)
  | _, _, _, _ => none

/-- JSON white space. -/
def isJSONSpace (c : Char) : Bool :=
  c == ' ' || c == '\t' || c == '\r' || c == '\n'

/-- The tokens of a JSON text that can occur in an object of strings. -/
inductive JSONToken where
  | lbrace
  | rbrace
  | colon
  | comma
  | null
  | str (s : String)
deriving DecidableEq, Repr

/-- The scanner of package encoding/json, cut down to the tokens of `JSONToken`: the
tokens of a text, or `none` when the text holds anything else (a number, `true`, `false`,
an array, an unfinished or ill-formed string, any other character).  The first argument
holds the characters of the string being read, if one is open.  An escaped surrogate that
is not the first half of a valid pair decodes to U+FFFD. -/
def jsonTokens : Option (List Char) → List Char → Option (List JSONToken)
  | none, [] => some []
  | some _, [] => none
  | none, 'n' :: 'u' :: 'l' :: 'l' :: rest => (jsonTokens none rest).map (JSONToken.null :: ·)
  | none, c :: rest =>
    if isJSONSpace c then jsonTokens none rest
    else if c = '\x7b' then (jsonTokens none rest).map (JSONToken.lbrace :: ·)
    else if c = '\x7d' then (jsonTokens none rest).map (JSONToken.rbrace :: ·)
    else if c = ':' then (jsonTokens none rest).map (JSONToken.colon :: ·)
    else if c = ',' then (jsonTokens none rest).map (JSONToken.comma :: ·)
    else if c = '"' then jsonTokens (some []) rest
    else none
  | some acc, '"' :: rest => (jsonTokens none rest).map (JSONToken.str (String.mk acc) :: ·)
  | some acc, '\\' :: 'u' :: a :: b :: c :: d :: '\\' :: 'u' :: a2 :: b2 :: c2 :: d2 :: rest =>
    match getu4 a b c d with
    | none => none
    | some r =>
      if 0xD800 ≤ r ∧ r < 0xE000 then
        match getu4 a2 b2 c2 d2 with
        | some r2 =>
          if r < 0xDC00 ∧ 0xDC00 ≤ r2 ∧ r2 < 0xE000 then
            jsonTokens
              (some (acc ++ [Char.ofNat (0x10000 + (r - 0xD800) * 0x400 + (r2 - 0xDC00))])) rest
          else
            jsonTokens (some (acc ++ [Char.ofNat 0xFFFD]))
              ('\\' :: 'u' :: a2 :: b2 :: c2 :: d2 :: rest)
        | none =>
          jsonTokens (some (acc ++ [Char.ofNat 0xFFFD]))
            ('\\' :: 'u' :: a2 :: b2 :: c2 :: d2 :: rest)
      else
        jsonTokens (some (acc ++ [Char.ofNat r])) ('\\' :: 'u' :: a2 :: b2 :: c2 :: d2 :: rest)
  | some acc, '\\' :: 'u' :: a :: b :: c :: d :: rest =>
    match getu4 a b c d with
    | none => none
    | some r =>
      if 0xD800 ≤ r ∧ r < 0xE000 then jsonTokens (some (acc ++ [Char.ofNat 0xFFFD])) rest
      else jsonTokens (some (acc ++ [Char.ofNat r])) rest
  | some acc, '\\' :: e :: rest =>
    if e = '"' then jsonTokens (some (acc ++ ['"'])) rest
    else if e = '\\' then jsonTokens (some (acc ++ ['\\'])) rest
    else if e = '/' then jsonTokens (some (acc ++ ['/'])) rest
    else if e = 'b' then jsonTokens (some (acc ++ ['\x08'])) rest
    else if e = 'f' then jsonTokens (some (acc ++ ['\x0c'])) rest
    else if e = 'n' then jsonTokens (some (acc ++ ['\n'])) rest
    else if e = 'r' then jsonTokens (some (acc ++ ['\r'])) rest
    else if e = 't' then jsonTokens (some (acc ++ ['\t'])) rest
    else none
  | some acc, c :: rest =>
    if c.toNat < 0x20 ∨ c = '\\' then none else jsonTokens (some (acc ++ [c])) rest

/-- The members of a JSON object after its opening brace, stored into a
`map[string]string`: a later member replaces an earlier one with the same key, and the
value `null` stores the zero value, the empty string. -/
def jsonMembers : GoMap String String → List JSONToken → Option (GoMap String String)
  | m, [JSONToken.str k, JSONToken.colon, JSONToken.str v, JSONToken.rbrace] =>
    some (m.insert k v)
  | m, [JSONToken.str k, JSONToken.colon, JSONToken.null, JSONToken.rbrace] =>
    some (m.insert k "")
  | m, JSONToken.str k :: JSONToken.colon :: JSONToken.str v :: JSONToken.comma :: rest =>
    jsonMembers (m.insert k v) rest
  | m, JSONToken.str k :: JSONToken.colon :: JSONToken.null :: JSONToken.comma :: rest =>
    jsonMembers (m.insert k "") rest
  | _, _ => none

/-- The call `json.Unmarshal([]byte(text), &sigs)` for `sigs` a nil `map[string]string`:
the map afterwards, or `none` when an error is returned.  The JSON value `null` leaves
the map nil and is no error; an object fills the map; every other text is an error. -/
def jsonUnmarshal (text : String) : Option (GoMap String String) :=
  match jsonTokens none text.data with
  | some [JSONToken.null] => some ∅
  | some [JSONToken.lbrace, JSONToken.rbrace] => some ∅
  | some (JSONToken.lbrace :: rest) => jsonMembers ∅ rest
  | _ => none

/-- The function `printBadFuncRefsJSONConfig` of `cmd/cmd.go`; `jsonErr` gives the error
that `json.Unmarshal` returns for a text it rejects. -/
def printBadFuncRefsJSONConfig {Func : Type} (E : Env Func) (jsonErr : String → GoError)
    (pkgs : List String) (jsonConfig : String) (dir : String) (w : String) :
    Option GoError × String :=
  if jsonConfig ≠ "" then
    match jsonUnmarshal jsonConfig with
    | none =>
      (some (GoError.wrapf (jsonErr jsonConfig)
        ("failed to unmarshal configuration as JSON: " ++ Quote E.wide jsonConfig)), w)
    | some sigs => PrintBadFuncRefs E pkgs sigs dir w
  else PrintBadFuncRefs E pkgs ∅ dir w

/-- Whether the object is a function (the type assertion `obj.(*types.Func)` succeeds). -/
def Object.isFunc {Func : Type} : Object Func → Bool
  | Object.func _ => true
  | Object.other => false

/-- Two packages that are one program model under two enumeration orders of the map
`Uses`. -/
def SamePackage {Func : Type} (p1 p2 : Package Func) : Prop :=
  p1.Fset = p2.Fset ∧ p1.Syntax = p2.Syntax ∧ List.Perm p1.Uses.entries p2.Uses.entries

/-- Distinct identifiers of the package have distinct `token.Pos` values, as the
identifiers of a syntax tree do. -/
def identsDistinct {Func : Type} (p : Package Func) : Prop :=
  ∀ id1 ∈ p.Uses.keys, ∀ id2 ∈ p.Uses.keys, id1.Pos = id2.Pos → id1 = id2

/-- The positions of the identifiers of the package that resolve to functions are
pairwise distinct in (line, column) within one file. -/
def lineColDistinct {Func : Type} (p : Package Func) : Prop :=
  ∀ e1 ∈ p.Uses.entries, ∀ e2 ∈ p.Uses.entries, e1.2.isFunc = true → e2.2.isFunc = true →
    (p.Fset.Position e1.1.Pos).Filename = (p.Fset.Position e2.1.Pos).Filename →
    (p.Fset.Position e1.1.Pos).Line = (p.Fset.Position e2.1.Pos).Line →
    (p.Fset.Position e1.1.Pos).Column = (p.Fset.Position e2.1.Pos).Column →
    p.Fset.Position e1.1.Pos = p.Fset.Position e2.1.Pos

/-- A second sorting routine meeting the contract: insertion sort of the reversed
input. -/
def reverseSortImpl : SortImpl where
  sort := fun less l => insertionSortImpl.sort less l.reverse
  perm := fun less l => (insertionSortImpl.perm less l.reverse).trans (List.reverse_perm l)
  sorted := fun less l hasym htrans => insertionSortImpl.sorted less l.reverse hasym htrans

/-- The package `exPkgTwoFiles` with the map `Uses` enumerated in another order. -/
def exPkgTwoFilesReordered : Package FuncRef :=
  ⟨[⟨⟨76, "http"⟩, Object.other⟩, ⟨⟨95, "Do"⟩, Object.func exDo⟩,
     ⟨⟨205, "Do"⟩, Object.func exDo⟩].toAList,
   exPkgTwoFiles.Fset, exPkgTwoFiles.Syntax⟩

/-- The reference map `exRefMap` enumerated in another order. -/
def exRefMapReordered : RefMap :=
  [⟨"a/a.go", [⟨(⟨"a/a.go", 94, 9, 21⟩ : Position), exDo⟩].toAList⟩,
   ⟨"a/b.go", [⟨(⟨"a/b.go", 94, 9, 21⟩ : Position), exDo⟩].toAList⟩].toAList

/-! ## The canonicalizer (nobadfuncs/types.go, not among the sources) -/

mutual
/-- Modelled from the spec: the structural type descriptors of a Symbol (the source of
`toFuncWithNoIdentifiersRemoveVendor` is missing).  A declared type is referred to by its
identity, an index into the type declarations of the symbol, so the type graph may be
cyclic. -/
inductive TypeDesc where
  | basic (name : String)
  | named (id : Nat)
  | pointer (elem : TypeDesc)
  | slice (elem : TypeDesc)
  | array (len : Nat) (elem : TypeDesc)
  | map (key elem : TypeDesc)
  | func (params results : FieldList) (variadic : Bool)
  | struct (fields : FieldList)
/-- Modelled from the spec: a sequence of named types, in declaration order: the
parameters or results of a function type, or the fields of a struct type. -/
inductive FieldList where
  | nil
  | cons (name : String) (type : TypeDesc) (rest : FieldList)
end

/-- Modelled from the spec: the declaration of a named type: the package path that
defines it, its name and its underlying type. -/
structure TypeDecl where
  pkgPath : String
  name : String
  underlying : TypeDesc

/-- Modelled from the spec: the kind of a Symbol, a free function or a method with its
receiver variable and declaring type. -/
inductive SymbolKind where
  | function
  | method (recvName : String) (recv : TypeDesc)

/-- Modelled from the spec: a Symbol, as a closed tagged variant: kind, defining package
path, name, parameters, results, and the declarations of the named types of its type
graph. -/
structure Symbol where
  kind : SymbolKind
  pkgPath : String
  name : String
  params : FieldList
  results : FieldList
  variadic : Bool
  decls : List TypeDecl

/-- The segments of a path, separated by `/`. -/
def splitSlash : List Char → List (List Char)
  | [] => [[]]
  | c :: cs =>
    if c = '/' then [] :: splitSlash cs
    else
      match splitSlash cs with
      | [] => [[c]]
      | seg :: segs => (c :: seg) :: segs

/-- The segments after the last segment `vendor`, all segments if there is none. -/
def afterLastVendor (segs : List (List Char)) : List (List Char) :=
  segs.foldl (fun acc seg => if seg = "vendor".data then [] else acc ++ [seg]) []

/-- The path made of the segments. -/
def joinSlash : List (List Char) → List Char
  | [] => []
  | seg :: rest => if rest.isEmpty then seg else seg ++ '/' :: joinSlash rest

/-- Modelled from the spec: the canonical (true origin) path of a package path: the
segment `vendor` denotes the vendoring indirection, and the path up to and including its
last occurrence is removed. -/
def canonicalPath (p : String) : String :=
  String.mk (joinSlash (afterLastVendor (splitSlash p.data)))

/-- Modelled from the spec: the visited set of the canonicalizer, keyed by type identity;
it holds for every type entered so far its back-reference, the canonical package path
and the name of the type. -/
abbrev Seen := GoMap Nat String

mutual
/-- Modelled from the spec: the canonicalizer on a type descriptor: names of parameters
and results are removed, the types are kept in declaration order, and every named type is
entered through `enter`.  The result is `none` when `enter` gives up. -/
def stripType (enter : Seen → Nat → Option Seen) (seen : Seen) (t : TypeDesc) :
    Option (Seen × TypeDesc) :=
  match t with
  | TypeDesc.basic n => some (seen, TypeDesc.basic n)
  | TypeDesc.named id => (enter seen id).map (fun s => (s, TypeDesc.named id))
  | TypeDesc.pointer e => (stripType enter seen e).map (fun r => (r.1, TypeDesc.pointer r.2))
  | TypeDesc.slice e => (stripType enter seen e).map (fun r => (r.1, TypeDesc.slice r.2))
  | TypeDesc.array n e => (stripType enter seen e).map (fun r => (r.1, TypeDesc.array n r.2))
  | TypeDesc.map k e =>
    (stripType enter seen k).bind (fun r1 =>
      (stripType enter r1.1 e).map (fun r2 => (r2.1, TypeDesc.map r1.2 r2.2)))
  | TypeDesc.func ps rs v =>
    (stripFields enter true seen ps).bind (fun r1 =>
      (stripFields enter true r1.1 rs).map (fun r2 => (r2.1, TypeDesc.func r1.2 r2.2 v)))
  | TypeDesc.struct fs =>
    (stripFields enter false seen fs).map (fun r => (r.1, TypeDesc.struct r.2))
termination_by structural t
/-- Modelled from the spec: the canonicalizer on a sequence of named types; the names
are removed when `strip` is set (parameters and results) and kept otherwise (fields). -/
def stripFields (enter : Seen → Nat → Option Seen) (strip : Bool) (seen : Seen)
    (l : FieldList) : Option (Seen × FieldList) :=
  match l with
  | FieldList.nil => some (seen, FieldList.nil)
  | FieldList.cons n t rest =>
    (stripType enter seen t).bind (fun r1 =>
      (stripFields enter strip r1.1 rest).map (fun r2 =>
        (r2.1, FieldList.cons (if strip then "" else n) r1.2 r2.2)))
termination_by structural l
end

/-- Modelled from the spec: entering a named type.  On re-entry into a type of the
visited set nothing is done (the type is referred to by its back-reference); otherwise the
type is put into the visited set under its canonical package path and name, and its
declaration is canonicalized.  The first argument bounds the depth of nested entries;
`none` means the bound was reached. -/
def enterNamed (decls : List TypeDecl) : Nat → Seen → Nat → Option Seen
  | 0, _, _ => none
  | fuel + 1, seen, id =>
    if (seen.lookup id).isSome then some seen
    else
      match decls[id]? with
      | none => some seen
      | some d =>
        (stripType (enterNamed decls fuel)
          (seen.insert id (canonicalPath d.pkgPath ++ "." ++ d.name)) d.underlying).map
          (fun r => r.1)

/-- Whether the sequence is empty. -/
def FieldList.isNil : FieldList → Bool
  | FieldList.nil => true
  | FieldList.cons _ _ _ => false

mutual
/-- Modelled from the spec: the text of a type, in the format of the expected outputs of
the tests: a named type is written as its back-reference. -/
def typeString (seen : Seen) (t : TypeDesc) : String :=
  match t with
  | TypeDesc.basic n => n
  | TypeDesc.named id => (seen.lookup id).getD "invalid type"
  | TypeDesc.pointer e => "*" ++ typeString seen e
  | TypeDesc.slice e => "[]" ++ typeString seen e
  | TypeDesc.array n e => "[" ++ toString n ++ "]" ++ typeString seen e
  | TypeDesc.map k e => "map[" ++ typeString seen k ++ "]" ++ typeString seen e
  | TypeDesc.func ps rs v =>
    "func(" ++ tupleString seen v ps ++ ")" ++ resultString seen rs
  | TypeDesc.struct fs => "struct\x7b" ++ fieldsString seen fs ++ "\x7d"
termination_by structural t
/-- Modelled from the spec: the text of the parameters, separated by commas; a name is
written only when it is not empty, and the last parameter of a variadic function is
written with `...`. -/
def tupleString (seen : Seen) (variadic : Bool) (l : FieldList) : String :=
  match l with
  | FieldList.nil => ""
  | FieldList.cons n t rest =>
    (if n = "" then "" else n ++ " ") ++
      (if rest.isNil then
        (if variadic then
          match t with
          | TypeDesc.slice e => "..." ++ typeString seen e
          | other => typeString seen other ++ "..."
        else typeString seen t)
      else typeString seen t ++ ", " ++ tupleString seen variadic rest)
termination_by structural l
/-- Modelled from the spec: the text of the results: nothing, the type of a single
unnamed result, or the results in parentheses. -/
def resultString (seen : Seen) (l : FieldList) : String :=
  match l with
  | FieldList.nil => ""
  | FieldList.cons n t rest =>
    if rest.isNil ∧ n = "" then " " ++ typeString seen t
    else " (" ++ (if n = "" then "" else n ++ " ") ++ typeString seen t ++
      (if rest.isNil then "" else ", " ++ tupleString seen false rest) ++ ")"
termination_by structural l
/-- Modelled from the spec: the text of the fields of a struct type. -/
def fieldsString (seen : Seen) (l : FieldList) : String :=
  match l with
  | FieldList.nil => ""
  | FieldList.cons n t rest =>
    n ++ " " ++ typeString seen t ++ (if rest.isNil then "" else "; " ++ fieldsString seen rest)
termination_by structural l
end

/-- Modelled from the spec: the function object that `toFuncWithNoIdentifiersRemoveVendor`
returns: receiver type, canonical package path, name, parameters and results without
names, and the visited set. -/
structure CanonFunc where
  recv : Option TypeDesc
  pkgPath : String
  name : String
  params : FieldList
  results : FieldList
  variadic : Bool
  seen : Seen

/-- Modelled from the spec: the function `toFuncWithNoIdentifiersRemoveVendor`: receiver,
parameters and results are canonicalized in this order, with a visited set that is empty
at the start and a bound on nested entries of one more than the number of declared
types. -/
def toFuncWithNoIdentifiersRemoveVendor (s : Symbol) : Option CanonFunc :=
  let enter := enterNamed s.decls (s.decls.length + 1)
  let r0 : Option (Seen × Option TypeDesc) :=
    match s.kind with
    | SymbolKind.function => some (∅, none)
    | SymbolKind.method _ recv => (stripType enter ∅ recv).map (fun r => (r.1, some r.2))
  r0.bind (fun r0 =>
    (stripFields enter true r0.1 s.params).bind (fun r1 =>
      (stripFields enter true r1.1 s.results).map (fun r2 =>
        ⟨r0.2, canonicalPath s.pkgPath, s.name, r1.2, r2.2, s.variadic, r2.1⟩)))

/-- Modelled from the spec: the method `String` of the function object: `func`, the
receiver type in parentheses or the package path, the name, and the signature. -/
def CanonFunc.String (f : CanonFunc) : String :=
  "func " ++
    (match f.recv with
      | some r => "(" ++ typeString f.seen r ++ ")."
      | none => f.pkgPath ++ ".") ++
    f.name ++ "(" ++ tupleString f.seen f.variadic f.params ++ ")" ++
    resultString f.seen f.results

/-- Modelled from the spec: the Canonical Signature of a Symbol, if the canonicalizer
returns one. -/
def canonicalSignature (s : Symbol) : Option FuncRef :=
  (toFuncWithNoIdentifiersRemoveVendor s).map CanonFunc.String

/-- The canonical signature as used in `filePosFuncRefMap`. -/
def canonOf (s : Symbol) : FuncRef := (canonicalSignature s).getD ""

mutual
/-- The type with the names of parameters and results, at every depth, made empty. -/
def eraseType (t : TypeDesc) : TypeDesc :=
  match t with
  | TypeDesc.basic n => TypeDesc.basic n
  | TypeDesc.named id => TypeDesc.named id
  | TypeDesc.pointer e => TypeDesc.pointer (eraseType e)
  | TypeDesc.slice e => TypeDesc.slice (eraseType e)
  | TypeDesc.array n e => TypeDesc.array n (eraseType e)
  | TypeDesc.map k e => TypeDesc.map (eraseType k) (eraseType e)
  | TypeDesc.func ps rs v => TypeDesc.func (eraseFields true ps) (eraseFields true rs) v
  | TypeDesc.struct fs => TypeDesc.struct (eraseFields false fs)
termination_by structural t
/-- The sequence with the names made empty when `strip` is set, and the types erased. -/
def eraseFields (strip : Bool) (l : FieldList) : FieldList :=
  match l with
  | FieldList.nil => FieldList.nil
  | FieldList.cons n t rest =>
    FieldList.cons (if strip then "" else n) (eraseType t) (eraseFields strip rest)
termination_by structural l
end

/-- The symbol with the names of its receiver, parameters and results made empty, in
its signature and in the declarations of its type graph. -/
def Symbol.stripNames (s : Symbol) : Symbol :=
  { s with
    kind := match s.kind with
      | SymbolKind.function => SymbolKind.function
      | SymbolKind.method _ recv => SymbolKind.method "" (eraseType recv)
    params := eraseFields true s.params
    results := eraseFields true s.results
    decls := s.decls.map (fun d => { d with underlying := eraseType d.underlying }) }

/-- The symbol with every package path replaced: the one of the symbol and the ones of
the declared types. -/
def Symbol.mapPaths (f : String → String) (s : Symbol) : Symbol :=
  { s with
    pkgPath := f s.pkgPath
    decls := s.decls.map (fun d => { d with pkgPath := f d.pkgPath }) }

/-- The method `Do` of `net/http.Client`, with the parameter name `req`. -/
def exClientDo : Symbol :=
  { kind := SymbolKind.method "c" (TypeDesc.pointer (TypeDesc.named 0))
    pkgPath := "net/http"
    name := "Do"
    params := FieldList.cons "req" (TypeDesc.pointer (TypeDesc.named 1)) FieldList.nil
    results := FieldList.cons "" (TypeDesc.pointer (TypeDesc.named 2))
      (FieldList.cons "" (TypeDesc.basic "error") FieldList.nil)
    variadic := false
    decls := [
      ⟨"net/http", "Client", TypeDesc.struct
        (FieldList.cons "Timeout" (TypeDesc.basic "int64") FieldList.nil)⟩,
      ⟨"net/http", "Request", TypeDesc.struct
        (FieldList.cons "Response" (TypeDesc.pointer (TypeDesc.named 2)) FieldList.nil)⟩,
      ⟨"net/http", "Response", TypeDesc.struct
        (FieldList.cons "Request" (TypeDesc.pointer (TypeDesc.named 1)) FieldList.nil)⟩] }

/-- The function `Bar` of the package `github.com/bar`. -/
def exBar : Symbol :=
  { kind := SymbolKind.function
    pkgPath := "github.com/bar"
    name := "Bar"
    params := FieldList.nil
    results := FieldList.nil
    variadic := false
    decls := [] }

/-- The function `LexEnter` of the test with circular type definitions:
`type StateFn func(*Lexer) StateFn` and `type Lexer struct { State StateFn }`. -/
def exLexEnter : Symbol :=
  { kind := SymbolKind.function
    pkgPath := "github.com/bar"
    name := "LexEnter"
    params := FieldList.cons "l" (TypeDesc.pointer (TypeDesc.named 1)) FieldList.nil
    results := FieldList.cons "" (TypeDesc.named 0) FieldList.nil
    variadic := false
    decls := [
      ⟨"github.com/bar", "StateFn", TypeDesc.func
        (FieldList.cons "" (TypeDesc.pointer (TypeDesc.named 1)) FieldList.nil)
        (FieldList.cons "" (TypeDesc.named 0) FieldList.nil) false⟩,
      ⟨"github.com/bar", "Lexer", TypeDesc.struct
        (FieldList.cons "State" (TypeDesc.named 0) FieldList.nil)⟩] }

/-- The path of a package as it is reached through the vendor directory of the module of
the tests. -/
def exVendored (p : String) : String :=
  "github.com/palantir/go-nobadfuncs-test" ++ "/vendor/" ++ p

/-- The number of declared types that are not in the visited set. -/
def unseen (decls : List TypeDecl) (seen : Seen) : Nat :=
  ((List.range decls.length).filter (fun i => (seen.lookup i).isNone)).length

/-- Every type of the first visited set is in the second. -/
def SeenLE (seen1 seen2 : Seen) : Prop :=
  ∀ i, (seen1.lookup i).isSome = true → (seen2.lookup i).isSome = true

/-- The method `Do` of `net/http.Client` with other names for its receiver, parameter and
results. -/
def exClientDoRenamed : Symbol :=
  { exClientDo with
    kind := SymbolKind.method "client" (TypeDesc.pointer (TypeDesc.named 0))
    params := FieldList.cons "request" (TypeDesc.pointer (TypeDesc.named 1)) FieldList.nil
    results := FieldList.cons "resp" (TypeDesc.pointer (TypeDesc.named 2))
      (FieldList.cons "err" (TypeDesc.basic "error") FieldList.nil) }

/-- An environment whose function objects are Symbols, canonicalized by `canonOf`, and
whose load step returns the given packages. -/
def exSymEnv (ps : List (Package Symbol)) : Env Symbol :=
  ⟨insertionSortImpl, canonOf, fun _ => true, fun _ _ => Except.ok ps⟩

/-- A package that calls `Bar` at line 9 column 6 of `foo/foo.go`, where `Bar` is reached
through the vendor directory. -/
def exPkgVendoredBar : Package Symbol :=
  ⟨[⟨⟨62, "Bar"⟩, Object.func (exBar.mapPaths exVendored)⟩].toAList,
   FileSet.ofTable [(62, ⟨"foo/foo.go", 61, 9, 6⟩)], []⟩

/-- Whether the positions of each file of a reference map are pairwise distinct in
(line, column). -/
def lineColDistinctMap (m : RefMap) : Bool :=
  m.entries.all (fun e => e.2.keys.all (fun p => e.2.keys.all (fun q =>
    decide (p.Line = q.Line → p.Column = q.Column → p = q))))

/-- The environment of a second run on the package of two files: the other sorting
routine and the other enumeration order of `Uses`. -/
def exEnvSecondRun : Env FuncRef :=
  ⟨reverseSortImpl, fun f => f, fun _ => true, fun _ _ => Except.ok [exPkgTwoFilesReordered]⟩

/-- A package with one call of `Do` at line 9 column 21 of `foo/foo.go` and one comment, of
the given text, that starts on line 8 of that file. -/
def exPkgComment (text : String) : Package FuncRef :=
  ⟨[⟨⟨95, "Do"⟩, Object.func exDo⟩].toAList,
   FileSet.ofTable [(95, ⟨"foo/foo.go", 94, 9, 21⟩), (60, ⟨"foo/foo.go", 59, 8, 2⟩)],
   [⟨[⟨[⟨60, text⟩]⟩]⟩]⟩

/-- The comments of the files in the order in which `fileLineCommentMap` traverses them:
file by file, comment group by comment group, comment by comment. -/
def allComments (files : List File) : List Comment :=
  files.flatMap (fun f => f.Comments.flatMap (fun commentGroup => commentGroup.List))

/-- One iteration of the innermost loop of `fileLineCommentMap`. -/
def commentStep (fset : FileSet) (m : CommentMap) (comment : Comment) : CommentMap :=
  let currPos := fset.Position comment.Slash
  let lineToComment := (m.lookup currPos.Filename).getD ∅
  m.insert currPos.Filename (lineToComment.insert currPos.Line comment.Text)

/-- The text a comment table holds at a file and a line, if any. -/
def commentAt (m : CommentMap) (file : String) (line : Int) : Option String :=
  (m.lookup file).bind (fun lineToComment => lineToComment.lookup line)

/-- The comments that start on the given line of the given file, in traversal order. -/
def commentsStartingAt (fset : FileSet) (files : List File) (file : String) (line : Int) :
    List Comment :=
  (allComments files).filter (fun c =>
    decide ((fset.Position c.Slash).Filename = file ∧ (fset.Position c.Slash).Line = line))

/-- A package with one call of `Do` at line 9 column 21 of `foo/foo.go` and one block
comment that starts on line 7 and ends on line 8. -/
def exPkgBlockComment : Package FuncRef :=
  ⟨[⟨⟨95, "Do"⟩, Object.func exDo⟩].toAList,
   FileSet.ofTable [(95, ⟨"foo/foo.go", 94, 9, 21⟩), (40, ⟨"foo/foo.go", 39, 7, 2⟩)],
   [⟨[⟨[⟨40, "/* // OK: reviewed\n\t// OK: reviewed */"⟩]⟩]⟩]⟩

/-- A package with one call of `Do` at line 9 column 21 of `foo/foo.go` and two comments
that start on line 8, a block comment at column 2 and a comment after it at column 22. -/
def exPkgTwoComments (first second : String) : Package FuncRef :=
  ⟨[⟨⟨95, "Do"⟩, Object.func exDo⟩].toAList,
   FileSet.ofTable [(95, ⟨"foo/foo.go", 94, 9, 21⟩), (60, ⟨"foo/foo.go", 59, 8, 2⟩),
     (80, ⟨"foo/foo.go", 79, 8, 22⟩)],
   [⟨[⟨[⟨60, first⟩, ⟨80, second⟩]⟩]⟩]⟩

/-- The entries of a reference map: file, position and signature of every entry of every
inner map. -/
def refEntries (m : RefMap) : List (String × Position × FuncRef) :=
  m.entries.flatMap (fun e => e.2.entries.map (fun c => (e.1, c.1, c.2)))

/-! ## The check-mode pipeline in the order of the specification -/

/-- The Reference of the specification: file, line, column and Canonical Signature. -/
structure Reference where
  File : String
  Line : Int
  Column : Int
  Signature : FuncRef
deriving DecidableEq, Repr

/-- The position of a Reference, as the reporter renders it; a Reference has no offset,
and `Position.String` reads none. -/
def Reference.Position (r : Reference) : Position := ⟨r.File, 0, r.Line, r.Column⟩

/-- The canonical signature of the object an identifier resolves to, if that object is a
function. -/
def Object.ref {Func : Type} (canon : Func → FuncRef) : Object Func → Option FuncRef
  | Object.func f => some (canon f)
  | Object.other => none

/-- Whether the object is a function whose canonical signature is a key of the
denylist. -/
def denylisted {Func : Type} (canon : Func → FuncRef) (sigs : GoMap String String)
    (o : Object Func) : Bool :=
  match Object.ref canon o with
  | some ref => (sigs.lookup ref).isSome
  | none => false

/-- The Reference set of a package, the result of the canonicalizer stage of the
specification: one Reference (file, line, column, signature) for every identifier that
resolves to a function, each Reference once. -/
def specifiedReferences {Func : Type} (canon : Func → FuncRef) (p : Package Func) :
    List Reference :=
  (p.Uses.entries.filterMap (fun e =>
    (Object.ref canon e.2).map (fun sig =>
      (⟨(p.Fset.Position e.1.Pos).Filename, (p.Fset.Position e.1.Pos).Line,
        (p.Fset.Position e.1.Pos).Column, sig⟩ : Reference)))).dedup

/-- The suppression filter of the specification on a Reference: the comment table of the
package holds, for the file of the Reference and the line before it, a comment that
`okCommentRegxp` accepts. -/
def specifiedSuppressed {Func : Type} (p : Package Func) (r : Reference) : Bool :=
  match commentAt (fileLineCommentMap p.Fset p.Syntax) r.File (r.Line - 1) with
  | some text => okCommentRegxp.MatchString text
  | none => false

/-- The denylist matcher of the specification: the message of a Reference whose signature
is a key of the denylist, with the default message for an empty stored message. -/
def specifiedMatch (wide : Char → Bool) (sigs : GoMap String String) (r : Reference) :
    Option String :=
  (sigs.lookup r.Signature).map (fun reason =>
    if reason = "" then defaultReason wide r.Signature else reason)

/-- The order of the reporter of the specification: by file path, then line, then
column. -/
def referenceLess (a b : Reference) : Bool :=
  strLess a.File b.File ||
    (decide (a.File = b.File) &&
      (decide (a.Line < b.Line) || (decide (a.Line = b.Line) && decide (a.Column < b.Column))))

/-- The diagnostics of one package in the order of the data flow of the specification:
the Reference set, then the suppression filter, then the denylist matcher, then the order
of the reporter. -/
def specifiedDiagnostics {Func : Type} (E : Env Func) (sigs : GoMap String String)
    (p : Package Func) : List (Reference × String) :=
  let refs := specifiedReferences E.canon p
  let surviving := refs.filter (fun r => !specifiedSuppressed p r)
  let matched := surviving.filterMap (fun r =>
    (specifiedMatch E.wide sigs r).map (fun msg => (r, msg)))
  E.sorter.sort (fun a b => referenceLess a.1 b.1) matched

/-- The line the reporter writes for a diagnostic. -/
def specifiedLine (d : Reference × String) : String :=
  d.1.Position.String ++ ": " ++ d.2 ++ "\n"

/-- The check of one package in the order of the data flow of the specification: one line
for every diagnostic, and the verdict fails when there is one. -/
def specifiedCheckPackage {Func : Type} (E : Env Func) (sigs : GoMap String String)
    (loadedPkg : Package Func) (st : Bool × String) : Bool × String :=
  (specifiedDiagnostics E sigs loadedPkg).foldl (fun st d => (false, st.2 ++ specifiedLine d)) st

/-- Check mode in the order of the data flow of the specification: the run of
`PrintBadFuncRefs` with `specifiedCheckPackage` for every loaded package, package by
package as in `printFuncRefUsages`. -/
def specifiedPrintBadFuncRefs {Func : Type} (E : Env Func) (pkgs : List String)
    (sigs : GoMap String String) (dir : String) (w : String) : Option GoError × String :=
  if sigs.keys.length = 0 then (none, w)
  else
    match E.Load dir pkgs with
    | Except.error err => (some (GoError.wrapf err "failed to load packages"), w)
    | Except.ok loadedPkgs =>
      let st := loadedPkgs.foldl (fun st loadedPkg => specifiedCheckPackage E sigs loadedPkg st)
        (true, w)
      if st.1 = false then (some (GoError.errorf ""), st.2) else (none, st.2)

/-- The diagnostic of the specification that corresponds to a call of the visitor of check
mode. -/
def visitDiagnostic (wide : Char → Bool) (sigs : GoMap String String)
    (x : Position × FuncRef) : Reference × String :=
  (⟨x.1.Filename, x.1.Line, x.1.Column, x.2⟩,
    (specifiedMatch wide sigs ⟨x.1.Filename, x.1.Line, x.1.Column, x.2⟩).getD "")

/-- Two identifiers of the package that resolve to denylisted functions and are in the
same file at the same line and column resolve to one position and to one signature. -/
def denylistedPlacesDistinct {Func : Type} (canon : Func → FuncRef)
    (sigs : GoMap String String) (p : Package Func) : Prop :=
  ∀ e1 ∈ p.Uses.entries, ∀ e2 ∈ p.Uses.entries,
    denylisted canon sigs e1.2 = true → denylisted canon sigs e2.2 = true →
    (p.Fset.Position e1.1.Pos).Filename = (p.Fset.Position e2.1.Pos).Filename →
    (p.Fset.Position e1.1.Pos).Line = (p.Fset.Position e2.1.Pos).Line →
    (p.Fset.Position e1.1.Pos).Column = (p.Fset.Position e2.1.Pos).Column →
    p.Fset.Position e1.1.Pos = p.Fset.Position e2.1.Pos ∧
      Object.ref canon e1.2 = Object.ref canon e2.2

/-- The signature of `fmt.Println`. -/
def exPrintln : FuncRef := "func fmt.Println(...interface\x7b\x7d) (int, error)"

/-- The signature of `(*net/http.Client).Get`. -/
def exGet : FuncRef := "func (*net/http.Client).Get(string) (*net/http.Response, error)"

/-- A denylist with the signatures `exDo` and `exGet`. -/
def exSigsDoGet : GoMap String String :=
  [(⟨exDo, "No Do"⟩ : Sigma (fun _ : String => String)), ⟨exGet, "No Get"⟩].toAList

/-- A package of two files `a.go` and `b.go` that both carry the directive
`//line gen.go:7`; at the same offset `a.go` calls `Do` and `b.go` calls `Println`, so both
identifiers resolve to the one position `gen.go:7`. -/
def exPkgLineDirectiveMixed : Package FuncRef :=
  ⟨[⟨⟨40, "Do"⟩, Object.func exDo⟩, ⟨⟨101, "Println"⟩, Object.func exPrintln⟩].toAList,
   FileSet.ofTable [(40, ⟨"gen.go", 39, 7, 0⟩), (101, ⟨"gen.go", 39, 7, 0⟩)],
   []⟩

/-- A package of two files `a.go` and `b.go` that both carry the directive
`//line gen.go:7`; at the same offset `a.go` calls `Do` and `b.go` calls `Get`, so both
identifiers resolve to the one position `gen.go:7`. -/
def exPkgLineDirectiveDoGet : Package FuncRef :=
  ⟨[⟨⟨40, "Do"⟩, Object.func exDo⟩, ⟨⟨101, "Get"⟩, Object.func exGet⟩].toAList,
   FileSet.ofTable [(40, ⟨"gen.go", 39, 7, 0⟩), (101, ⟨"gen.go", 39, 7, 0⟩)],
   []⟩

/-! ## The grammar of a configuration (RFC 8259, cut down to objects of strings) -/

/-- The kinds of the tokens of `JSONToken`. -/
inductive JSONKind where
  | lbrace
  | rbrace
  | colon
  | comma
  | null
  | str
deriving DecidableEq, Repr

/-- The kind of a token. -/
def JSONToken.kind : JSONToken → JSONKind
  | JSONToken.lbrace => JSONKind.lbrace
  | JSONToken.rbrace => JSONKind.rbrace
  | JSONToken.colon => JSONKind.colon
  | JSONToken.comma => JSONKind.comma
  | JSONToken.null => JSONKind.null
  | JSONToken.str _ => JSONKind.str

/-- Whether the character is a hexadecimal digit. -/
def isHexDigit (c : Char) : Bool := (hexVal c).isSome

/-- JSON grammar: the characters between the quotes of a string.  A character from U+0020
on other than the quote and the backslash stands for itself; a backslash is followed by
one of the characters `"`, `\`, `/`, `b`, `f`, `n`, `r`, `t`, or by `u` and four
hexadecimal digits. -/
inductive JSONStringBody : List Char → Prop where
  | done : JSONStringBody []
  | unescaped (c : Char) (rest : List Char) : 0x20 ≤ c.toNat → c ≠ '"' → c ≠ '\\' →
    JSONStringBody rest → JSONStringBody (c :: rest)
  | escaped (e : Char) (rest : List Char) : e ∈ ['"', '\\', '/', 'b', 'f', 'n', 'r', 't'] →
    JSONStringBody rest → JSONStringBody ('\\' :: e :: rest)
  | unicode (a b c d : Char) (rest : List Char) : isHexDigit a = true → isHexDigit b = true →
    isHexDigit c = true → isHexDigit d = true → JSONStringBody rest →
    JSONStringBody ('\\' :: 'u' :: a :: b :: c :: d :: rest)

/-- JSON grammar: white space, any number of spaces, tabs, line feeds and carriage
returns. -/
def JSONSpaces (l : List Char) : Prop := ∀ c ∈ l, isJSONSpace c = true

/-- JSON grammar: a string, its characters between two quotes. -/
def JSONString (l : List Char) : Prop :=
  ∃ body, JSONStringBody body ∧ l = '"' :: (body ++ ['"'])

/-- JSON grammar: a value that is a string or the literal `null`. -/
def JSONStringOrNull (l : List Char) : Prop := JSONString l ∨ l = ['n', 'u', 'l', 'l']

/-- JSON grammar: a member of an object, `string ws : ws value`, with a value that is a
string or `null`. -/
def JSONMember (l : List Char) : Prop :=
  ∃ k s1 s2 v, JSONString k ∧ JSONSpaces s1 ∧ JSONSpaces s2 ∧ JSONStringOrNull v ∧
    l = k ++ (s1 ++ (':' :: (s2 ++ v)))

/-- JSON grammar: one or more members, separated by `ws , ws`. -/
inductive JSONMembers : List Char → Prop where
  | one (m : List Char) : JSONMember m → JSONMembers m
  | more (m s1 s2 rest : List Char) : JSONMember m → JSONSpaces s1 → JSONSpaces s2 →
    JSONMembers rest → JSONMembers (m ++ (s1 ++ (',' :: (s2 ++ rest))))

/-- JSON grammar: a text that is an object whose members map strings to strings or to
`null`: `ws \x7b ws [members ws] \x7d ws`. -/
def JSONObjectOfStrings (l : List Char) : Prop :=
  ∃ s0 s1 s2, JSONSpaces s0 ∧ JSONSpaces s1 ∧ JSONSpaces s2 ∧
    (l = s0 ++ ('\x7b' :: (s1 ++ ('\x7d' :: s2))) ∨
      ∃ ms s3, JSONMembers ms ∧ JSONSpaces s3 ∧
        l = s0 ++ ('\x7b' :: (s1 ++ (ms ++ (s3 ++ ('\x7d' :: s2))))))

/-- JSON grammar: a text that is the literal `null`: `ws null ws`. -/
def JSONNullText (l : List Char) : Prop :=
  ∃ s0 s1, JSONSpaces s0 ∧ JSONSpaces s1 ∧ l = s0 ++ ('n' :: 'u' :: 'l' :: 'l' :: s1)

/-- The grammar of the tokens, read from left to right: the kinds of the tokens of a
text; the flag says whether a string is open, and a string counts when it is closed. -/
inductive JSONLex : Bool → List Char → List JSONKind → Prop where
  | done : JSONLex false [] []
  | space (c : Char) (rest : List Char) (ks : List JSONKind) : isJSONSpace c = true →
    JSONLex false rest ks → JSONLex false (c :: rest) ks
  | lbrace (rest : List Char) (ks : List JSONKind) : JSONLex false rest ks →
    JSONLex false ('\x7b' :: rest) (JSONKind.lbrace :: ks)
  | rbrace (rest : List Char) (ks : List JSONKind) : JSONLex false rest ks →
    JSONLex false ('\x7d' :: rest) (JSONKind.rbrace :: ks)
  | colon (rest : List Char) (ks : List JSONKind) : JSONLex false rest ks →
    JSONLex false (':' :: rest) (JSONKind.colon :: ks)
  | comma (rest : List Char) (ks : List JSONKind) : JSONLex false rest ks →
    JSONLex false (',' :: rest) (JSONKind.comma :: ks)
  | null (rest : List Char) (ks : List JSONKind) : JSONLex false rest ks →
    JSONLex false ('n' :: 'u' :: 'l' :: 'l' :: rest) (JSONKind.null :: ks)
  | quote (rest : List Char) (ks : List JSONKind) : JSONLex true rest ks →
    JSONLex false ('"' :: rest) ks
  | close (rest : List Char) (ks : List JSONKind) : JSONLex false rest ks →
    JSONLex true ('"' :: rest) (JSONKind.str :: ks)
  | unescaped (c : Char) (rest : List Char) (ks : List JSONKind) : 0x20 ≤ c.toNat →
    c ≠ '"' → c ≠ '\\' → JSONLex true rest ks → JSONLex true (c :: rest) ks
  | escaped (e : Char) (rest : List Char) (ks : List JSONKind) :
    e ∈ ['"', '\\', '/', 'b', 'f', 'n', 'r', 't'] → JSONLex true rest ks →
    JSONLex true ('\\' :: e :: rest) ks
  | unicode (a b c d : Char) (rest : List Char) (ks : List JSONKind) : isHexDigit a = true →
    isHexDigit b = true → isHexDigit c = true → isHexDigit d = true → JSONLex true rest ks →
    JSONLex true ('\\' :: 'u' :: a :: b :: c :: d :: rest) ks

/-- The kinds of the tokens of one or more members `string : value` separated by commas,
with the closing brace after them. -/
inductive JSONMemberKinds : List JSONKind → Prop where
  | lastStr : JSONMemberKinds [JSONKind.str, JSONKind.colon, JSONKind.str, JSONKind.rbrace]
  | lastNull : JSONMemberKinds [JSONKind.str, JSONKind.colon, JSONKind.null, JSONKind.rbrace]
  | moreStr (ks : List JSONKind) : JSONMemberKinds ks →
    JSONMemberKinds (JSONKind.str :: JSONKind.colon :: JSONKind.str :: JSONKind.comma :: ks)
  | moreNull (ks : List JSONKind) : JSONMemberKinds ks →
    JSONMemberKinds (JSONKind.str :: JSONKind.colon :: JSONKind.null :: JSONKind.comma :: ks)

/-- The texts of a token of the given kind: a brace, a colon, a comma, the literal `null`
or a string. -/
def JSONKind.Text : JSONKind → List Char → Prop
  | JSONKind.lbrace, l => l = ['\x7b']
  | JSONKind.rbrace, l => l = ['\x7d']
  | JSONKind.colon, l => l = [':']
  | JSONKind.comma, l => l = [',']
  | JSONKind.null, l => l = ['n', 'u', 'l', 'l']
  | JSONKind.str, l => JSONString l

/-- The kinds of the tokens of a text that `json.Unmarshal` stores into a
`map[string]string` without an error: the literal `null`, or an object of members
`string : value` with values that are strings or `null`. -/
def JSONAcceptedKinds (ks : List JSONKind) : Prop :=
  ks = [JSONKind.null] ∨ ks = [JSONKind.lbrace, JSONKind.rbrace] ∨
    ∃ ks1, ks = JSONKind.lbrace :: ks1 ∧ JSONMemberKinds ks1

/-! ## Theorems -/

/-! ### Regular expressions -/

theorem Regex.matches_nil_of_nullable (r : Regex) (h : r.nullable = true) :
    Regex.Matches r [] := by
  induction r with
  | fail => simp [Regex.nullable] at h
  | eps => exact Regex.Matches.eps
  | cls p => simp [Regex.nullable] at h
  | cat a b iha ihb =>
    simp only [Regex.nullable, Bool.and_eq_true] at h
    exact Regex.Matches.cat (iha h.1) (ihb h.2)
  | alt a b iha ihb =>
    simp only [Regex.nullable, Bool.or_eq_true] at h
    rcases h with h | h
    · exact Regex.Matches.altL (iha h)
    · exact Regex.Matches.altR (ihb h)
  | star a _ => exact Regex.Matches.starNil

theorem Regex.nullable_of_matches {r : Regex} {w : List Char} (h : Regex.Matches r w)
    (hw : w = []) : r.nullable = true := by
  induction h with
  | eps => rfl
  | cls p c _ => simp at hw
  | cat _ _ iha ihb =>
    rw [List.append_eq_nil] at hw
    simp [Regex.nullable, iha hw.1, ihb hw.2]
  | altL _ ih => simp [Regex.nullable, ih hw]
  | altR _ ih => simp [Regex.nullable, ih hw]
  | starNil => rfl
  | starCons _ _ _ _ => rfl

theorem Regex.nullable_iff (r : Regex) : r.nullable = true ↔ Regex.Matches r [] :=
  ⟨Regex.matches_nil_of_nullable r, fun h => Regex.nullable_of_matches h rfl⟩

theorem Regex.matches_of_deriv (c : Char) (r : Regex) :
    ∀ w : List Char, Regex.Matches (r.deriv c) w → Regex.Matches r (c :: w) := by
  induction r with
  | fail => intro w h; simp only [Regex.deriv] at h; cases h
  | eps => intro w h; simp only [Regex.deriv] at h; cases h
  | cls p =>
    intro w h
    simp only [Regex.deriv] at h
    by_cases hp : p c = true
    · rw [if_pos hp] at h
      cases h
      exact Regex.Matches.cls p c hp
    · rw [if_neg hp] at h
      cases h
  | cat a b iha ihb =>
    intro w h
    simp only [Regex.deriv] at h
    by_cases hn : a.nullable = true
    · rw [if_pos hn] at h
      cases h with
      | altL h1 =>
        cases h1 with
        | cat hu hv => exact Regex.Matches.cat (iha _ hu) hv
      | altR h2 =>
        exact Regex.Matches.cat (Regex.matches_nil_of_nullable a hn) (ihb _ h2)
    · rw [if_neg hn] at h
      cases h with
      | cat hu hv => exact Regex.Matches.cat (iha _ hu) hv
  | alt a b iha ihb =>
    intro w h
    simp only [Regex.deriv] at h
    cases h with
    | altL h1 => exact Regex.Matches.altL (iha _ h1)
    | altR h2 => exact Regex.Matches.altR (ihb _ h2)
  | star a iha =>
    intro w h
    simp only [Regex.deriv] at h
    cases h with
    | cat hu hv => exact Regex.Matches.starCons (iha _ hu) hv

theorem Regex.deriv_of_matches (c : Char) {r : Regex} {x : List Char}
    (h : Regex.Matches r x) : ∀ w : List Char, x = c :: w → Regex.Matches (r.deriv c) w := by
  induction h with
  | eps => intro w hw; simp at hw
  | cls p d hp =>
    intro w hw
    simp only [List.cons.injEq] at hw
    obtain ⟨rfl, rfl⟩ := hw
    simp only [Regex.deriv, hp, if_true]
    exact Regex.Matches.eps
  | @cat a b u v ha hb iha ihb =>
    intro w hw
    cases u with
    | nil =>
      simp only [List.nil_append] at hw
      have hn : a.nullable = true := Regex.nullable_of_matches ha rfl
      simp only [Regex.deriv, hn, if_true]
      exact Regex.Matches.altR (ihb w hw)
    | cons d u1 =>
      simp only [List.cons_append, List.cons.injEq] at hw
      obtain ⟨rfl, rfl⟩ := hw
      have h1 := Regex.Matches.cat (iha u1 rfl) hb
      simp only [Regex.deriv]
      by_cases hn : a.nullable = true
      · rw [if_pos hn]; exact Regex.Matches.altL h1
      · rw [if_neg hn]; exact h1
  | altL _ ih => intro w hw; exact Regex.Matches.altL (ih w hw)
  | altR _ ih => intro w hw; exact Regex.Matches.altR (ih w hw)
  | starNil => intro w hw; simp at hw
  | @starCons a d u v ha hs iha _ =>
    intro w hw
    simp only [List.cons_append, List.cons.injEq] at hw
    obtain ⟨rfl, rfl⟩ := hw
    simp only [Regex.deriv]
    exact Regex.Matches.cat (iha u rfl) hs

theorem Regex.matchesPrefix_iff (w : List Char) :
    ∀ r : Regex, r.matchesPrefix w = true ↔
      ∃ u v : List Char, w = u ++ v ∧ Regex.Matches r u := by
  induction w with
  | nil =>
    intro r
    simp only [Regex.matchesPrefix]
    rw [Regex.nullable_iff]
    constructor
    · intro h; exact ⟨[], [], rfl, h⟩
    · rintro ⟨u, v, huv, h⟩
      have hu : u = [] := (List.append_eq_nil.mp huv.symm).1
      rw [hu] at h
      exact h
  | cons c cs ih =>
    intro r
    simp only [Regex.matchesPrefix, Bool.or_eq_true]
    rw [Regex.nullable_iff, ih]
    constructor
    · rintro (h | ⟨u, v, huv, h⟩)
      · exact ⟨[], c :: cs, rfl, h⟩
      · exact ⟨c :: u, v, by rw [huv]; rfl, Regex.matches_of_deriv c r u h⟩
    · rintro ⟨u, v, huv, h⟩
      cases u with
      | nil => exact Or.inl h
      | cons d u1 =>
        simp only [List.cons_append, List.cons.injEq] at huv
        obtain ⟨rfl, rfl⟩ := huv
        exact Or.inr ⟨u1, v, rfl, Regex.deriv_of_matches c h u1 rfl⟩

theorem Regex.matches_literal (m : List Char) :
    ∀ u : List Char, Regex.Matches (Regex.literal m) u ↔ u = m := by
  induction m with
  | nil =>
    intro u
    simp only [Regex.literal]
    constructor
    · intro h; cases h; rfl
    · rintro rfl; exact Regex.Matches.eps
  | cons c cs ih =>
    intro u
    simp only [Regex.literal]
    constructor
    · intro h
      cases h with
      | cat h1 h2 =>
        cases h1 with
        | cls p d hp =>
          have hd : d = c := by simpa using hp
          rw [(ih _).mp h2, hd]
          rfl
    · rintro rfl
      exact Regex.Matches.cat (Regex.Matches.cls _ c (by simp)) ((ih cs).mpr rfl)

/-- The texts with an initial segment matched by `okCommentRegxp`: the marker, then a
character outside `\s`, then anything. -/
theorem okCommentRegxp_matchesPrefix_iff (w : List Char) :
    okCommentRegxp.matchesPrefix w = true ↔
      ∃ (c : Char) (rest : List Char),
        w = "// OK: ".data ++ c :: rest ∧ isSpace c = false := by
  rw [Regex.matchesPrefix_iff]
  constructor
  · rintro ⟨u, v, huv, h⟩
    unfold okCommentRegxp Regex.QuoteMeta at h
    cases h with
    | @cat _ _ u1 v1 h1 h2 =>
      cases h2 with
      | @cat _ _ u2 v2 h3 h4 =>
        cases h3 with
        | cls p c hp =>
          rw [(Regex.matches_literal _ _).mp h1] at huv
          refine ⟨c, v2 ++ v, ?_, by simpa using hp⟩
          rw [huv]
          simp
  · rintro ⟨c, rest, hw, hc⟩
    refine ⟨"// OK: ".data ++ ([c] ++ []), rest, by rw [hw]; simp, ?_⟩
    unfold okCommentRegxp Regex.QuoteMeta
    exact Regex.Matches.cat ((Regex.matches_literal _ _).mpr rfl)
      (Regex.Matches.cat (Regex.Matches.cls _ c (by simp [hc])) Regex.Matches.starNil)

/-- The texts `okCommentRegxp.MatchString` accepts: those that contain, at any offset, the
marker followed by a character outside `\s`. -/
theorem okCommentRegxp_MatchString_iff (s : String) :
    okCommentRegxp.MatchString s = true ↔
      ∃ (pre : List Char) (c : Char) (rest : List Char),
        s.data = pre ++ ("// OK: ".data ++ c :: rest) ∧ isSpace c = false := by
  unfold Regex.MatchString
  rw [List.any_eq_true]
  constructor
  · rintro ⟨t, ht, hm⟩
    rw [List.mem_tails] at ht
    obtain ⟨pre, hpre⟩ := ht
    obtain ⟨c, rest, hw, hc⟩ := (okCommentRegxp_matchesPrefix_iff t).mp hm
    exact ⟨pre, c, rest, by rw [← hpre, hw], hc⟩
  · rintro ⟨pre, c, rest, hs, hc⟩
    refine ⟨"// OK: ".data ++ c :: rest, ?_, ?_⟩
    · rw [List.mem_tails]
      exact ⟨pre, hs.symm⟩
    · exact (okCommentRegxp_matchesPrefix_iff _).mpr ⟨c, rest, rfl, hc⟩

/-! ### Go maps -/

theorem dlookup_map_vals {κ ν μ : Type} [DecidableEq κ] (f : κ → ν → μ) (k : κ) :
    ∀ l : List (Sigma (fun _ : κ => ν)),
      List.dlookup k (l.map (fun e => (⟨e.1, f e.1 e.2⟩ : Sigma (fun _ : κ => μ)))) =
        (List.dlookup k l).map (f k) := by
  intro l
  induction l with
  | nil => rfl
  | cons e l ih =>
    obtain ⟨k1, v⟩ := e
    by_cases hk : k1 = k
    · subst hk
      simp [List.dlookup_cons_eq]
    · simp only [List.map_cons]
      rw [List.dlookup_cons_ne _ _ (Ne.symm hk), List.dlookup_cons_ne _ _ (Ne.symm hk), ih]

theorem lookup_mapVals {κ ν μ : Type} [DecidableEq κ] (f : κ → ν → μ) (m : GoMap κ ν)
    (k : κ) : AList.lookup k (GoMap.mapVals f m) = (AList.lookup k m).map (f k) := by
  unfold AList.lookup GoMap.mapVals
  exact dlookup_map_vals f k m.entries

theorem keys_mapVals {κ ν μ : Type} [DecidableEq κ] (f : κ → ν → μ) (m : GoMap κ ν) :
    (GoMap.mapVals f m).keys = m.keys := by
  unfold AList.keys GoMap.mapVals
  simp [List.keys, List.map_map, Function.comp_def]

theorem mem_keys_iff_lookup {κ ν : Type} [DecidableEq κ] (m : GoMap κ ν) (k : κ) :
    k ∈ m.keys ↔ ∃ v, AList.lookup k m = some v := by
  rw [← AList.mem_keys, ← AList.lookup_isSome, Option.isSome_iff_exists]

/-! ### filterFuncRefs -/

theorem lookup_foldl_erase {ν : Type} (d : Position → Bool) (p : Position) :
    ∀ (ks : List Position) (inner : GoMap Position ν),
      AList.lookup p (ks.foldl (fun acc pos => if d pos then acc.erase pos else acc) inner) =
        if d p = true ∧ p ∈ ks then none else AList.lookup p inner := by
  intro ks
  induction ks with
  | nil => intro inner; simp
  | cons k ks ih =>
    intro inner
    rw [List.foldl_cons, ih]
    by_cases hk : p = k
    · subst hk
      by_cases hd : d p = true
      · simp [hd, AList.lookup_erase]
      · simp [hd]
    · by_cases hd : d k = true
      · simp only [hd, if_true, List.mem_cons, hk, false_or]
        rw [AList.lookup_erase_ne hk]
      · simp [hd, hk]

theorem refAt_filterFuncRefs (funcRefs : RefMap) (comments : CommentMap)
    (filter : String → Bool) (file : String) (pos : Position) (ref : FuncRef) :
    refAt (filterFuncRefs funcRefs comments filter) file pos = some ref ↔
      refAt funcRefs file pos = some ref ∧
        ¬ ∃ (lineToComment : GoMap Int String) (text : String),
            comments.lookup file = some lineToComment ∧
            lineToComment.lookup (pos.Line - 1) = some text ∧ filter text = true := by
  unfold refAt filterFuncRefs
  rw [lookup_mapVals]
  cases hf : AList.lookup file funcRefs with
  | none => simp
  | some inner =>
    cases hc : AList.lookup file comments with
    | none => simp
    | some ltc =>
      have hstep : (fun (acc : GoMap Position FuncRef) (q : Position) =>
          match AList.lookup (q.Line - 1) ltc with
          | none => acc
          | some commentForLine => if filter commentForLine = true then acc.erase q else acc) =
          (fun acc q => if (match AList.lookup (q.Line - 1) ltc with
            | none => false
            | some commentForLine => filter commentForLine) = true then acc.erase q else acc) := by
        funext acc q
        cases AList.lookup (q.Line - 1) ltc <;> simp
      simp only [Option.map_some', Option.some_bind, hstep]
      rw [lookup_foldl_erase]
      cases hl : AList.lookup (pos.Line - 1) ltc with
      | none => simp [hl]
      | some text =>
        by_cases hft : filter text = true
        · by_cases hin : pos ∈ inner.keys
          · simp [hl, hft, hin]
          · have hnone : AList.lookup pos inner = none := by
              rw [AList.lookup_eq_none, AList.mem_keys]; exact hin
            simp [hl, hft, hin, hnone]
        · simp [hl, hft]

/-- C3. After `filterFuncRefs` a reference is present at (file, position) exactly when it
was present before with the same signature and the comment table has no entry for that
file at line `position.Line - 1` whose text satisfies the predicate. -/
theorem filterFuncRefs_spec (funcRefs : RefMap) (comments : CommentMap)
    (filter : String → Bool) (file : String) (pos : Position) (ref : FuncRef) :
    refAt (filterFuncRefs funcRefs comments filter) file pos = some ref ↔
      refAt funcRefs file pos = some ref ∧
        ¬ ∃ (lineToComment : GoMap Int String) (text : String),
            comments.lookup file = some lineToComment ∧
            lineToComment.lookup (pos.Line - 1) = some text ∧ filter text = true :=
  refAt_filterFuncRefs funcRefs comments filter file pos ref

/-! ### The suppression predicate -/

/-- C4. The predicate accepts a comment that does not begin with the marker: the text
`// note // OK: x` carries the marker after other text and is accepted. -/
theorem okCommentRegxp_accepts_marker_inside :
    okCommentRegxp.MatchString "// note // OK: x" = true ∧
      List.isPrefixOf "// OK: ".data "// note // OK: x".data = false := by
  decide

theorem okCommentRegxp_rejects_bare_marker (ws : List Char)
    (hws : ∀ c ∈ ws, isSpace c = true) :
    okCommentRegxp.MatchString (String.mk ("// OK:".data ++ ws)) = false := by
  rw [Bool.eq_false_iff]
  intro h
  obtain ⟨pre, c, rest, hs, hc⟩ := (okCommentRegxp_MatchString_iff _).mp h
  have hm1 : "// OK:".data = ['/', '/', ' ', 'O', 'K', ':'] := rfl
  have hm2 : "// OK: ".data = ['/', '/', ' ', 'O', 'K', ':', ' '] := rfl
  have hslash : isSpace '/' = false := by decide
  rw [hm2] at hs
  simp only [hm1] at hs
  rcases pre with _ | ⟨p0, _ | ⟨p1, _ | ⟨p2, _ | ⟨p3, _ | ⟨p4, _ | ⟨p5, pre⟩⟩⟩⟩⟩⟩
  · simp only [List.nil_append, List.cons_append, List.cons.injEq, true_and] at hs
    have hcm : c ∈ ws := by rw [hs]; simp
    rw [hws c hcm] at hc
    exact Bool.noConfusion hc
  · simp at hs
  · simp at hs
  · simp at hs
  · simp at hs
  · simp at hs
  · simp only [List.cons_append, List.cons.injEq] at hs
    have hws2 : ws = pre ++ '/' :: '/' :: ' ' :: 'O' :: 'K' :: ':' :: ' ' :: ([] ++ c :: rest) := by
      simpa using hs.2.2.2.2.2.2
    have hcm : '/' ∈ ws := by rw [hws2]; simp
    rw [hws _ hcm] at hslash
    exact Bool.noConfusion hslash

/-! ### String order -/

theorem char_eq_of_toNat_eq {a b : Char} (h : a.toNat = b.toNat) : a = b := by
  apply Char.eq_of_val_eq
  apply UInt32.ext
  exact h

theorem lexLess_asymm : ∀ a b : List Char, lexLess a b = true → lexLess b a = false := by
  intro a
  induction a with
  | nil => intro b _; cases b <;> rfl
  | cons x xs ih =>
    intro b h
    cases b with
    | nil => simp [lexLess] at h
    | cons y ys =>
      simp only [lexLess] at h ⊢
      by_cases h1 : x.toNat < y.toNat
      · have h2 : ¬ y.toNat < x.toNat := by omega
        simp [h1, h2]
      · by_cases h2 : y.toNat < x.toNat
        · simp [h1, h2] at h
        · simp only [h1, h2, if_false] at h ⊢
          exact ih ys h

theorem lexLess_negtrans : ∀ a b c : List Char,
    lexLess a b = false → lexLess b c = false → lexLess a c = false := by
  intro a
  induction a with
  | nil =>
    intro b c hab hbc
    cases b with
    | nil => exact hbc
    | cons y ys => simp [lexLess] at hab
  | cons x xs ih =>
    intro b c hab hbc
    cases c with
    | nil => rfl
    | cons z zs =>
      cases b with
      | nil => simp [lexLess] at hbc
      | cons y ys =>
        simp only [lexLess] at hab hbc ⊢
        by_cases h1 : x.toNat < y.toNat
        · simp [h1] at hab
        · by_cases h2 : y.toNat < z.toNat
          · simp [h2] at hbc
          · have h3 : ¬ x.toNat < z.toNat := by omega
            simp only [h1, h2, h3, if_false] at hab hbc ⊢
            by_cases h4 : y.toNat < x.toNat
            · have h5 : z.toNat < x.toNat := by omega
              simp [h5]
            · by_cases h5 : z.toNat < y.toNat
              · have h6 : z.toNat < x.toNat := by omega
                simp [h6]
              · have h6 : ¬ z.toNat < x.toNat := by omega
                simp only [h4, h5, h6, if_false] at hab hbc ⊢
                exact ih ys zs hab hbc

theorem lexLess_total : ∀ a b : List Char,
    lexLess a b = false → lexLess b a = false → a = b := by
  intro a
  induction a with
  | nil =>
    intro b hab _
    cases b with
    | nil => rfl
    | cons y ys => simp [lexLess] at hab
  | cons x xs ih =>
    intro b hab hba
    cases b with
    | nil => simp [lexLess] at hba
    | cons y ys =>
      simp only [lexLess] at hab hba
      by_cases h1 : x.toNat < y.toNat
      · simp [h1] at hab
      · by_cases h2 : y.toNat < x.toNat
        · simp [h2] at hba
        · simp only [h1, h2, if_false] at hab hba
          have hxy : x = y := char_eq_of_toNat_eq (by omega)
          rw [hxy, ih ys hab hba]

theorem strLess_asymm (a b : String) (h : strLess a b = true) : strLess b a = false :=
  lexLess_asymm _ _ h

theorem strLess_negtrans (a b c : String) (hab : strLess a b = false)
    (hbc : strLess b c = false) : strLess a c = false :=
  lexLess_negtrans _ _ _ hab hbc

theorem strLess_total (a b : String) (hab : strLess a b = false) (hba : strLess b a = false) :
    a = b := by
  have h := lexLess_total _ _ hab hba
  cases a; cases b; simp only at h; rw [h]

theorem posSliceLess_true_iff (a b : Position) :
    posSliceLess a b = true ↔
      (a.Line < b.Line ∨ (a.Line = b.Line ∧ a.Column < b.Column)) := by
  unfold posSliceLess
  split_ifs with h <;> simp only [decide_eq_true_eq] <;> omega

theorem posSliceLess_false_iff (a b : Position) :
    posSliceLess b a = false ↔
      (a.Line < b.Line ∨ (a.Line = b.Line ∧ a.Column ≤ b.Column)) := by
  unfold posSliceLess
  split_ifs with h <;> simp only [decide_eq_false_iff_not] <;> omega

theorem posSliceLess_asymm (a b : Position) (h : posSliceLess a b = true) :
    posSliceLess b a = false := by
  rw [posSliceLess_true_iff] at h
  rw [posSliceLess_false_iff]
  omega

theorem posSliceLess_negtrans (a b c : Position) (hab : posSliceLess a b = false)
    (hbc : posSliceLess b c = false) : posSliceLess a c = false := by
  rw [posSliceLess_false_iff] at hab hbc ⊢
  omega

theorem identSliceLess_asymm (a b : Ident) (h : identSliceLess a b = true) :
    identSliceLess b a = false := by
  unfold identSliceLess at h ⊢
  simp only [decide_eq_true_eq, decide_eq_false_iff_not] at h ⊢
  omega

theorem identSliceLess_negtrans (a b c : Ident) (hab : identSliceLess a b = false)
    (hbc : identSliceLess b c = false) : identSliceLess a c = false := by
  unfold identSliceLess at hab hbc ⊢
  simp only [decide_eq_false_iff_not] at hab hbc ⊢
  omega

/-! ### visitInOrder -/

theorem foldl_flatMap_eq {α β σ : Type} (f : α → List β) (g : σ → β → σ) :
    ∀ (l : List α) (s : σ),
      (l.flatMap f).foldl g s = l.foldl (fun st a => (f a).foldl g st) s := by
  intro l
  induction l with
  | nil => intro s; rfl
  | cons a l ih =>
    intro s
    rw [List.flatMap_cons, List.foldl_append, ih, List.foldl_cons]

theorem visitInOrder_eq_foldl {σ : Type} (S : SortImpl) (m : RefMap)
    (v : Position → FuncRef → σ → σ) (s : σ) :
    visitInOrder S m v s = (visitSeq S m).foldl (fun st x => v x.1 x.2 st) s := by
  unfold visitInOrder visitSeq
  rw [foldl_flatMap_eq]
  simp only [List.foldl_map]

theorem foldl_recordVisits (l : List (Position × FuncRef)) :
    ∀ acc : List (Position × FuncRef),
      l.foldl (fun st x => recordVisits x.1 x.2 st) acc = acc ++ l := by
  induction l with
  | nil => intro acc; simp
  | cons x l ih =>
    intro acc
    rw [List.foldl_cons, ih]
    simp [recordVisits]

theorem visitInOrder_recordVisits (S : SortImpl) (m : RefMap) :
    visitInOrder S m recordVisits [] = visitSeq S m := by
  rw [visitInOrder_eq_foldl, foldl_recordVisits]
  rfl

theorem mem_visitSeq (S : SortImpl) (m : RefMap) (pos : Position) (ref : FuncRef) :
    (pos, ref) ∈ visitSeq S m ↔ ∃ file, refAt m file pos = some ref := by
  unfold visitSeq refAt
  simp only [List.mem_flatMap, List.mem_map, Prod.mk.injEq]
  constructor
  · rintro ⟨file, hfile, p, hp, rfl, hgd⟩
    rw [(S.perm _ _).mem_iff] at hfile hp
    obtain ⟨inner, hinner⟩ := (mem_keys_iff_lookup m file).mp hfile
    rw [hinner] at hp hgd
    simp only [Option.getD_some] at hp hgd
    obtain ⟨v, hv⟩ := (mem_keys_iff_lookup inner p).mp hp
    rw [hv] at hgd
    simp only [Option.getD_some] at hgd
    exact ⟨file, by rw [hinner, Option.some_bind, hv, hgd]⟩
  · rintro ⟨file, h⟩
    cases hinner : AList.lookup file m with
    | none => rw [hinner] at h; simp at h
    | some inner =>
      rw [hinner, Option.some_bind] at h
      refine ⟨file, ?_, pos, ?_, rfl, ?_⟩
      · rw [(S.perm _ _).mem_iff]
        exact (mem_keys_iff_lookup m file).mpr ⟨inner, hinner⟩
      · rw [(S.perm _ _).mem_iff, hinner]
        exact (mem_keys_iff_lookup inner pos).mpr ⟨ref, h⟩
      · simp [hinner, h]

theorem wellKeyed_iff (m : RefMap) :
    wellKeyed m = true ↔
      ∀ file pos ref, refAt m file pos = some ref → pos.Filename = file := by
  unfold wellKeyed refAt
  simp only [List.all_eq_true, decide_eq_true_eq]
  constructor
  · intro h file pos ref hr
    cases hinner : AList.lookup file m with
    | none => rw [hinner] at hr; simp at hr
    | some inner =>
      rw [hinner, Option.some_bind] at hr
      have he : (⟨file, inner⟩ : Sigma (fun _ : String => GoMap Position FuncRef)) ∈ m.entries :=
        AList.mem_lookup_iff.mp hinner
      exact h _ he pos ((mem_keys_iff_lookup inner pos).mpr ⟨ref, hr⟩)
  · intro h e he pos hp
    obtain ⟨file, inner⟩ := e
    have hl : AList.lookup file m = some inner := AList.mem_lookup_iff.mpr he
    obtain ⟨ref, href⟩ := (mem_keys_iff_lookup inner pos).mp hp
    exact h file pos ref (by rw [hl, Option.some_bind]; exact href)

theorem visitSeq_pairwise (S : SortImpl) (m : RefMap)
    (hkey : ∀ file pos ref, refAt m file pos = some ref → pos.Filename = file) :
    (visitSeq S m).Pairwise (fun x y => posLE x.1 y.1 ∧ x.1 ≠ y.1) := by
  have hfileOf : ∀ file, ∀ x ∈ (S.sort posSliceLess
      ((AList.lookup file m).getD ∅).keys).map (fun currPos =>
        (currPos, (((AList.lookup file m).getD ∅).lookup currPos).getD "")),
      x.1.Filename = file := by
    intro file x hx
    rw [List.mem_map] at hx
    obtain ⟨p, hp, rfl⟩ := hx
    rw [(S.perm _ _).mem_iff] at hp
    cases hinner : AList.lookup file m with
    | none => rw [hinner] at hp; simp at hp
    | some inner =>
      rw [hinner] at hp
      simp only [Option.getD_some] at hp
      obtain ⟨v, hv⟩ := (mem_keys_iff_lookup inner p).mp hp
      exact hkey file p v (by unfold refAt; rw [hinner, Option.some_bind]; exact hv)
  unfold visitSeq
  rw [List.pairwise_flatMap]
  constructor
  · intro file _
    rw [List.pairwise_map]
    have hs := S.sorted posSliceLess ((AList.lookup file m).getD ∅).keys
      posSliceLess_asymm posSliceLess_negtrans
    have hn : (S.sort posSliceLess ((AList.lookup file m).getD ∅).keys).Nodup :=
      (S.perm _ _).nodup_iff.mpr (AList.keys_nodup _)
    have hall : ∀ p ∈ S.sort posSliceLess ((AList.lookup file m).getD ∅).keys,
        p.Filename = file := fun p hp =>
      hfileOf file _ (List.mem_map.mpr ⟨p, hp, rfl⟩)
    refine List.Pairwise.imp_of_mem ?_ (hs.and hn)
    rintro a b ha hb ⟨hab, hne⟩
    refine ⟨Or.inr ⟨?_, (posSliceLess_false_iff a b).mp hab⟩, hne⟩
    rw [hall a ha, hall b hb]
  · have hs := S.sorted strLess m.keys strLess_asymm strLess_negtrans
    have hn : (S.sort strLess m.keys).Nodup :=
      (S.perm _ _).nodup_iff.mpr (AList.keys_nodup _)
    refine (hs.and hn).imp ?_
    rintro a b ⟨hab, hne⟩ x hx y hy
    have hxa := hfileOf a x hx
    have hyb := hfileOf b y hy
    have hlt : strLess a b = true := by
      cases h : strLess a b with
      | true => rfl
      | false => exact absurd (strLess_total a b h hab) hne
    refine ⟨Or.inl (by rw [hxa, hyb]; exact hlt), ?_⟩
    intro hxy
    apply hne
    rw [← hxa, ← hyb, hxy]

theorem visitSeq_sorted (S : SortImpl) (m : RefMap)
    (hkey : ∀ file pos ref, refAt m file pos = some ref → pos.Filename = file) :
    ((visitSeq S m).map Prod.fst).Pairwise posLE := by
  rw [List.pairwise_map]
  exact (visitSeq_pairwise S m hkey).imp (fun h => h.1)

theorem visitSeq_nodup (S : SortImpl) (m : RefMap)
    (hkey : ∀ file pos ref, refAt m file pos = some ref → pos.Filename = file) :
    ((visitSeq S m).map Prod.fst).Nodup := by
  unfold List.Nodup
  rw [List.pairwise_map]
  exact (visitSeq_pairwise S m hkey).imp (fun h => h.2)

/-! ### filePosFuncRefMap -/

theorem refAt_empty (file : String) (pos : Position) : refAt ∅ file pos = none := by
  unfold refAt
  rw [AList.lookup_empty]
  rfl

theorem refAt_insert (m : RefMap) (file : String) (pos : Position) (sig : FuncRef)
    (file1 : String) (pos1 : Position) :
    refAt (m.insert file (((m.lookup file).getD ∅).insert pos sig)) file1 pos1 =
      if file1 = file ∧ pos1 = pos then some sig else refAt m file1 pos1 := by
  unfold refAt
  by_cases hf : file1 = file
  · subst hf
    rw [AList.lookup_insert, Option.some_bind]
    by_cases hp : pos1 = pos
    · subst hp
      simp [AList.lookup_insert]
    · rw [AList.lookup_insert_ne hp]
      cases hl : AList.lookup file1 m with
      | none => simp [hp, AList.lookup_empty]
      | some inner => simp [hp]
  · rw [AList.lookup_insert_ne hf]
    simp [hf]

theorem filePosFuncRefMap_eq_foldl {Func : Type} (S : SortImpl) (canon : Func → FuncRef)
    (uses : GoMap Ident (Object Func)) (fset : FileSet) (sigs : GoMap String String) :
    filePosFuncRefMap S canon uses fset sigs =
      (S.sort identSliceLess uses.keys).foldl (filePosStep canon uses fset sigs) ∅ := rfl

theorem refAt_filePosStep {Func : Type} (canon : Func → FuncRef)
    (uses : GoMap Ident (Object Func)) (fset : FileSet) (sigs : GoMap String String)
    (acc : RefMap) (id : Ident) (file : String) (pos : Position) :
    refAt (filePosStep canon uses fset sigs acc id) file pos =
      match uses.lookup id with
      | some (Object.func f) =>
        if (sigs.keys.length > 0 → (sigs.lookup (canon f)).isSome = true) ∧
            file = (fset.Position id.Pos).Filename ∧ pos = fset.Position id.Pos
        then some (canon f) else refAt acc file pos
      | _ => refAt acc file pos := by
  unfold filePosStep
  cases hu : AList.lookup id uses with
  | none => rfl
  | some o =>
    cases o with
    | other => rfl
    | func f =>
      simp only
      by_cases hq : sigs.keys.length > 0 ∧ (AList.lookup (canon f) sigs).isNone = true
      · rw [if_pos hq]
        have hnq : ¬ (sigs.keys.length > 0 → (AList.lookup (canon f) sigs).isSome = true) := by
          intro h
          have h1 := h hq.1
          have h2 := hq.2
          cases hl : AList.lookup (canon f) sigs <;> rw [hl] at h1 h2 <;> simp at h1 h2
        simp [hnq]
      · rw [if_neg hq, refAt_insert]
        have hnq : (sigs.keys.length > 0 → (AList.lookup (canon f) sigs).isSome = true) := by
          intro h
          cases hl : AList.lookup (canon f) sigs with
          | some v => rfl
          | none => exact absurd ⟨h, by rw [hl]; rfl⟩ hq
        by_cases hc : file = (fset.Position id.Pos).Filename ∧ pos = fset.Position id.Pos
        · rw [if_pos hc, if_pos ⟨hnq, hc⟩]
        · rw [if_neg hc, if_neg (fun h => hc h.2)]

theorem filePos_fold_sound {Func : Type} (canon : Func → FuncRef)
    (uses : GoMap Ident (Object Func)) (fset : FileSet) (sigs : GoMap String String)
    (file : String) (pos : Position) (ref : FuncRef) :
    ∀ (l : List Ident) (acc : RefMap),
      refAt (l.foldl (filePosStep canon uses fset sigs) acc) file pos = some ref →
        refAt acc file pos = some ref ∨
        ∃ id f, id ∈ l ∧ uses.lookup id = some (Object.func f) ∧ canon f = ref ∧
          (sigs.keys.length > 0 → (sigs.lookup ref).isSome = true) ∧
          fset.Position id.Pos = pos ∧ pos.Filename = file := by
  intro l
  induction l with
  | nil => intro acc h; exact Or.inl h
  | cons id l ih =>
    intro acc h
    rw [List.foldl_cons] at h
    rcases ih _ h with h1 | ⟨id1, f, hid, hrest⟩
    · rw [refAt_filePosStep] at h1
      cases hu : AList.lookup id uses with
      | none => rw [hu] at h1; exact Or.inl h1
      | some o =>
        cases o with
        | other => rw [hu] at h1; exact Or.inl h1
        | func f =>
          rw [hu] at h1
          simp only at h1
          split_ifs at h1 with hc
          · obtain ⟨hq, hfile, hpos⟩ := hc
            have hr : canon f = ref := Option.some.inj h1
            refine Or.inr ⟨id, f, List.mem_cons_self _ _, hu, hr, ?_, hpos.symm, ?_⟩
            · rw [← hr]; exact hq
            · rw [hfile, hpos]
          · exact Or.inl h1
    · exact Or.inr ⟨id1, f, List.mem_cons_of_mem _ hid, hrest⟩

theorem filePos_fold_mono {Func : Type} (canon : Func → FuncRef)
    (uses : GoMap Ident (Object Func)) (fset : FileSet) (sigs : GoMap String String)
    (file : String) (pos : Position) :
    ∀ (l : List Ident) (acc : RefMap), (refAt acc file pos).isSome = true →
      (refAt (l.foldl (filePosStep canon uses fset sigs) acc) file pos).isSome = true := by
  intro l
  induction l with
  | nil => intro acc h; exact h
  | cons id l ih =>
    intro acc h
    rw [List.foldl_cons]
    apply ih
    rw [refAt_filePosStep]
    cases hu : AList.lookup id uses with
    | none => exact h
    | some o =>
      cases o with
      | other => exact h
      | func f =>
        simp only
        split_ifs
        · rfl
        · exact h

theorem filePos_fold_complete {Func : Type} (canon : Func → FuncRef)
    (uses : GoMap Ident (Object Func)) (fset : FileSet) (sigs : GoMap String String)
    (id : Ident) (f : Func) (hu : uses.lookup id = some (Object.func f))
    (hq : sigs.keys.length > 0 → (sigs.lookup (canon f)).isSome = true) :
    ∀ (l : List Ident) (acc : RefMap), id ∈ l →
      (refAt (l.foldl (filePosStep canon uses fset sigs) acc)
        (fset.Position id.Pos).Filename (fset.Position id.Pos)).isSome = true := by
  intro l
  induction l with
  | nil => intro acc h; simp at h
  | cons id1 l ih =>
    intro acc h
    rw [List.foldl_cons]
    rcases List.mem_cons.mp h with rfl | h1
    · apply filePos_fold_mono
      rw [refAt_filePosStep, hu]
      simp only
      split_ifs with hc
      · rfl
      · exfalso
        apply hc
        refine ⟨hq, ?_, ?_⟩ <;> trivial
    · exact ih _ h1

theorem refAt_filePosFuncRefMap_sound {Func : Type} (S : SortImpl) (canon : Func → FuncRef)
    (uses : GoMap Ident (Object Func)) (fset : FileSet) (sigs : GoMap String String)
    (file : String) (pos : Position) (ref : FuncRef)
    (h : refAt (filePosFuncRefMap S canon uses fset sigs) file pos = some ref) :
    ∃ id f, uses.lookup id = some (Object.func f) ∧ canon f = ref ∧
      (sigs.keys.length > 0 → (sigs.lookup ref).isSome = true) ∧
      fset.Position id.Pos = pos ∧ pos.Filename = file := by
  rw [filePosFuncRefMap_eq_foldl] at h
  rcases filePos_fold_sound canon uses fset sigs file pos ref _ _ h with h1 | ⟨id, f, _, hrest⟩
  · rw [refAt_empty] at h1
    exact Option.noConfusion h1
  · exact ⟨id, f, hrest⟩

theorem refAt_filePosFuncRefMap_complete {Func : Type} (S : SortImpl) (canon : Func → FuncRef)
    (uses : GoMap Ident (Object Func)) (fset : FileSet) (sigs : GoMap String String)
    (id : Ident) (f : Func) (hu : uses.lookup id = some (Object.func f))
    (hq : sigs.keys.length > 0 → (sigs.lookup (canon f)).isSome = true) :
    ∃ ref, refAt (filePosFuncRefMap S canon uses fset sigs)
      (fset.Position id.Pos).Filename (fset.Position id.Pos) = some ref := by
  rw [filePosFuncRefMap_eq_foldl, ← Option.isSome_iff_exists]
  apply filePos_fold_complete canon uses fset sigs id f hu hq
  rw [(S.perm _ _).mem_iff]
  exact (mem_keys_iff_lookup uses id).mpr ⟨_, hu⟩

theorem filePosFuncRefMap_keyed {Func : Type} (S : SortImpl) (canon : Func → FuncRef)
    (uses : GoMap Ident (Object Func)) (fset : FileSet) (sigs : GoMap String String) :
    ∀ file pos ref, refAt (filePosFuncRefMap S canon uses fset sigs) file pos = some ref →
      pos.Filename = file := by
  intro file pos ref h
  obtain ⟨_, _, _, _, _, _, hf⟩ := refAt_filePosFuncRefMap_sound S canon uses fset sigs file pos ref h
  exact hf

theorem filterFuncRefs_keyed (m : RefMap) (comments : CommentMap) (filter : String → Bool)
    (hkey : ∀ file pos ref, refAt m file pos = some ref → pos.Filename = file) :
    ∀ file pos ref, refAt (filterFuncRefs m comments filter) file pos = some ref →
      pos.Filename = file := by
  intro file pos ref h
  exact hkey file pos ref ((refAt_filterFuncRefs m comments filter file pos ref).mp h).1

/-! ### printFuncRefUsages -/

theorem str_empty_append (s : String) : "" ++ s = s := by
  apply String.ext
  simp [String.data_append]

theorem joinLines_cons (a : String) (l : List String) :
    joinLines (a :: l) = a ++ joinLines l := rfl

theorem joinLines_append (l1 l2 : List String) :
    joinLines (l1 ++ l2) = joinLines l1 ++ joinLines l2 := by
  induction l1 with
  | nil => simp [joinLines, str_empty_append]
  | cons a l ih =>
    rw [List.cons_append, joinLines_cons, joinLines_cons, ih, String.append_assoc]

theorem printAllVisitor_eq (pos : Position) (ref : FuncRef) (st : Bool × String) :
    printAllVisitor pos ref st = (st.1, st.2 ++ allLine (pos, ref)) := by
  unfold allLine printAllVisitor
  simp [str_empty_append]

theorem printBadVisitor_eq (wide : Char → Bool) (sigs : GoMap String String)
    (pos : Position) (ref : FuncRef) (st : Bool × String) :
    printBadVisitor wide sigs pos ref st =
      (st.1 && (sigs.lookup ref).isNone, st.2 ++ badLine wide sigs (pos, ref)) := by
  unfold badLine printBadVisitor
  cases h : AList.lookup ref sigs with
  | none => simp
  | some reason => simp [str_empty_append]

theorem foldl_lines {α : Type} (c : α → Bool) (g : α → String) :
    ∀ (l : List α) (st : Bool × String),
      l.foldl (fun st x => (st.1 && c x, st.2 ++ g x)) st =
        (st.1 && l.all c, st.2 ++ joinLines (l.map g)) := by
  intro l
  induction l with
  | nil => intro st; simp [joinLines]
  | cons a l ih =>
    intro st
    rw [List.foldl_cons, ih]
    simp [joinLines_cons, String.append_assoc, Bool.and_assoc]

theorem foldl_packages {α : Type} (c : α → Bool) (g : α → List String) :
    ∀ (l : List α) (st : Bool × String),
      l.foldl (fun st x => (st.1 && c x, st.2 ++ joinLines (g x))) st =
        (st.1 && l.all c, st.2 ++ joinLines (l.flatMap g)) := by
  intro l
  induction l with
  | nil => intro st; simp [joinLines]
  | cons a l ih =>
    intro st
    rw [List.foldl_cons, ih]
    simp [List.flatMap_cons, joinLines_append, String.append_assoc, Bool.and_assoc]

theorem all_const_true {α : Type} (l : List α) : (l.all fun _ => true) = true := by
  induction l with
  | nil => rfl
  | cons a l ih => simp

theorem visitInOrder_printAll (S : SortImpl) (m : RefMap) (st : Bool × String) :
    visitInOrder S m printAllVisitor st =
      (st.1, st.2 ++ joinLines ((visitInOrder S m recordVisits []).map allLine)) := by
  rw [visitInOrder_recordVisits, visitInOrder_eq_foldl]
  have h := foldl_lines (fun _ : Position × FuncRef => true) allLine (visitSeq S m) st
  simp only [Bool.and_true, all_const_true] at h
  rw [← h]
  congr 1

theorem visitInOrder_printBad (S : SortImpl) (wide : Char → Bool) (sigs : GoMap String String)
    (m : RefMap) (st : Bool × String) :
    visitInOrder S m (printBadVisitor wide sigs) st =
      (st.1 && (visitInOrder S m recordVisits []).all (fun x => (sigs.lookup x.2).isNone),
        st.2 ++ joinLines ((visitInOrder S m recordVisits []).map (badLine wide sigs))) := by
  rw [visitInOrder_recordVisits, visitInOrder_eq_foldl]
  rw [← foldl_lines (fun x : Position × FuncRef => (sigs.lookup x.2).isNone)
    (badLine wide sigs) (visitSeq S m) st]
  congr 1
  funext st x
  exact printBadVisitor_eq wide sigs x.1 x.2 st

theorem printFuncRefUsages_all {Func : Type} (E : Env Func) (pkgs : List String)
    (dir : String) (w : String) (ps : List (Package Func))
    (hload : E.Load dir pkgs = Except.ok ps) :
    printFuncRefUsages E pkgs ∅ dir w =
      ((true, none), w ++ joinLines (ps.flatMap (fun p => (allVisits E p).map allLine))) := by
  unfold printFuncRefUsages
  rw [hload]
  simp only [AList.keys_empty, List.length_nil, if_true]
  have h := foldl_packages (fun _ : Package Func => true)
    (fun p => (allVisits E p).map allLine) ps (true, w)
  simp only [Bool.and_true, all_const_true] at h
  have hf : (fun (st : Bool × String) (loadedPkg : Package Func) =>
      visitInOrder E.sorter
        (filePosFuncRefMap E.sorter E.canon loadedPkg.Uses loadedPkg.Fset ∅)
        printAllVisitor st) =
      (fun st x => (st.1, st.2 ++ joinLines ((allVisits E x).map allLine))) := by
    funext st p
    rw [visitInOrder_printAll]
    rfl
  rw [hf, h]

theorem printFuncRefUsages_check {Func : Type} (E : Env Func) (pkgs : List String)
    (sigs : GoMap String String) (dir : String) (w : String) (ps : List (Package Func))
    (hload : E.Load dir pkgs = Except.ok ps) (hs : sigs.keys.length ≠ 0) :
    printFuncRefUsages E pkgs sigs dir w =
      ((ps.all (fun p => (checkVisits E sigs p).all (fun x => (sigs.lookup x.2).isNone)), none),
        w ++ joinLines (ps.flatMap (fun p => (checkVisits E sigs p).map (badLine E.wide sigs)))) := by
  unfold printFuncRefUsages
  rw [hload]
  simp only [hs, if_false]
  have h := foldl_packages
    (fun p : Package Func => (checkVisits E sigs p).all (fun x => (sigs.lookup x.2).isNone))
    (fun p => (checkVisits E sigs p).map (badLine E.wide sigs)) ps (true, w)
  simp only [Bool.true_and] at h
  have hf : (fun (st : Bool × String) (loadedPkg : Package Func) =>
      visitInOrder E.sorter
        (filterFuncRefs (filePosFuncRefMap E.sorter E.canon loadedPkg.Uses loadedPkg.Fset sigs)
          (fileLineCommentMap loadedPkg.Fset loadedPkg.Syntax) okCommentRegxp.MatchString)
        (printBadVisitor E.wide sigs) st) =
      (fun st x => (st.1 && (checkVisits E sigs x).all (fun x => (sigs.lookup x.2).isNone),
        st.2 ++ joinLines ((checkVisits E sigs x).map (badLine E.wide sigs)))) := by
    funext st p
    rw [visitInOrder_printBad]
    rfl
  rw [hf, h]

/-! ### The visits of one package -/

theorem mem_allVisits {Func : Type} (E : Env Func) (p : Package Func) (pos : Position)
    (ref : FuncRef) :
    (pos, ref) ∈ allVisits E p ↔
      refAt (filePosFuncRefMap E.sorter E.canon p.Uses p.Fset ∅) pos.Filename pos = some ref := by
  unfold allVisits
  rw [visitInOrder_recordVisits, mem_visitSeq]
  constructor
  · rintro ⟨file, h⟩
    rw [filePosFuncRefMap_keyed _ _ _ _ _ file pos ref h]
    exact h
  · intro h
    exact ⟨_, h⟩

theorem mem_checkVisits {Func : Type} (E : Env Func) (sigs : GoMap String String)
    (p : Package Func) (pos : Position) (ref : FuncRef) :
    (pos, ref) ∈ checkVisits E sigs p ↔
      refAt (filePosFuncRefMap E.sorter E.canon p.Uses p.Fset sigs) pos.Filename pos = some ref ∧
        ¬ suppressed p pos := by
  unfold checkVisits suppressed
  rw [visitInOrder_recordVisits, mem_visitSeq]
  constructor
  · rintro ⟨file, h⟩
    rw [refAt_filterFuncRefs] at h
    have hf := filePosFuncRefMap_keyed _ _ _ _ _ file pos ref h.1
    rw [hf]
    exact h
  · intro h
    exact ⟨pos.Filename, (refAt_filterFuncRefs _ _ _ _ _ _).mpr h⟩

theorem allVisits_sorted_nodup {Func : Type} (E : Env Func) (p : Package Func) :
    ((allVisits E p).map Prod.fst).Pairwise posLE ∧ ((allVisits E p).map Prod.fst).Nodup := by
  unfold allVisits
  rw [visitInOrder_recordVisits]
  exact ⟨visitSeq_sorted _ _ (filePosFuncRefMap_keyed _ _ _ _ _),
    visitSeq_nodup _ _ (filePosFuncRefMap_keyed _ _ _ _ _)⟩

theorem checkVisits_sorted_nodup {Func : Type} (E : Env Func) (sigs : GoMap String String)
    (p : Package Func) :
    ((checkVisits E sigs p).map Prod.fst).Pairwise posLE ∧
      ((checkVisits E sigs p).map Prod.fst).Nodup := by
  unfold checkVisits
  rw [visitInOrder_recordVisits]
  exact ⟨visitSeq_sorted _ _ (filterFuncRefs_keyed _ _ _ (filePosFuncRefMap_keyed _ _ _ _ _)),
    visitSeq_nodup _ _ (filterFuncRefs_keyed _ _ _ (filePosFuncRefMap_keyed _ _ _ _ _))⟩

theorem checkVisits_lookup {Func : Type} (E : Env Func) (sigs : GoMap String String)
    (hs : sigs.keys.length ≠ 0) (p : Package Func) (pos : Position) (ref : FuncRef)
    (h : (pos, ref) ∈ checkVisits E sigs p) : ∃ reason, sigs.lookup ref = some reason := by
  obtain ⟨_, _, _, _, hq, _, _⟩ :=
    refAt_filePosFuncRefMap_sound _ _ _ _ _ _ _ _ ((mem_checkVisits E sigs p pos ref).mp h).1
  exact Option.isSome_iff_exists.mp (hq (Nat.pos_of_ne_zero hs))

theorem badLine_eq (wide : Char → Bool) (sigs : GoMap String String) (pos : Position)
    (ref : FuncRef) (reason : String) (h : sigs.lookup ref = some reason) :
    badLine wide sigs (pos, ref) =
      pos.String ++ ": " ++ (if reason = "" then defaultReason wide ref else reason) ++ "\n" := by
  unfold badLine printBadVisitor
  simp only [h]
  rw [str_empty_append]

theorem allLine_eq (pos : Position) (ref : FuncRef) :
    allLine (pos, ref) = pos.String ++ ": " ++ ref ++ "\n" := by
  unfold allLine printAllVisitor
  simp only
  rw [str_empty_append]

theorem PrintBadFuncRefs_check {Func : Type} (E : Env Func) (pkgs : List String)
    (sigs : GoMap String String) (dir : String) (w : String) (ps : List (Package Func))
    (hload : E.Load dir pkgs = Except.ok ps) (hs : sigs.keys.length ≠ 0) :
    PrintBadFuncRefs E pkgs sigs dir w =
      (if ps.all (fun p => (checkVisits E sigs p).all (fun x => (sigs.lookup x.2).isNone)) = false
        then some (GoError.errorf "") else none,
        w ++ joinLines (ps.flatMap (fun p => (checkVisits E sigs p).map (badLine E.wide sigs)))) := by
  unfold PrintBadFuncRefs printBadFuncRefsHelper
  rw [if_neg hs, printFuncRefUsages_check E pkgs sigs dir w ps hload hs]
  simp only
  split_ifs <;> rfl

theorem PrintAllFuncRefs_all {Func : Type} (E : Env Func) (pkgs : List String)
    (dir : String) (w : String) (ps : List (Package Func))
    (hload : E.Load dir pkgs = Except.ok ps) :
    PrintAllFuncRefs E pkgs dir w =
      (none, w ++ joinLines (ps.flatMap (fun p => (allVisits E p).map allLine))) := by
  unfold PrintAllFuncRefs
  rw [printFuncRefUsages_all E pkgs dir w ps hload]

/-! ### Check mode and list-all mode -/

/-- C2. With an empty denylist `PrintBadFuncRefs` writes nothing and returns nil, whatever
the package list, the directory and the load step (also one that would fail): the load
step is not reached. -/
theorem PrintBadFuncRefs_empty_denylist {Func : Type} (E : Env Func) (pkgs : List String)
    (dir : String) (w : String) :
    PrintBadFuncRefs E pkgs ∅ dir w = (none, w) := rfl

/-- C1, as the code has it. In check mode, after a successful load, the text written is
the lines of the packages in load order, and for every package the visitor calls have
pairwise distinct positions, each call writes one line that starts with its position, each
call comes from an identifier that resolves to a function whose signature is a key of the
denylist and whose position is not suppressed, and the position of every such identifier
is visited. So the lines correspond one-to-one to the distinct positions of the qualifying
occurrences. -/
theorem check_mode_lines {Func : Type} (E : Env Func) (pkgs : List String)
    (sigs : GoMap String String) (dir : String) (w : String) (ps : List (Package Func))
    (hload : E.Load dir pkgs = Except.ok ps) (hs : sigs.keys.length ≠ 0) :
    (PrintBadFuncRefs E pkgs sigs dir w).2 =
        w ++ joinLines (ps.flatMap (fun p => (checkVisits E sigs p).map (badLine E.wide sigs))) ∧
      ∀ p ∈ ps,
        ((checkVisits E sigs p).map Prod.fst).Nodup ∧
        (∀ pos ref, (pos, ref) ∈ checkVisits E sigs p →
          (∃ msg, badLine E.wide sigs (pos, ref) = pos.String ++ ": " ++ msg ++ "\n") ∧
          (sigs.lookup ref).isSome = true ∧ ¬ suppressed p pos ∧
          ∃ id f, p.Uses.lookup id = some (Object.func f) ∧ E.canon f = ref ∧
            p.Fset.Position id.Pos = pos) ∧
        (∀ id f, p.Uses.lookup id = some (Object.func f) →
          (sigs.lookup (E.canon f)).isSome = true →
          ¬ suppressed p (p.Fset.Position id.Pos) →
          ∃ ref, (p.Fset.Position id.Pos, ref) ∈ checkVisits E sigs p) := by
  refine ⟨by rw [PrintBadFuncRefs_check E pkgs sigs dir w ps hload hs], ?_⟩
  intro p _
  refine ⟨(checkVisits_sorted_nodup E sigs p).2, ?_, ?_⟩
  · intro pos ref h
    obtain ⟨reason, hr⟩ := checkVisits_lookup E sigs hs p pos ref h
    have hm := (mem_checkVisits E sigs p pos ref).mp h
    obtain ⟨id, f, hu, hc, _, hp, _⟩ := refAt_filePosFuncRefMap_sound _ _ _ _ _ _ _ _ hm.1
    exact ⟨⟨_, badLine_eq E.wide sigs pos ref reason hr⟩, by rw [hr]; rfl, hm.2,
      id, f, hu, hc, hp⟩
  · intro id f hu hq hns
    obtain ⟨ref, hr⟩ := refAt_filePosFuncRefMap_complete E.sorter E.canon p.Uses p.Fset sigs
      id f hu (fun _ => hq)
    exact ⟨ref, (mem_checkVisits E sigs p _ ref).mpr ⟨hr, hns⟩⟩

/-- C6, as the code has it. In list-all mode, after a successful load, the text written is
the lines of the packages in load order, and for every package the visitor calls have
pairwise distinct positions, each call writes the line `position: signature`, each call
comes from an identifier that resolves to a function with that signature, the position of
every identifier that resolves to a function is visited, and the comments of the package
play no part. So the lines correspond one-to-one to the distinct positions of the
occurrences of functions. -/
theorem list_all_mode_lines {Func : Type} (E : Env Func) (pkgs : List String)
    (dir : String) (w : String) (ps : List (Package Func))
    (hload : E.Load dir pkgs = Except.ok ps) :
    (PrintAllFuncRefs E pkgs dir w).2 =
        w ++ joinLines (ps.flatMap (fun p => (allVisits E p).map allLine)) ∧
      ∀ p ∈ ps,
        ((allVisits E p).map Prod.fst).Nodup ∧
        (∀ pos ref, (pos, ref) ∈ allVisits E p →
          allLine (pos, ref) = pos.String ++ ": " ++ ref ++ "\n" ∧
          ∃ id f, p.Uses.lookup id = some (Object.func f) ∧ E.canon f = ref ∧
            p.Fset.Position id.Pos = pos) ∧
        (∀ id f, p.Uses.lookup id = some (Object.func f) →
          ∃ ref, (p.Fset.Position id.Pos, ref) ∈ allVisits E p) ∧
        (∀ files : List File, allVisits E ⟨p.Uses, p.Fset, files⟩ = allVisits E p) := by
  refine ⟨by rw [PrintAllFuncRefs_all E pkgs dir w ps hload], ?_⟩
  intro p _
  refine ⟨(allVisits_sorted_nodup E p).2, ?_, ?_, fun _ => rfl⟩
  · intro pos ref h
    have hm := (mem_allVisits E p pos ref).mp h
    obtain ⟨id, f, hu, hc, _, hp, _⟩ := refAt_filePosFuncRefMap_sound _ _ _ _ _ _ _ _ hm
    exact ⟨allLine_eq pos ref, id, f, hu, hc, hp⟩
  · intro id f hu
    obtain ⟨ref, hr⟩ := refAt_filePosFuncRefMap_complete E.sorter E.canon p.Uses p.Fset ∅
      id f hu (fun h => absurd h (by simp))
    exact ⟨ref, (mem_allVisits E p _ ref).mpr hr⟩

/-- C7. For a reference map that files every position under its own file name,
`visitInOrder` calls the visitor in ascending order of file path, then line, then
column. -/
theorem visitInOrder_sorted (S : SortImpl) (m : RefMap)
    (hkey : ∀ file pos ref, refAt m file pos = some ref → pos.Filename = file) :
    ((visitInOrder S m recordVisits []).map Prod.fst).Pairwise posLE := by
  rw [visitInOrder_recordVisits]
  exact visitSeq_sorted S m hkey

/-- C8, as the code has it. After a successful load the text written, in either mode, is
the concatenation in load order of the texts of the packages, and within each package
the lines are in ascending order of file path, then line, then column. -/
theorem output_package_by_package {Func : Type} (E : Env Func) (pkgs : List String)
    (sigs : GoMap String String) (dir : String) (w : String) (ps : List (Package Func))
    (hload : E.Load dir pkgs = Except.ok ps) (hs : sigs.keys.length ≠ 0) :
    (PrintAllFuncRefs E pkgs dir w).2 =
        w ++ joinLines (ps.map (fun p => joinLines ((allVisits E p).map allLine))) ∧
      (PrintBadFuncRefs E pkgs sigs dir w).2 =
        w ++ joinLines (ps.map (fun p =>
          joinLines ((checkVisits E sigs p).map (badLine E.wide sigs)))) ∧
      ∀ p ∈ ps, ((allVisits E p).map Prod.fst).Pairwise posLE ∧
        ((checkVisits E sigs p).map Prod.fst).Pairwise posLE := by
  have hj : ∀ (g : Package Func → List String) (l : List (Package Func)),
      joinLines (l.flatMap g) = joinLines (l.map (fun p => joinLines (g p))) := by
    intro g l
    induction l with
    | nil => rfl
    | cons a l ih => rw [List.flatMap_cons, joinLines_append, ih]; rfl
  refine ⟨?_, ?_, fun p _ => ⟨(allVisits_sorted_nodup E p).1,
    (checkVisits_sorted_nodup E sigs p).1⟩⟩
  · rw [PrintAllFuncRefs_all E pkgs dir w ps hload, hj]
  · rw [PrintBadFuncRefs_check E pkgs sigs dir w ps hload hs, hj]

theorem joinLines_mem (l : List String) (x : String) (h : x ∈ l) :
    ∃ pre post, joinLines l = pre ++ x ++ post := by
  obtain ⟨s1, t1, rfl⟩ := List.append_of_mem h
  refine ⟨joinLines s1, joinLines t1, ?_⟩
  rw [joinLines_append, joinLines_cons, String.append_assoc]

/-- C5. A comment that is the marker `// OK:` followed by nothing or by characters of the
class `\s` only is rejected by the predicate; when it stands on the line before an
identifier that resolves to a denylisted function, a line at the position of that
identifier is written and `PrintBadFuncRefs` returns an error. -/
theorem bare_marker_does_not_suppress {Func : Type} (E : Env Func) (pkgs : List String)
    (sigs : GoMap String String) (dir : String) (w : String) (ps : List (Package Func))
    (p : Package Func) (id : Ident) (f : Func) (lineToComment : GoMap Int String)
    (ws : List Char)
    (hload : E.Load dir pkgs = Except.ok ps) (hp : p ∈ ps)
    (hu : p.Uses.lookup id = some (Object.func f))
    (hq : (sigs.lookup (E.canon f)).isSome = true)
    (hfile : (fileLineCommentMap p.Fset p.Syntax).lookup (p.Fset.Position id.Pos).Filename =
      some lineToComment)
    (hline : lineToComment.lookup ((p.Fset.Position id.Pos).Line - 1) =
      some (String.mk ("// OK:".data ++ ws)))
    (hws : ∀ c ∈ ws, isSpace c = true) :
    okCommentRegxp.MatchString (String.mk ("// OK:".data ++ ws)) = false ∧
      (∃ ref, (p.Fset.Position id.Pos, ref) ∈ checkVisits E sigs p) ∧
      (∃ msg pre post, (PrintBadFuncRefs E pkgs sigs dir w).2 =
        pre ++ ((p.Fset.Position id.Pos).String ++ ": " ++ msg ++ "\n") ++ post) ∧
      (PrintBadFuncRefs E pkgs sigs dir w).1 = some (GoError.errorf "") := by
  have hrej := okCommentRegxp_rejects_bare_marker ws hws
  have hs : sigs.keys.length ≠ 0 := by
    obtain ⟨v, hv⟩ := Option.isSome_iff_exists.mp hq
    have hm : E.canon f ∈ sigs.keys := (mem_keys_iff_lookup sigs _).mpr ⟨v, hv⟩
    intro h0
    rw [List.length_eq_zero] at h0
    rw [h0] at hm
    simp at hm
  have hns : ¬ suppressed p (p.Fset.Position id.Pos) := by
    rintro ⟨ltc, text, h1, h2, h3⟩
    rw [hfile] at h1
    have hl : lineToComment = ltc := Option.some.inj h1
    rw [← hl, hline] at h2
    have ht := Option.some.inj h2
    rw [← ht, hrej] at h3
    exact Bool.noConfusion h3
  obtain ⟨ref, hr⟩ := refAt_filePosFuncRefMap_complete E.sorter E.canon p.Uses p.Fset sigs
    id f hu (fun _ => hq)
  have hmem : (p.Fset.Position id.Pos, ref) ∈ checkVisits E sigs p :=
    (mem_checkVisits E sigs p _ ref).mpr ⟨hr, hns⟩
  obtain ⟨reason, hreason⟩ := checkVisits_lookup E sigs hs p _ ref hmem
  have hout := PrintBadFuncRefs_check E pkgs sigs dir w ps hload hs
  refine ⟨hrej, ⟨ref, hmem⟩, ?_, ?_⟩
  · have hin : badLine E.wide sigs (p.Fset.Position id.Pos, ref) ∈
        ps.flatMap (fun p => (checkVisits E sigs p).map (badLine E.wide sigs)) :=
      List.mem_flatMap.mpr ⟨p, hp, List.mem_map.mpr ⟨_, hmem, rfl⟩⟩
    obtain ⟨pre, post, hj⟩ := joinLines_mem _ _ hin
    refine ⟨if reason = "" then defaultReason E.wide ref else reason, w ++ pre, post, ?_⟩
    rw [hout]
    simp only
    rw [hj, badLine_eq E.wide sigs _ ref reason hreason]
    simp only [String.append_assoc]
  · rw [hout]
    simp only
    rw [if_pos]
    rw [Bool.eq_false_iff]
    intro hall
    rw [List.all_eq_true] at hall
    have h1 := hall p hp
    rw [List.all_eq_true] at h1
    have h2 := h1 _ hmem
    simp only at h2
    rw [hreason] at h2
    exact Bool.noConfusion h2

/-! ### Rendering -/

theorem flatMap_appendEscapedRune_plain (wide : Char → Bool) :
    ∀ l : List Char, (∀ c ∈ l, IsPrint wide c = true ∧ c ≠ '"' ∧ c ≠ '\\') →
      l.flatMap (appendEscapedRune wide) = l := by
  intro l
  induction l with
  | nil => intro _; rfl
  | cons c l ih =>
    intro h
    have hc := h c (List.mem_cons_self _ _)
    have hl := ih (fun d hd => h d (List.mem_cons_of_mem _ hd))
    rw [List.flatMap_cons, hl]
    unfold appendEscapedRune
    simp [hc.1, hc.2.1, hc.2.2]

theorem Quote_plain (wide : Char → Bool) (ref : String)
    (h : ∀ c ∈ ref.data, IsPrint wide c = true ∧ c ≠ '"' ∧ c ≠ '\\') :
    Quote wide ref = "\"" ++ ref ++ "\"" := by
  unfold Quote
  rw [flatMap_appendEscapedRune_plain wide ref.data h]
  apply String.ext
  simp [String.data_append]

/-- C9, as the code has it. For a reference whose signature is a key of the denylist, the
check-mode visitor writes the stored message when it is not empty, and otherwise the
default text with the signature quoted by the verb `%q`; the quoted signature is the
signature itself between double quotes when all its characters are printable and none is
a double quote or a backslash. -/
theorem rendered_message (wide : Char → Bool) (sigs : GoMap String String) (pos : Position)
    (ref : FuncRef) (reason : String) (st : Bool × String)
    (h : sigs.lookup ref = some reason) :
    printBadVisitor wide sigs pos ref st =
        (false, st.2 ++ (pos.String ++ ": " ++
          (if reason = "" then
            "references to " ++ Quote wide ref ++
              " are not allowed. Remove this reference or whitelist it by adding a comment of the form '// OK: [reason]' to the line before it."
          else reason) ++ "\n")) ∧
      ((∀ c ∈ ref.data, IsPrint wide c = true ∧ c ≠ '"' ∧ c ≠ '\\') →
        Quote wide ref = "\"" ++ ref ++ "\"") := by
  refine ⟨?_, Quote_plain wide ref⟩
  unfold printBadVisitor defaultReason
  simp only [h]

theorem str_append_ne_empty (a b : String) (hb : b ≠ "") : a ++ b ≠ "" := by
  intro h
  apply hb
  have hd := congrArg String.data h
  rw [String.data_append] at hd
  apply String.ext
  exact (List.append_eq_nil.mp hd).2

theorem positionString_valid (pos : Position) (hl : 1 ≤ pos.Line) (hc : 1 ≤ pos.Column) :
    (pos.Filename ≠ "" →
      pos.String = pos.Filename ++ ":" ++ Itoa pos.Line ++ ":" ++ Itoa pos.Column) ∧
    (pos.Filename = "" → pos.String = Itoa pos.Line ++ ":" ++ Itoa pos.Column) := by
  have hv : pos.IsValid = true := by
    unfold Position.IsValid
    simp only [decide_eq_true_eq]
    omega
  have hc0 : pos.Column ≠ 0 := by omega
  have hne : ∀ a : String, a ++ Itoa pos.Line ++ (":" ++ Itoa pos.Column) ≠ "" := fun a =>
    str_append_ne_empty _ _ (by
      intro h
      have hd := congrArg String.data h
      have hcons : (":" ++ Itoa pos.Column).data = ':' :: (Itoa pos.Column).data := rfl
      rw [hcons] at hd
      exact List.noConfusion hd)
  constructor
  · intro hf
    unfold Position.String
    simp only [hv, hf, hc0, if_true, ne_eq, not_false_eq_true]
    rw [if_neg (hne _)]
    simp only [String.append_assoc]
  · intro hf
    unfold Position.String
    simp only [hv, hf, hc0, if_true, ne_eq, not_false_eq_true, not_true_eq_false, if_false]
    rw [if_neg (hne _)]
    simp only [String.append_assoc, str_empty_append]

/-- C10, as the code has it. For a reference at line `l >= 1` and column `c >= 1` the text
written by either visitor is `f:l:c: m` and a newline when the file name `f` is not empty,
and `l:c: m` and a newline when it is empty, with `l` and `c` in decimal; and when no
package has a reference to report, nothing is written. -/
theorem diagnostic_line_format {Func : Type} (E : Env Func) (pkgs : List String)
    (sigs : GoMap String String) (dir : String) (w : String) (ps : List (Package Func))
    (pos : Position) (ref : FuncRef) (reason : String) (st : Bool × String)
    (hl : 1 ≤ pos.Line) (hc : 1 ≤ pos.Column) :
    (pos.Filename ≠ "" →
      printAllVisitor pos ref st =
        (st.1, st.2 ++ (pos.Filename ++ ":" ++ Itoa pos.Line ++ ":" ++ Itoa pos.Column ++
          ": " ++ ref ++ "\n")) ∧
      (sigs.lookup ref = some reason →
        printBadVisitor E.wide sigs pos ref st =
          (false, st.2 ++ (pos.Filename ++ ":" ++ Itoa pos.Line ++ ":" ++ Itoa pos.Column ++
            ": " ++ (if reason = "" then defaultReason E.wide ref else reason) ++ "\n")))) ∧
    (pos.Filename = "" →
      printAllVisitor pos ref st =
        (st.1, st.2 ++ (Itoa pos.Line ++ ":" ++ Itoa pos.Column ++ ": " ++ ref ++ "\n")) ∧
      (sigs.lookup ref = some reason →
        printBadVisitor E.wide sigs pos ref st =
          (false, st.2 ++ (Itoa pos.Line ++ ":" ++ Itoa pos.Column ++
            ": " ++ (if reason = "" then defaultReason E.wide ref else reason) ++ "\n")))) ∧
    (E.Load dir pkgs = Except.ok ps → (∀ p ∈ ps, allVisits E p = []) →
      (PrintAllFuncRefs E pkgs dir w).2 = w) ∧
    (E.Load dir pkgs = Except.ok ps → sigs.keys.length ≠ 0 →
      (∀ p ∈ ps, checkVisits E sigs p = []) →
      (PrintBadFuncRefs E pkgs sigs dir w).2 = w) := by
  have hnil : ∀ (g : Package Func → List String), (∀ p ∈ ps, g p = []) →
      w ++ joinLines (ps.flatMap g) = w := by
    intro g hg
    have h0 : ps.flatMap g = [] := by
      rw [List.flatMap_eq_nil_iff]
      exact hg
    rw [h0]
    apply String.ext
    simp [joinLines, String.data_append]
  refine ⟨fun hf => ⟨?_, fun hr => ?_⟩, fun hf => ⟨?_, fun hr => ?_⟩, ?_, ?_⟩
  · unfold printAllVisitor
    rw [(positionString_valid pos hl hc).1 hf]
  · unfold printBadVisitor
    simp only [hr]
    rw [(positionString_valid pos hl hc).1 hf]
  · unfold printAllVisitor
    rw [(positionString_valid pos hl hc).2 hf]
  · unfold printBadVisitor
    simp only [hr]
    rw [(positionString_valid pos hl hc).2 hf]
  · intro hload hno
    rw [PrintAllFuncRefs_all E pkgs dir w ps hload]
    exact hnil _ (fun p hp => by rw [hno p hp]; rfl)
  · intro hload hs hno
    rw [PrintBadFuncRefs_check E pkgs sigs dir w ps hload hs]
    exact hnil _ (fun p hp => by rw [hno p hp]; rfl)

/-! ### Concrete runs -/

/-- C1, counterexample. Two identifiers of one package resolve to the denylisted function
`exDo` and to the same position `gen.go:7`, no comment suppresses them, and check mode
writes one line for the two occurrences. -/
theorem check_mode_two_occurrences_one_line :
    exPkgLineDirective.Uses.lookup ⟨40, "Do"⟩ = some (Object.func exDo) ∧
      exPkgLineDirective.Uses.lookup ⟨101, "Do"⟩ = some (Object.func exDo) ∧
      (exSigs exDo "No").lookup exDo = some "No" ∧
      exPkgLineDirective.Syntax = [] ∧
      PrintBadFuncRefs (exEnv [exPkgLineDirective]) ["./..."] (exSigs exDo "No") "" "" =
        (some (GoError.errorf ""), "gen.go:7: No\n") := by
  decide

/-- C1, witness: the package of two files under the denylist of `exDo`. -/
theorem check_mode_lines_witness :
    (exEnv [exPkgTwoFiles]).Load "" ["./..."] = Except.ok [exPkgTwoFiles] ∧
      (exSigs exDo "No").keys.length ≠ 0 ∧
      (PrintBadFuncRefs (exEnv [exPkgTwoFiles]) ["./..."] (exSigs exDo "No") "" "").2 =
        "" ++ joinLines ([exPkgTwoFiles].flatMap (fun p =>
          (checkVisits (exEnv [exPkgTwoFiles]) (exSigs exDo "No") p).map
            (badLine (exEnv [exPkgTwoFiles]).wide (exSigs exDo "No")))) :=
  ⟨rfl, by decide,
    (check_mode_lines (exEnv [exPkgTwoFiles]) ["./..."] (exSigs exDo "No") "" ""
      [exPkgTwoFiles] rfl (by decide)).1⟩

/-- C5, witness: line 8 of `foo/foo.go` holds `// OK: ` and the call on line 9 is
reported. -/
theorem bare_marker_does_not_suppress_witness :
    (∀ c ∈ [' '], isSpace c = true) ∧
      (PrintBadFuncRefs (exEnv [exPkgTwoFiles]) ["./..."] (exSigs exDo "No") "" "").1 =
        some (GoError.errorf "") :=
  ⟨by decide,
    (bare_marker_does_not_suppress (exEnv [exPkgTwoFiles]) ["./..."] (exSigs exDo "No") "" ""
      [exPkgTwoFiles] exPkgTwoFiles ⟨95, "Do"⟩ exDo
      ((∅ : GoMap Int String).insert 8 "// OK: ") [' ']
      rfl (List.mem_cons_self _ _) (by decide) (by decide) rfl (by decide) (by decide)).2.2.2⟩

/-- C6, counterexample. Two identifiers of one package resolve to the function `exDo` and
to the same position `gen.go:7`, and list-all mode writes one line for the two
occurrences. -/
theorem list_all_two_occurrences_one_line :
    exPkgLineDirective.Uses.lookup ⟨40, "Do"⟩ = some (Object.func exDo) ∧
      exPkgLineDirective.Uses.lookup ⟨101, "Do"⟩ = some (Object.func exDo) ∧
      PrintAllFuncRefs (exEnv [exPkgLineDirective]) ["./..."] "" "" =
        (none,
          "gen.go:7: func (*net/http.Client).Do(*net/http.Request) (*net/http.Response, error)\n") := by
  decide

/-- C6, witness: the package of two files. -/
theorem list_all_mode_lines_witness :
    (exEnv [exPkgTwoFiles]).Load "" ["./..."] = Except.ok [exPkgTwoFiles] ∧
      (PrintAllFuncRefs (exEnv [exPkgTwoFiles]) ["./..."] "" "").2 =
        "" ++ joinLines ([exPkgTwoFiles].flatMap (fun p =>
          (allVisits (exEnv [exPkgTwoFiles]) p).map allLine)) :=
  ⟨rfl, (list_all_mode_lines (exEnv [exPkgTwoFiles]) ["./..."] "" "" [exPkgTwoFiles] rfl).1⟩

/-- C7, witness: one reference at line 9 column 21 in each of `a/b.go` and `a/a.go`; the
visitor is called for `a/a.go` first. -/
theorem visitInOrder_sorted_witness :
    ((visitInOrder insertionSortImpl exRefMap recordVisits []).map Prod.fst).Pairwise posLE ∧
      (visitInOrder insertionSortImpl exRefMap recordVisits []).map Prod.fst =
        [⟨"a/a.go", 94, 9, 21⟩, ⟨"a/b.go", 94, 9, 21⟩] :=
  ⟨visitInOrder_sorted insertionSortImpl exRefMap ((wellKeyed_iff exRefMap).mp (by decide)),
    by decide⟩

/-- C8, counterexample. Packages `a` and `a/b` are loaded in this order; the line of
`a/z.go` is written before the line of `a/b/x.go`, although `a/b/x.go` is the smaller
path. -/
theorem output_not_globally_sorted :
    (PrintAllFuncRefs (exEnv [exPkgA, exPkgAB]) ["./..."] "" "").2 =
        "a/z.go:3:2: func a.f()\na/b/x.go:3:2: func a/b.g()\n" ∧
      strLess "a/b/x.go" "a/z.go" = true := by
  decide

/-- C8, witness: the packages `a` and `a/b`. -/
theorem output_package_by_package_witness :
    (exEnv [exPkgA, exPkgAB]).Load "" ["./..."] = Except.ok [exPkgA, exPkgAB] ∧
      (exSigs "func a.f()" "No").keys.length ≠ 0 ∧
      (PrintAllFuncRefs (exEnv [exPkgA, exPkgAB]) ["./..."] "" "").2 =
        "" ++ joinLines ([exPkgA, exPkgAB].map (fun p =>
          joinLines ((allVisits (exEnv [exPkgA, exPkgAB]) p).map allLine))) :=
  ⟨rfl, by decide,
    (output_package_by_package (exEnv [exPkgA, exPkgAB]) ["./..."] (exSigs "func a.f()" "No")
      "" "" [exPkgA, exPkgAB] rfl (by decide)).1⟩

/-- C9, counterexample. For the signature `exTagged`, which contains double quotes, the
default message holds the quotes escaped by backslashes, not the signature itself. -/
theorem default_message_escapes_signature :
    (PrintBadFuncRefs (exEnv [exPkgTagged]) ["./..."] (exSigs exTagged "") "" "").2 =
        "p/p.go:3:2: references to \"func p.F(struct\x7bA int \\\"k\\\"\x7d)\" are not allowed. Remove this reference or whitelist it by adding a comment of the form '// OK: [reason]' to the line before it.\n" ∧
      (PrintBadFuncRefs (exEnv [exPkgTagged]) ["./..."] (exSigs exTagged "") "" "").2 ≠
        "p/p.go:3:2: references to \"" ++ exTagged ++
          "\" are not allowed. Remove this reference or whitelist it by adding a comment of the form '// OK: [reason]' to the line before it.\n" := by
  decide

/-- C9, witness: the signature `exDo` with an empty stored message. -/
theorem rendered_message_witness :
    (exSigs exDo "").lookup exDo = some "" ∧
      printBadVisitor (fun _ => true) (exSigs exDo "") ⟨"foo/foo.go", 94, 9, 21⟩ exDo (true, "") =
        (false, "" ++ ("foo/foo.go:9:21" ++ ": " ++
          ("references to " ++ Quote (fun _ => true) exDo ++
            " are not allowed. Remove this reference or whitelist it by adding a comment of the form '// OK: [reason]' to the line before it.") ++ "\n")) ∧
      Quote (fun _ => true) exDo = "\"" ++ exDo ++ "\"" :=
  ⟨by decide,
    (rendered_message (fun _ => true) (exSigs exDo "") ⟨"foo/foo.go", 94, 9, 21⟩ exDo ""
      (true, "") (by decide)).1,
    (rendered_message (fun _ => true) (exSigs exDo "") ⟨"foo/foo.go", 94, 9, 21⟩ exDo ""
      (true, "") (by decide)).2 (by decide)⟩

/-- C10, counterexample. A reference at line 10 column 5 of a file whose name is empty is
written as `10:5: m`, without a leading colon. -/
theorem empty_file_name_line :
    exPkgNoName.Fset.Position 50 = ⟨"", 49, 10, 5⟩ ∧
      (PrintAllFuncRefs (exEnv [exPkgNoName]) ["./..."] "" "").2 =
        "10:5: func (*net/http.Client).Do(*net/http.Request) (*net/http.Response, error)\n" ∧
      (PrintAllFuncRefs (exEnv [exPkgNoName]) ["./..."] "" "").2 ≠
        ":10:5: func (*net/http.Client).Do(*net/http.Request) (*net/http.Response, error)\n" := by
  decide

/-- C10, witness: the position `foo/foo.go:9:21`. -/
theorem diagnostic_line_format_witness :
    (1 : Int) ≤ 9 ∧ (1 : Int) ≤ 21 ∧
      printAllVisitor ⟨"foo/foo.go", 94, 9, 21⟩ exDo (true, "") =
        (true, "" ++ ("foo/foo.go" ++ ":" ++ Itoa 9 ++ ":" ++ Itoa 21 ++ ": " ++ exDo ++ "\n")) :=
  ⟨by decide, by decide,
    ((diagnostic_line_format (exEnv [exPkgTwoFiles]) ["./..."] (exSigs exDo "") "" ""
      [exPkgTwoFiles] ⟨"foo/foo.go", 94, 9, 21⟩ exDo "" (true, "")
      (by decide) (by decide)).1 (by decide)).1⟩

/-! ### Verdicts and errors -/

theorem str_append_right_cancel (w x : String) (h : w ++ x = w) : x = "" := by
  have hd := congrArg String.data h
  rw [String.data_append] at hd
  apply String.ext
  exact List.append_right_eq_self.mp hd

theorem str_append_empty (w : String) : w ++ "" = w := by
  apply String.ext
  simp [String.data_append]

theorem joinLines_eq_empty (l : List String) (hne : ∀ x ∈ l, x ≠ "")
    (h : joinLines l = "") : l = [] := by
  cases l with
  | nil => rfl
  | cons a l =>
    exfalso
    rw [joinLines_cons] at h
    have hd := congrArg String.data h
    rw [String.data_append] at hd
    have ha : a.data = [] := (List.append_eq_nil.mp hd).1
    exact hne a (List.mem_cons_self _ _) (String.ext ha)

theorem badLine_ne_empty (wide : Char → Bool) (sigs : GoMap String String) (pos : Position)
    (ref : FuncRef) (reason : String) (h : sigs.lookup ref = some reason) :
    badLine wide sigs (pos, ref) ≠ "" := by
  rw [badLine_eq wide sigs pos ref reason h]
  exact str_append_ne_empty _ _ (by decide)

theorem checkLines_ne_empty {Func : Type} (E : Env Func) (sigs : GoMap String String)
    (hs : sigs.keys.length ≠ 0) (ps : List (Package Func)) :
    ∀ x ∈ ps.flatMap (fun p => (checkVisits E sigs p).map (badLine E.wide sigs)), x ≠ "" := by
  intro x hx
  obtain ⟨p, _, hxp⟩ := List.mem_flatMap.mp hx
  obtain ⟨⟨pos, ref⟩, hv, rfl⟩ := List.mem_map.mp hxp
  obtain ⟨reason, hr⟩ := checkVisits_lookup E sigs hs p pos ref hv
  exact badLine_ne_empty E.wide sigs pos ref reason hr

theorem checkVerdict_iff {Func : Type} (E : Env Func) (sigs : GoMap String String)
    (hs : sigs.keys.length ≠ 0) (ps : List (Package Func)) :
    ps.all (fun p => (checkVisits E sigs p).all (fun x => (sigs.lookup x.2).isNone)) = true ↔
      ps.flatMap (fun p => (checkVisits E sigs p).map (badLine E.wide sigs)) = [] := by
  rw [List.all_eq_true, List.flatMap_eq_nil_iff]
  constructor
  · intro h p hp
    have hp1 := h p hp
    rw [List.all_eq_true] at hp1
    cases hv : checkVisits E sigs p with
    | nil => rfl
    | cons x l =>
      exfalso
      have hx : x ∈ checkVisits E sigs p := by rw [hv]; exact List.mem_cons_self _ _
      obtain ⟨reason, hr⟩ := checkVisits_lookup E sigs hs p x.1 x.2 hx
      have h2 := hp1 x hx
      simp only at h2
      rw [hr] at h2
      exact Bool.noConfusion h2
  · intro h p hp
    have hp1 := h p hp
    rw [List.map_eq_nil_iff] at hp1
    rw [hp1]
    rfl

/-- C11. In check mode with a non-empty denylist and a successful load, `PrintBadFuncRefs`
returns nil exactly when no line was written for any package, returns the error exactly
when at least one line was written, and no line was written exactly when the text on the
writer is unchanged. -/
theorem verdict_iff_lines {Func : Type} (E : Env Func) (pkgs : List String)
    (sigs : GoMap String String) (dir : String) (w : String) (ps : List (Package Func))
    (hload : E.Load dir pkgs = Except.ok ps) (hs : sigs.keys.length ≠ 0) :
    ((PrintBadFuncRefs E pkgs sigs dir w).1 = none ↔
      ps.flatMap (fun p => (checkVisits E sigs p).map (badLine E.wide sigs)) = []) ∧
    ((PrintBadFuncRefs E pkgs sigs dir w).1 = some (GoError.errorf "") ↔
      ps.flatMap (fun p => (checkVisits E sigs p).map (badLine E.wide sigs)) ≠ []) ∧
    (ps.flatMap (fun p => (checkVisits E sigs p).map (badLine E.wide sigs)) = [] ↔
      (PrintBadFuncRefs E pkgs sigs dir w).2 = w) := by
  rw [PrintBadFuncRefs_check E pkgs sigs dir w ps hload hs]
  have hv := checkVerdict_iff E sigs hs ps
  simp only
  refine ⟨?_, ?_, ?_⟩
  · by_cases hl : ps.flatMap (fun p => (checkVisits E sigs p).map (badLine E.wide sigs)) = []
    · have ht := hv.mpr hl
      simp [ht, hl]
    · have hf : ps.all (fun p =>
          (checkVisits E sigs p).all (fun x => (sigs.lookup x.2).isNone)) = false := by
        rw [Bool.eq_false_iff]
        exact fun ht => hl (hv.mp ht)
      simp [hf, hl]
  · by_cases hl : ps.flatMap (fun p => (checkVisits E sigs p).map (badLine E.wide sigs)) = []
    · have ht := hv.mpr hl
      simp [ht, hl]
    · have hf : ps.all (fun p =>
          (checkVisits E sigs p).all (fun x => (sigs.lookup x.2).isNone)) = false := by
        rw [Bool.eq_false_iff]
        exact fun ht => hl (hv.mp ht)
      simp [hf, hl]
  · constructor
    · intro hl
      rw [hl]
      exact str_append_empty w
    · intro hw
      exact joinLines_eq_empty _ (checkLines_ne_empty E sigs hs ps)
        (str_append_right_cancel w _ hw)

/-- C12. Whenever the load step succeeds, `PrintAllFuncRefs` returns nil, whatever is
written. -/
theorem list_all_returns_nil {Func : Type} (E : Env Func) (pkgs : List String)
    (dir : String) (w : String) (ps : List (Package Func))
    (hload : E.Load dir pkgs = Except.ok ps) :
    (PrintAllFuncRefs E pkgs dir w).1 = none := by
  rw [PrintAllFuncRefs_all E pkgs dir w ps hload]

theorem printFuncRefUsages_load_error {Func : Type} (E : Env Func) (pkgs : List String)
    (sigs : GoMap String String) (dir : String) (w : String) (err : GoError)
    (hload : E.Load dir pkgs = Except.error err) :
    printFuncRefUsages E pkgs sigs dir w =
      ((false, some (GoError.wrapf err "failed to load packages")), w) := by
  unfold printFuncRefUsages
  rw [hload]

theorem PrintBadFuncRefs_load_error {Func : Type} (E : Env Func) (pkgs : List String)
    (sigs : GoMap String String) (dir : String) (w : String) (err : GoError)
    (hload : E.Load dir pkgs = Except.error err) (hs : sigs.keys.length ≠ 0) :
    PrintBadFuncRefs E pkgs sigs dir w =
      (some (GoError.wrapf err "failed to load packages"), w) := by
  unfold PrintBadFuncRefs printBadFuncRefsHelper
  rw [if_neg hs, printFuncRefUsages_load_error E pkgs sigs dir w err hload]

/-- C13. When the load step returns an error, list-all mode and check mode with a
non-empty denylist write nothing and return the error that wraps the cause with the
context `failed to load packages`; its message is that context, a colon and the message
of the cause. -/
theorem load_error_is_wrapped {Func : Type} (E : Env Func) (pkgs : List String)
    (sigs : GoMap String String) (dir : String) (w : String) (err : GoError)
    (hload : E.Load dir pkgs = Except.error err) :
    PrintAllFuncRefs E pkgs dir w =
        (some (GoError.wrapf err "failed to load packages"), w) ∧
      (sigs.keys.length ≠ 0 →
        PrintBadFuncRefs E pkgs sigs dir w =
          (some (GoError.wrapf err "failed to load packages"), w)) ∧
      (GoError.wrapf err "failed to load packages").Error =
        "failed to load packages: " ++ err.Error := by
  refine ⟨?_, PrintBadFuncRefs_load_error E pkgs sigs dir w err hload, rfl⟩
  unfold PrintAllFuncRefs
  rw [printFuncRefUsages_load_error E pkgs ∅ dir w err hload]

/-- C14. The error of a policy failure (at least one line written) has the empty message;
the error of a load failure has a non-empty message that begins with
`failed to load packages`; the two errors and their messages differ. -/
theorem policy_error_differs_from_load_error {Func : Type} (E1 E2 : Env Func)
    (pkgs1 pkgs2 : List String) (sigs1 sigs2 : GoMap String String) (dir1 dir2 : String)
    (w1 w2 : String) (ps : List (Package Func)) (err : GoError)
    (hload1 : E1.Load dir1 pkgs1 = Except.ok ps) (hs1 : sigs1.keys.length ≠ 0)
    (hlines : (PrintBadFuncRefs E1 pkgs1 sigs1 dir1 w1).2 ≠ w1)
    (hload2 : E2.Load dir2 pkgs2 = Except.error err) (hs2 : sigs2.keys.length ≠ 0) :
    ∃ e1 e2 : GoError,
      (PrintBadFuncRefs E1 pkgs1 sigs1 dir1 w1).1 = some e1 ∧
      (PrintBadFuncRefs E2 pkgs2 sigs2 dir2 w2).1 = some e2 ∧
      e1.Error = "" ∧ e2.Error ≠ "" ∧
      List.isPrefixOf "failed to load packages".data e2.Error.data = true ∧
      e1.Error ≠ e2.Error ∧ e1 ≠ e2 := by
  have hc := PrintBadFuncRefs_check E1 pkgs1 sigs1 dir1 w1 ps hload1 hs1
  have hv := checkVerdict_iff E1 sigs1 hs1 ps
  have hl : ps.flatMap (fun p => (checkVisits E1 sigs1 p).map (badLine E1.wide sigs1)) ≠ [] := by
    intro h0
    apply hlines
    rw [hc]
    simp only
    rw [h0]
    exact str_append_empty w1
  have hf : ps.all (fun p =>
      (checkVisits E1 sigs1 p).all (fun x => (sigs1.lookup x.2).isNone)) = false := by
    rw [Bool.eq_false_iff]
    exact fun ht => hl (hv.mp ht)
  have hmsg : (GoError.wrapf err "failed to load packages").Error =
      "failed to load packages" ++ (": " ++ err.Error) := by
    show "failed to load packages" ++ ": " ++ err.Error = _
    rw [String.append_assoc]
  have hne : (GoError.wrapf err "failed to load packages").Error ≠ "" := by
    rw [hmsg]
    exact str_append_ne_empty _ _ (by
      intro h
      have hd := congrArg String.data h
      have hcons : (": " ++ err.Error).data = ':' :: ' ' :: err.Error.data := rfl
      rw [hcons] at hd
      exact List.noConfusion hd)
  refine ⟨GoError.errorf "", GoError.wrapf err "failed to load packages", ?_, ?_, rfl, hne,
    ?_, ?_, ?_⟩
  · rw [hc]
    simp only [hf, if_true]
  · rw [PrintBadFuncRefs_load_error E2 pkgs2 sigs2 dir2 w2 err hload2 hs2]
  · rw [hmsg, String.data_append]
    exact List.isPrefixOf_iff_prefix.mpr (List.prefix_append _ _)
  · intro h
    exact hne h.symm
  · intro h
    exact GoError.noConfusion h

/-- C19. Two comments that start on the same line of one file: the map returned by
`fileLineCommentMap` holds the text of the second at that line, and the text of the first
is in no entry of the map. -/
theorem fileLineCommentMap_drops_comment :
    ((fileLineCommentMap exFsetSameLine exFilesSameLine).lookup "a.go").bind
        (fun lineToComment => lineToComment.lookup 3) = some "// second" ∧
      exFsetSameLine.Position 30 = ⟨"a.go", 29, 3, 1⟩ ∧
      (fileLineCommentMap exFsetSameLine exFilesSameLine).entries.all
        (fun e => e.2.entries.all (fun c => decide (c.2 ≠ "/* first */"))) = true := by
  decide

/-! ### Determinism -/

theorem sorted_perm_unique {α : Type} (r : α → α → Prop) :
    ∀ (l1 l2 : List α), List.Perm l1 l2 → l1.Pairwise r → l2.Pairwise r →
      (∀ a ∈ l1, ∀ b ∈ l1, r a b → r b a → a = b) → l1 = l2 := by
  intro l1
  induction l1 with
  | nil => intro l2 hp _ _ _; exact (List.Perm.nil_eq hp)
  | cons a t ih =>
    intro l2 hp h1 h2 hanti
    cases l2 with
    | nil => exact absurd hp.symm (List.not_perm_nil_cons _ _)
    | cons b u =>
      have hab : a = b := by
        have ha : a ∈ b :: u := hp.subset (List.mem_cons_self _ _)
        have hb : b ∈ a :: t := hp.symm.subset (List.mem_cons_self _ _)
        rcases List.mem_cons.mp ha with h | hau
        · exact h
        · rcases List.mem_cons.mp hb with h | hbt
          · exact h.symm
          · exact hanti a (List.mem_cons_self _ _) b hb
              ((List.pairwise_cons.mp h1).1 b hbt) ((List.pairwise_cons.mp h2).1 a hau)
      subst hab
      have hp2 : List.Perm t u := (List.perm_cons a).mp hp
      rw [ih u hp2 (List.pairwise_cons.mp h1).2 (List.pairwise_cons.mp h2).2
        (fun x hx y hy => hanti x (List.mem_cons_of_mem _ hx) y (List.mem_cons_of_mem _ hy))]

theorem perm_of_nodup_of_mem_iff {α : Type} [DecidableEq α] (l1 l2 : List α)
    (h1 : l1.Nodup) (h2 : l2.Nodup) (h : ∀ a, a ∈ l1 ↔ a ∈ l2) : List.Perm l1 l2 :=
  (List.perm_ext_iff_of_nodup h1 h2).mpr h

theorem sort_unique {α : Type} [DecidableEq α] (S1 S2 : SortImpl) (less : α → α → Bool)
    (l1 l2 : List α) (h1 : l1.Nodup) (h2 : l2.Nodup) (h : ∀ a, a ∈ l1 ↔ a ∈ l2)
    (hasym : ∀ a b, less a b = true → less b a = false)
    (htrans : ∀ a b c, less a b = false → less b c = false → less a c = false)
    (hanti : ∀ a ∈ l1, ∀ b ∈ l1, less b a = false → less a b = false → a = b) :
    S1.sort less l1 = S2.sort less l2 := by
  apply sorted_perm_unique (fun a b => less b a = false)
  · exact (S1.perm less l1).trans
      ((perm_of_nodup_of_mem_iff l1 l2 h1 h2 h).trans (S2.perm less l2).symm)
  · exact S1.sorted less l1 hasym htrans
  · exact S2.sorted less l2 hasym htrans
  · intro a ha b hb hab hba
    exact hanti a ((S1.perm less l1).mem_iff.mp ha) b ((S1.perm less l1).mem_iff.mp hb) hab hba

theorem lookup_getD_eq_refAt (m : RefMap) (file : String) (pos : Position) :
    AList.lookup pos ((AList.lookup file m).getD ∅) = refAt m file pos := by
  unfold refAt
  cases AList.lookup file m with
  | none => simp [AList.lookup_empty]
  | some inner => rfl

theorem flatMap_congr_mem {α β : Type} (f g : α → List β) :
    ∀ l : List α, (∀ a ∈ l, f a = g a) → l.flatMap f = l.flatMap g := by
  intro l
  induction l with
  | nil => intro _; rfl
  | cons a l ih =>
    intro h
    rw [List.flatMap_cons, List.flatMap_cons, h a (List.mem_cons_self _ _),
      ih (fun x hx => h x (List.mem_cons_of_mem _ hx))]

theorem visitSeq_deterministic (S1 S2 : SortImpl) (m1 m2 : RefMap)
    (hfiles : ∀ file, file ∈ m1.keys ↔ file ∈ m2.keys)
    (hrefs : ∀ file pos, refAt m1 file pos = refAt m2 file pos)
    (hdist : ∀ file pos1 pos2 r1 r2, refAt m1 file pos1 = some r1 →
      refAt m1 file pos2 = some r2 → pos1.Line = pos2.Line → pos1.Column = pos2.Column →
      pos1 = pos2) :
    visitSeq S1 m1 = visitSeq S2 m2 := by
  unfold visitSeq
  have hkeys : S1.sort strLess m1.keys = S2.sort strLess m2.keys :=
    sort_unique S1 S2 strLess m1.keys m2.keys (AList.keys_nodup _) (AList.keys_nodup _) hfiles
      strLess_asymm strLess_negtrans (fun a _ b _ hba hab => strLess_total a b hab hba)
  rw [hkeys]
  apply flatMap_congr_mem
  intro file _
  have hmem : ∀ (m : RefMap) (p : Position),
      p ∈ ((AList.lookup file m).getD ∅).keys ↔ ∃ v, refAt m file p = some v := by
    intro m p
    rw [mem_keys_iff_lookup, lookup_getD_eq_refAt]
  have hinner : S1.sort posSliceLess ((AList.lookup file m1).getD ∅).keys =
      S2.sort posSliceLess ((AList.lookup file m2).getD ∅).keys := by
    apply sort_unique S1 S2 posSliceLess _ _ (AList.keys_nodup _) (AList.keys_nodup _)
    · intro p
      rw [hmem m1 p, hmem m2 p, hrefs file p]
    · exact posSliceLess_asymm
    · exact posSliceLess_negtrans
    · intro a ha b hb hba hab
      obtain ⟨ra, hra⟩ := (hmem m1 a).mp ha
      obtain ⟨rb, hrb⟩ := (hmem m1 b).mp hb
      have h1 := (posSliceLess_false_iff a b).mp hba
      have h2 := (posSliceLess_false_iff b a).mp hab
      exact hdist file a b ra rb hra hrb (by omega) (by omega)
  rw [hinner]
  apply List.map_congr_left
  intro p _
  rw [lookup_getD_eq_refAt, lookup_getD_eq_refAt, hrefs file p]

theorem visitInOrder_deterministic_aux {σ : Type} (S1 S2 : SortImpl) (m1 m2 : RefMap)
    (hfiles : ∀ file, file ∈ m1.keys ↔ file ∈ m2.keys)
    (hrefs : ∀ file pos, refAt m1 file pos = refAt m2 file pos)
    (hdist : ∀ file pos1 pos2 r1 r2, refAt m1 file pos1 = some r1 →
      refAt m1 file pos2 = some r2 → pos1.Line = pos2.Line → pos1.Column = pos2.Column →
      pos1 = pos2)
    (visitor : Position → FuncRef → σ → σ) (s : σ) :
    visitInOrder S1 m1 visitor s = visitInOrder S2 m2 visitor s := by
  rw [visitInOrder_eq_foldl, visitInOrder_eq_foldl,
    visitSeq_deterministic S1 S2 m1 m2 hfiles hrefs hdist]

theorem filePosFuncRefMap_deterministic {Func : Type} (S1 S2 : SortImpl)
    (canon : Func → FuncRef) (uses1 uses2 : GoMap Ident (Object Func)) (fset : FileSet)
    (sigs : GoMap String String) (hperm : List.Perm uses1.entries uses2.entries)
    (hid : ∀ id1 ∈ uses1.keys, ∀ id2 ∈ uses1.keys, id1.Pos = id2.Pos → id1 = id2) :
    filePosFuncRefMap S1 canon uses1 fset sigs = filePosFuncRefMap S2 canon uses2 fset sigs := by
  have hlook : ∀ id, AList.lookup id uses1 = AList.lookup id uses2 := fun id =>
    AList.perm_lookup hperm
  have hkeys : S1.sort identSliceLess uses1.keys = S2.sort identSliceLess uses2.keys := by
    apply sort_unique S1 S2 identSliceLess _ _ (AList.keys_nodup _) (AList.keys_nodup _)
    · intro id
      rw [mem_keys_iff_lookup, mem_keys_iff_lookup, hlook id]
    · exact identSliceLess_asymm
    · exact identSliceLess_negtrans
    · intro a ha b hb hba hab
      unfold identSliceLess at hba hab
      simp only [decide_eq_false_iff_not] at hba hab
      exact hid a ha b hb (by omega)
  have hstep : filePosStep canon uses1 fset sigs = filePosStep canon uses2 fset sigs := by
    funext acc id
    unfold filePosStep
    rw [hlook id]
  rw [filePosFuncRefMap_eq_foldl, filePosFuncRefMap_eq_foldl, hkeys, hstep]

theorem filePosFuncRefMap_lineCol {Func : Type} (S : SortImpl) (canon : Func → FuncRef)
    (p : Package Func) (sigs : GoMap String String) (hd : lineColDistinct p) :
    ∀ file pos1 pos2 r1 r2,
      refAt (filePosFuncRefMap S canon p.Uses p.Fset sigs) file pos1 = some r1 →
      refAt (filePosFuncRefMap S canon p.Uses p.Fset sigs) file pos2 = some r2 →
      pos1.Line = pos2.Line → pos1.Column = pos2.Column → pos1 = pos2 := by
  intro file pos1 pos2 r1 r2 h1 h2 hl hc
  obtain ⟨id1, f1, hu1, _, _, hp1, hf1⟩ := refAt_filePosFuncRefMap_sound _ _ _ _ _ _ _ _ h1
  obtain ⟨id2, f2, hu2, _, _, hp2, hf2⟩ := refAt_filePosFuncRefMap_sound _ _ _ _ _ _ _ _ h2
  have he1 : (⟨id1, Object.func f1⟩ : Sigma (fun _ : Ident => Object Func)) ∈ p.Uses.entries :=
    AList.mem_lookup_iff.mp hu1
  have he2 : (⟨id2, Object.func f2⟩ : Sigma (fun _ : Ident => Object Func)) ∈ p.Uses.entries :=
    AList.mem_lookup_iff.mp hu2
  have h := hd _ he1 _ he2 rfl rfl (by simp only; rw [hp1, hp2, hf1, hf2])
    (by simp only; rw [hp1, hp2]; exact hl) (by simp only; rw [hp1, hp2]; exact hc)
  simp only at h
  rw [← hp1, ← hp2]
  exact h

theorem package_output_deterministic {Func : Type} (E1 E2 : Env Func)
    (hcanon : E1.canon = E2.canon) (hwide : E1.wide = E2.wide) (sigs : GoMap String String)
    (p1 p2 : Package Func) (hsame : SamePackage p1 p2) (hid : identsDistinct p1)
    (hd : lineColDistinct p1) (st : Bool × String) :
    (if sigs.keys.length = 0 then
        visitInOrder E1.sorter (filePosFuncRefMap E1.sorter E1.canon p1.Uses p1.Fset sigs)
          printAllVisitor st
      else
        visitInOrder E1.sorter
          (filterFuncRefs (filePosFuncRefMap E1.sorter E1.canon p1.Uses p1.Fset sigs)
            (fileLineCommentMap p1.Fset p1.Syntax) okCommentRegxp.MatchString)
          (printBadVisitor E1.wide sigs) st) =
    (if sigs.keys.length = 0 then
        visitInOrder E2.sorter (filePosFuncRefMap E2.sorter E2.canon p2.Uses p2.Fset sigs)
          printAllVisitor st
      else
        visitInOrder E2.sorter
          (filterFuncRefs (filePosFuncRefMap E2.sorter E2.canon p2.Uses p2.Fset sigs)
            (fileLineCommentMap p2.Fset p2.Syntax) okCommentRegxp.MatchString)
          (printBadVisitor E2.wide sigs) st) := by
  obtain ⟨hfset, hsyn, hperm⟩ := hsame
  have hmap : filePosFuncRefMap E1.sorter E1.canon p1.Uses p1.Fset sigs =
      filePosFuncRefMap E2.sorter E2.canon p2.Uses p2.Fset sigs := by
    rw [← hcanon, ← hfset]
    exact filePosFuncRefMap_deterministic E1.sorter E2.sorter E1.canon p1.Uses p2.Uses p1.Fset
      sigs hperm hid
  have hdist := filePosFuncRefMap_lineCol E1.sorter E1.canon p1 sigs hd
  rw [← hmap, ← hwide, ← hfset, ← hsyn]
  split_ifs
  · exact visitInOrder_deterministic_aux E1.sorter E2.sorter _ _ (fun _ => Iff.rfl)
      (fun _ _ => rfl) hdist printAllVisitor st
  · apply visitInOrder_deterministic_aux E1.sorter E2.sorter _ _ (fun _ => Iff.rfl)
      (fun _ _ => rfl)
    intro file pos1 pos2 r1 r2 h1 h2
    exact hdist file pos1 pos2 r1 r2 ((refAt_filterFuncRefs _ _ _ _ _ _).mp h1).1
      ((refAt_filterFuncRefs _ _ _ _ _ _).mp h2).1

theorem printFuncRefUsages_deterministic {Func : Type} (E1 E2 : Env Func)
    (hcanon : E1.canon = E2.canon) (hwide : E1.wide = E2.wide) (pkgs : List String)
    (sigs : GoMap String String) (dir : String) (w : String) (ps1 ps2 : List (Package Func))
    (hload1 : E1.Load dir pkgs = Except.ok ps1) (hload2 : E2.Load dir pkgs = Except.ok ps2)
    (hsame : List.Forall₂ SamePackage ps1 ps2)
    (hwf : ∀ p ∈ ps1, identsDistinct p ∧ lineColDistinct p) :
    printFuncRefUsages E1 pkgs sigs dir w = printFuncRefUsages E2 pkgs sigs dir w := by
  unfold printFuncRefUsages
  rw [hload1, hload2]
  simp only
  have hfold : ∀ st : Bool × String,
      ps1.foldl (fun (st : Bool × String) (loadedPkg : Package Func) =>
        if sigs.keys.length = 0 then
          visitInOrder E1.sorter
            (filePosFuncRefMap E1.sorter E1.canon loadedPkg.Uses loadedPkg.Fset sigs)
            printAllVisitor st
        else
          visitInOrder E1.sorter
            (filterFuncRefs
              (filePosFuncRefMap E1.sorter E1.canon loadedPkg.Uses loadedPkg.Fset sigs)
              (fileLineCommentMap loadedPkg.Fset loadedPkg.Syntax) okCommentRegxp.MatchString)
            (printBadVisitor E1.wide sigs) st) st =
      ps2.foldl (fun (st : Bool × String) (loadedPkg : Package Func) =>
        if sigs.keys.length = 0 then
          visitInOrder E2.sorter
            (filePosFuncRefMap E2.sorter E2.canon loadedPkg.Uses loadedPkg.Fset sigs)
            printAllVisitor st
        else
          visitInOrder E2.sorter
            (filterFuncRefs
              (filePosFuncRefMap E2.sorter E2.canon loadedPkg.Uses loadedPkg.Fset sigs)
              (fileLineCommentMap loadedPkg.Fset loadedPkg.Syntax) okCommentRegxp.MatchString)
            (printBadVisitor E2.wide sigs) st) st := by
    clear hload1 hload2
    induction hsame with
    | nil => intro st; rfl
    | @cons p1 p2 l1 l2 hp _ ih =>
      intro st
      rw [List.foldl_cons, List.foldl_cons,
        package_output_deterministic E1 E2 hcanon hwide sigs p1 p2 hp
          (hwf p1 (List.mem_cons_self _ _)).1 (hwf p1 (List.mem_cons_self _ _)).2 st]
      exact ih (fun p hp => hwf p (List.mem_cons_of_mem _ hp)) _
  rw [hfold]

/-- C20. For a reference map in which the positions of one file are pairwise distinct in
(line, column), two enumeration orders of the map (and two sorting routines) make
`visitInOrder` call the visitor in the same sequence; and two runs on one program model
(packages that differ in the enumeration order of `Uses` only, with distinct identifiers
at distinct `token.Pos` values and function positions pairwise distinct in (line, column)
within a file) with the same denylist write the same text and return the same error, in
check mode and in list-all mode. -/
theorem deterministic_output {Func : Type} :
    (∀ (S1 S2 : SortImpl) (m1 m2 : RefMap),
      (∀ file, file ∈ m1.keys ↔ file ∈ m2.keys) →
      (∀ file pos, refAt m1 file pos = refAt m2 file pos) →
      (∀ file pos1 pos2 r1 r2, refAt m1 file pos1 = some r1 → refAt m1 file pos2 = some r2 →
        pos1.Line = pos2.Line → pos1.Column = pos2.Column → pos1 = pos2) →
      visitInOrder S1 m1 recordVisits [] = visitInOrder S2 m2 recordVisits []) ∧
    (∀ (E1 E2 : Env Func) (pkgs : List String) (sigs : GoMap String String) (dir w : String)
      (ps1 ps2 : List (Package Func)),
      E1.canon = E2.canon → E1.wide = E2.wide →
      E1.Load dir pkgs = Except.ok ps1 → E2.Load dir pkgs = Except.ok ps2 →
      List.Forall₂ SamePackage ps1 ps2 →
      (∀ p ∈ ps1, identsDistinct p ∧ lineColDistinct p) →
      PrintBadFuncRefs E1 pkgs sigs dir w = PrintBadFuncRefs E2 pkgs sigs dir w ∧
      PrintAllFuncRefs E1 pkgs dir w = PrintAllFuncRefs E2 pkgs dir w) := by
  refine ⟨fun S1 S2 m1 m2 hfiles hrefs hdist =>
    visitInOrder_deterministic_aux S1 S2 m1 m2 hfiles hrefs hdist recordVisits [], ?_⟩
  intro E1 E2 pkgs sigs dir w ps1 ps2 hcanon hwide hload1 hload2 hsame hwf
  constructor
  · unfold PrintBadFuncRefs printBadFuncRefsHelper
    rw [printFuncRefUsages_deterministic E1 E2 hcanon hwide pkgs sigs dir w ps1 ps2
      hload1 hload2 hsame hwf]
  · unfold PrintAllFuncRefs
    rw [printFuncRefUsages_deterministic E1 E2 hcanon hwide pkgs ∅ dir w ps1 ps2
      hload1 hload2 hsame hwf]

/-! ### The canonicalizer -/

theorem splitSlash_ne_nil : ∀ l : List Char, splitSlash l ≠ [] := by
  intro l
  cases l with
  | nil => simp [splitSlash]
  | cons c cs =>
    unfold splitSlash
    split_ifs
    · simp
    · cases splitSlash cs <;> simp

theorem splitSlash_cons (c : Char) (cs : List Char) :
    splitSlash (c :: cs) =
      if c = '/' then [] :: splitSlash cs
      else
        match splitSlash cs with
        | [] => [[c]]
        | seg :: segs => (c :: seg) :: segs := by
  rw [splitSlash]

theorem splitSlash_append (b : List Char) :
    ∀ a : List Char, splitSlash (a ++ '/' :: b) = splitSlash a ++ splitSlash b := by
  intro a
  induction a with
  | nil =>
    rw [List.nil_append, splitSlash_cons, if_pos rfl]
    rfl
  | cons c cs ih =>
    rw [List.cons_append, splitSlash_cons c (cs ++ '/' :: b), splitSlash_cons c cs, ih]
    by_cases hc : c = '/'
    · rw [if_pos hc, if_pos hc]
      rfl
    · rw [if_neg hc, if_neg hc]
      cases hs : splitSlash cs with
      | nil => exact absurd hs (splitSlash_ne_nil cs)
      | cons seg segs => rfl

theorem afterLastVendor_append_vendor (A B : List (List Char)) :
    afterLastVendor (A ++ "vendor".data :: B) = afterLastVendor B := by
  unfold afterLastVendor
  rw [List.foldl_append, List.foldl_cons, if_pos rfl]

theorem canonicalPath_vendored (pre q : String) :
    canonicalPath (pre ++ "/vendor/" ++ q) = canonicalPath q := by
  unfold canonicalPath
  have hd : (pre ++ "/vendor/" ++ q).data = pre.data ++ '/' :: ("vendor".data ++ '/' :: q.data) := by
    simp only [String.data_append]
    simp
  have hv2 : splitSlash "vendor".data = ["vendor".data] := by decide
  rw [hd, splitSlash_append, splitSlash_append, hv2, List.singleton_append,
    afterLastVendor_append_vendor]

theorem enterNamed_mapPaths (f : String → String)
    (hf : ∀ p, canonicalPath (f p) = canonicalPath p) (decls : List TypeDecl) :
    ∀ n : Nat, enterNamed (decls.map (fun d => { d with pkgPath := f d.pkgPath })) n =
      enterNamed decls n := by
  intro n
  induction n with
  | zero => rfl
  | succ n ih =>
    funext seen id
    unfold enterNamed
    rw [ih, List.getElem?_map]
    cases decls[id]? with
    | none => rfl
    | some d => simp only [Option.map_some', hf]

theorem toFunc_mapPaths (f : String → String)
    (hf : ∀ p, canonicalPath (f p) = canonicalPath p) (s : Symbol) :
    toFuncWithNoIdentifiersRemoveVendor (s.mapPaths f) =
      toFuncWithNoIdentifiersRemoveVendor s := by
  unfold toFuncWithNoIdentifiersRemoveVendor Symbol.mapPaths
  simp only [List.length_map, enterNamed_mapPaths f hf, hf]

theorem canonicalSignature_mapPaths (f : String → String)
    (hf : ∀ p, canonicalPath (f p) = canonicalPath p) (s : Symbol) :
    canonicalSignature (s.mapPaths f) = canonicalSignature s := by
  unfold canonicalSignature
  rw [toFunc_mapPaths f hf s]

mutual
theorem stripType_eraseType (enter : Seen → Nat → Option Seen) :
    ∀ (t : TypeDesc) (seen : Seen),
      stripType enter seen (eraseType t) = stripType enter seen t
  | TypeDesc.basic _, _ => by rw [eraseType]
  | TypeDesc.named _, _ => by rw [eraseType]
  | TypeDesc.pointer e, seen => by
    rw [eraseType, stripType, stripType, stripType_eraseType enter e seen]
  | TypeDesc.slice e, seen => by
    rw [eraseType, stripType, stripType, stripType_eraseType enter e seen]
  | TypeDesc.array n e, seen => by
    rw [eraseType, stripType, stripType, stripType_eraseType enter e seen]
  | TypeDesc.map k e, seen => by
    rw [eraseType, stripType, stripType, stripType_eraseType enter k seen]
    congr 1
    funext r1
    rw [stripType_eraseType enter e r1.1]
  | TypeDesc.func ps rs v, seen => by
    rw [eraseType, stripType, stripType, stripFields_eraseFields enter true ps seen]
    congr 1
    funext r1
    rw [stripFields_eraseFields enter true rs r1.1]
  | TypeDesc.struct fs, seen => by
    rw [eraseType, stripType, stripType, stripFields_eraseFields enter false fs seen]
theorem stripFields_eraseFields (enter : Seen → Nat → Option Seen) (strip : Bool) :
    ∀ (l : FieldList) (seen : Seen),
      stripFields enter strip seen (eraseFields strip l) = stripFields enter strip seen l
  | FieldList.nil, _ => by rw [eraseFields]
  | FieldList.cons n t rest, seen => by
    rw [eraseFields, stripFields, stripFields, stripType_eraseType enter t seen]
    congr 1
    funext r1
    rw [stripFields_eraseFields enter strip rest r1.1]
    cases strip <;> rfl
end

theorem enterNamed_erase (decls : List TypeDecl) :
    ∀ n : Nat,
      enterNamed (decls.map (fun d => { d with underlying := eraseType d.underlying })) n =
        enterNamed decls n := by
  intro n
  induction n with
  | zero => rfl
  | succ n ih =>
    funext seen id
    unfold enterNamed
    rw [ih, List.getElem?_map]
    cases decls[id]? with
    | none => rfl
    | some d => simp only [Option.map_some', stripType_eraseType]

theorem toFunc_stripNames (s : Symbol) :
    toFuncWithNoIdentifiersRemoveVendor s.stripNames =
      toFuncWithNoIdentifiersRemoveVendor s := by
  unfold toFuncWithNoIdentifiersRemoveVendor Symbol.stripNames
  simp only [List.length_map, enterNamed_erase, stripFields_eraseFields]
  cases s.kind with
  | function => rfl
  | method n recv => simp only [stripType_eraseType]

theorem canonicalSignature_stripNames (s : Symbol) :
    canonicalSignature s.stripNames = canonicalSignature s := by
  unfold canonicalSignature
  rw [toFunc_stripNames s]

theorem filter_length_le {α : Type} (p q : α → Bool) (hpq : ∀ x, p x = true → q x = true) :
    ∀ l : List α, (l.filter p).length ≤ (l.filter q).length := by
  intro l
  induction l with
  | nil => simp
  | cons x l ih =>
    by_cases hp : p x = true
    · rw [List.filter_cons_of_pos hp, List.filter_cons_of_pos (hpq x hp)]
      simp only [List.length_cons]
      omega
    · rw [List.filter_cons_of_neg hp]
      by_cases hq : q x = true
      · rw [List.filter_cons_of_pos hq]
        simp only [List.length_cons]
        omega
      · rw [List.filter_cons_of_neg hq]
        exact ih

theorem filter_length_lt {α : Type} (p q : α → Bool) (hpq : ∀ x, p x = true → q x = true)
    (a : α) (hqa : q a = true) (hpa : ¬ p a = true) :
    ∀ l : List α, a ∈ l → (l.filter p).length + 1 ≤ (l.filter q).length := by
  intro l
  induction l with
  | nil => intro h; simp at h
  | cons x l ih =>
    intro h
    rcases List.mem_cons.mp h with hax | hal
    · subst hax
      rw [List.filter_cons_of_neg hpa, List.filter_cons_of_pos hqa]
      simp only [List.length_cons]
      have := filter_length_le p q hpq l
      omega
    · have h1 := ih hal
      by_cases hp : p x = true
      · rw [List.filter_cons_of_pos hp, List.filter_cons_of_pos (hpq x hp)]
        simp only [List.length_cons]
        omega
      · rw [List.filter_cons_of_neg hp]
        by_cases hq : q x = true
        · rw [List.filter_cons_of_pos hq]
          simp only [List.length_cons]
          omega
        · rw [List.filter_cons_of_neg hq]
          exact h1

theorem SeenLE_refl (seen : Seen) : SeenLE seen seen := fun _ h => h

theorem SeenLE_trans {a b c : Seen} (h1 : SeenLE a b) (h2 : SeenLE b c) : SeenLE a c :=
  fun i h => h2 i (h1 i h)

theorem SeenLE_insert (seen : Seen) (id : Nat) (tok : String) :
    SeenLE seen (seen.insert id tok) := by
  intro i h
  by_cases hi : i = id
  · subst hi
    rw [AList.lookup_insert]
    rfl
  · rw [AList.lookup_insert_ne hi]
    exact h

theorem unseen_le (decls : List TypeDecl) (seen1 seen2 : Seen) (h : SeenLE seen1 seen2) :
    unseen decls seen2 ≤ unseen decls seen1 := by
  unfold unseen
  apply filter_length_le
  intro i hi
  cases h1 : AList.lookup i seen1 with
  | none => rfl
  | some v =>
    have h2 := h i (by rw [h1]; rfl)
    cases h3 : AList.lookup i seen2 with
    | none => rw [h3] at h2; exact Bool.noConfusion h2
    | some v2 => rw [h3] at hi; exact Bool.noConfusion hi

theorem unseen_insert (decls : List TypeDecl) (seen : Seen) (id : Nat) (tok : String)
    (hid : id < decls.length) (hnew : (seen.lookup id).isSome = false) :
    unseen decls (seen.insert id tok) + 1 ≤ unseen decls seen := by
  unfold unseen
  apply filter_length_lt _ _ _ id
  · cases h : AList.lookup id seen with
    | none => rfl
    | some v => rw [h] at hnew; exact Bool.noConfusion hnew
  · rw [AList.lookup_insert]
    simp
  · exact List.mem_range.mpr hid
  · intro i hi
    cases h1 : AList.lookup i seen with
    | none => rfl
    | some v =>
      have h2 := SeenLE_insert seen id tok i (by rw [h1]; rfl)
      cases h3 : AList.lookup i (AList.insert id tok seen) with
      | none => rw [h3] at h2; exact Bool.noConfusion h2
      | some v2 => rw [h3] at hi; exact Bool.noConfusion hi

mutual
theorem stripType_total (decls : List TypeDecl) (enter : Seen → Nat → Option Seen) (n : Nat)
    (hg : ∀ seen id, unseen decls seen + 1 ≤ n →
      ∃ seen1, enter seen id = some seen1 ∧ SeenLE seen seen1) :
    ∀ (t : TypeDesc) (seen : Seen), unseen decls seen + 1 ≤ n →
      ∃ r, stripType enter seen t = some r ∧ SeenLE seen r.1
  | TypeDesc.basic b, seen, _ => ⟨(seen, TypeDesc.basic b), by rw [stripType], SeenLE_refl seen⟩
  | TypeDesc.named id, seen, h => by
    obtain ⟨seen1, h1, hle⟩ := hg seen id h
    exact ⟨(seen1, TypeDesc.named id), by rw [stripType, h1]; rfl, hle⟩
  | TypeDesc.pointer e, seen, h => by
    obtain ⟨r, hr, hle⟩ := stripType_total decls enter n hg e seen h
    exact ⟨(r.1, TypeDesc.pointer r.2), by rw [stripType, hr]; rfl, hle⟩
  | TypeDesc.slice e, seen, h => by
    obtain ⟨r, hr, hle⟩ := stripType_total decls enter n hg e seen h
    exact ⟨(r.1, TypeDesc.slice r.2), by rw [stripType, hr]; rfl, hle⟩
  | TypeDesc.array k e, seen, h => by
    obtain ⟨r, hr, hle⟩ := stripType_total decls enter n hg e seen h
    exact ⟨(r.1, TypeDesc.array k r.2), by rw [stripType, hr]; rfl, hle⟩
  | TypeDesc.map k e, seen, h => by
    obtain ⟨r1, hr1, hle1⟩ := stripType_total decls enter n hg k seen h
    have h1 : unseen decls r1.1 + 1 ≤ n :=
      Nat.le_trans (Nat.succ_le_succ (unseen_le decls seen r1.1 hle1)) h
    obtain ⟨r2, hr2, hle2⟩ := stripType_total decls enter n hg e r1.1 h1
    exact ⟨(r2.1, TypeDesc.map r1.2 r2.2), by rw [stripType, hr1, Option.some_bind, hr2]; rfl,
      SeenLE_trans hle1 hle2⟩
  | TypeDesc.func ps rs v, seen, h => by
    obtain ⟨r1, hr1, hle1⟩ := stripFields_total decls enter n hg true ps seen h
    have h1 : unseen decls r1.1 + 1 ≤ n :=
      Nat.le_trans (Nat.succ_le_succ (unseen_le decls seen r1.1 hle1)) h
    obtain ⟨r2, hr2, hle2⟩ := stripFields_total decls enter n hg true rs r1.1 h1
    exact ⟨(r2.1, TypeDesc.func r1.2 r2.2 v),
      by rw [stripType, hr1, Option.some_bind, hr2]; rfl, SeenLE_trans hle1 hle2⟩
  | TypeDesc.struct fs, seen, h => by
    obtain ⟨r, hr, hle⟩ := stripFields_total decls enter n hg false fs seen h
    exact ⟨(r.1, TypeDesc.struct r.2), by rw [stripType, hr]; rfl, hle⟩
theorem stripFields_total (decls : List TypeDecl) (enter : Seen → Nat → Option Seen) (n : Nat)
    (hg : ∀ seen id, unseen decls seen + 1 ≤ n →
      ∃ seen1, enter seen id = some seen1 ∧ SeenLE seen seen1) (strip : Bool) :
    ∀ (l : FieldList) (seen : Seen), unseen decls seen + 1 ≤ n →
      ∃ r, stripFields enter strip seen l = some r ∧ SeenLE seen r.1
  | FieldList.nil, seen, _ => ⟨(seen, FieldList.nil), by rw [stripFields], SeenLE_refl seen⟩
  | FieldList.cons name t rest, seen, h => by
    obtain ⟨r1, hr1, hle1⟩ := stripType_total decls enter n hg t seen h
    have h1 : unseen decls r1.1 + 1 ≤ n :=
      Nat.le_trans (Nat.succ_le_succ (unseen_le decls seen r1.1 hle1)) h
    obtain ⟨r2, hr2, hle2⟩ := stripFields_total decls enter n hg strip rest r1.1 h1
    exact ⟨(r2.1, FieldList.cons (if strip then "" else name) r1.2 r2.2),
      by rw [stripFields, hr1, Option.some_bind, hr2]; rfl, SeenLE_trans hle1 hle2⟩
end

theorem enterNamed_total (decls : List TypeDecl) :
    ∀ (n : Nat) (seen : Seen) (id : Nat), unseen decls seen + 1 ≤ n →
      ∃ seen1, enterNamed decls n seen id = some seen1 ∧ SeenLE seen seen1 := by
  intro n
  induction n with
  | zero => intro seen id h; omega
  | succ n ih =>
    intro seen id h
    unfold enterNamed
    by_cases hs : (AList.lookup id seen).isSome = true
    · rw [if_pos hs]
      exact ⟨seen, rfl, SeenLE_refl seen⟩
    · rw [if_neg hs]
      cases hd : decls[id]? with
      | none => exact ⟨seen, rfl, SeenLE_refl seen⟩
      | some d =>
        have hid : id < decls.length := by
          by_contra hge
          rw [List.getElem?_eq_none (by omega)] at hd
          exact Option.noConfusion hd
        have hu := unseen_insert decls seen id (canonicalPath d.pkgPath ++ "." ++ d.name) hid
          (by simpa using hs)
        obtain ⟨r, hr, hle⟩ := stripType_total decls (enterNamed decls n) n ih d.underlying
          (seen.insert id (canonicalPath d.pkgPath ++ "." ++ d.name)) (by omega)
        exact ⟨r.1, by simp only [hr, Option.map_some'],
          SeenLE_trans (SeenLE_insert seen id _) hle⟩

theorem unseen_empty_le (decls : List TypeDecl) : unseen decls ∅ ≤ decls.length := by
  unfold unseen
  exact Nat.le_trans (List.length_filter_le _ _) (by rw [List.length_range])

theorem toFunc_total (s : Symbol) : ∃ f, toFuncWithNoIdentifiersRemoveVendor s = some f := by
  unfold toFuncWithNoIdentifiersRemoveVendor
  have hg := enterNamed_total s.decls (s.decls.length + 1)
  have h0 : unseen s.decls ∅ + 1 ≤ s.decls.length + 1 :=
    Nat.succ_le_succ (unseen_empty_le s.decls)
  have hr0 : ∃ r0 : Seen × Option TypeDesc,
      (match s.kind with
        | SymbolKind.function => some (∅, none)
        | SymbolKind.method _ recv =>
          (stripType (enterNamed s.decls (s.decls.length + 1)) ∅ recv).map
            (fun r => (r.1, some r.2))) = some r0 ∧
      unseen s.decls r0.1 + 1 ≤ s.decls.length + 1 := by
    cases s.kind with
    | function => exact ⟨(∅, none), rfl, h0⟩
    | method nm recv =>
      obtain ⟨r, hr, hle⟩ := stripType_total s.decls _ _ hg recv ∅ h0
      exact ⟨(r.1, some r.2), by simp only [hr, Option.map_some'],
        Nat.le_trans (Nat.succ_le_succ (unseen_le s.decls ∅ r.1 hle)) h0⟩
  obtain ⟨r0, hr0, hu0⟩ := hr0
  obtain ⟨r1, hr1, hle1⟩ := stripFields_total s.decls _ _ hg true s.params r0.1 hu0
  have hu1 : unseen s.decls r1.1 + 1 ≤ s.decls.length + 1 :=
    Nat.le_trans (Nat.succ_le_succ (unseen_le s.decls r0.1 r1.1 hle1)) hu0
  obtain ⟨r2, hr2, _⟩ := stripFields_total s.decls _ _ hg true s.results r1.1 hu1
  simp only [hr0, Option.some_bind, hr1, hr2, Option.map_some']
  exact ⟨_, rfl⟩

theorem canonicalSignature_total (s : Symbol) : ∃ str, canonicalSignature s = some str := by
  obtain ⟨f, hf⟩ := toFunc_total s
  exact ⟨f.String, by unfold canonicalSignature; rw [hf]; rfl⟩

theorem joinSlash_splitSlash : ∀ l : List Char, joinSlash (splitSlash l) = l := by
  intro l
  induction l with
  | nil => rfl
  | cons c cs ih =>
    rw [splitSlash_cons]
    by_cases hc : c = '/'
    · rw [if_pos hc]
      cases hs : splitSlash cs with
      | nil => exact absurd hs (splitSlash_ne_nil cs)
      | cons seg segs =>
        rw [hs] at ih
        rw [joinSlash]
        simp only [List.isEmpty_cons, Bool.false_eq_true, if_false, List.nil_append]
        rw [ih, hc]
    · rw [if_neg hc]
      cases hs : splitSlash cs with
      | nil => exact absurd hs (splitSlash_ne_nil cs)
      | cons seg segs =>
        rw [hs] at ih
        simp only
        rw [joinSlash] at ih ⊢
        cases segs with
        | nil =>
          simp only [List.isEmpty_nil, if_true] at ih ⊢
          rw [ih]
        | cons seg2 segs2 =>
          simp only [List.isEmpty_cons, Bool.false_eq_true, if_false] at ih ⊢
          rw [List.cons_append, ih]

theorem afterLastVendor_of_no_vendor (segs : List (List Char))
    (h : ∀ seg ∈ segs, seg ≠ "vendor".data) : afterLastVendor segs = segs := by
  unfold afterLastVendor
  have hgen : ∀ (l acc : List (List Char)), (∀ seg ∈ l, seg ≠ "vendor".data) →
      l.foldl (fun acc seg => if seg = "vendor".data then [] else acc ++ [seg]) acc =
        acc ++ l := by
    intro l
    induction l with
    | nil => intro acc _; simp
    | cons x l ih =>
      intro acc hl
      rw [List.foldl_cons, if_neg (hl x (List.mem_cons_self _ _)),
        ih _ (fun seg hs => hl seg (List.mem_cons_of_mem _ hs))]
      simp
  rw [hgen segs [] h]
  rfl

theorem canonicalPath_of_no_vendor (q : String)
    (h : ∀ seg ∈ splitSlash q.data, seg ≠ "vendor".data) : canonicalPath q = q := by
  unfold canonicalPath
  rw [afterLastVendor_of_no_vendor _ h, joinSlash_splitSlash]

mutual
theorem stripType_erased (enter : Seen → Nat → Option Seen) :
    ∀ (t : TypeDesc) (seen : Seen) (r : Seen × TypeDesc),
      stripType enter seen t = some r → eraseType r.2 = r.2
  | TypeDesc.basic _, _, r, h => by
    rw [stripType] at h
    rw [← Option.some.inj h, eraseType]
  | TypeDesc.named _, _, r, h => by
    rw [stripType, Option.map_eq_some'] at h
    obtain ⟨_, _, rfl⟩ := h
    rw [eraseType]
  | TypeDesc.pointer e, seen, r, h => by
    rw [stripType, Option.map_eq_some'] at h
    obtain ⟨r1, h1, rfl⟩ := h
    rw [eraseType, stripType_erased enter e seen r1 h1]
  | TypeDesc.slice e, seen, r, h => by
    rw [stripType, Option.map_eq_some'] at h
    obtain ⟨r1, h1, rfl⟩ := h
    rw [eraseType, stripType_erased enter e seen r1 h1]
  | TypeDesc.array _ e, seen, r, h => by
    rw [stripType, Option.map_eq_some'] at h
    obtain ⟨r1, h1, rfl⟩ := h
    rw [eraseType, stripType_erased enter e seen r1 h1]
  | TypeDesc.map k e, seen, r, h => by
    rw [stripType, Option.bind_eq_some] at h
    obtain ⟨r1, h1, h2⟩ := h
    rw [Option.map_eq_some'] at h2
    obtain ⟨r2, h2, rfl⟩ := h2
    rw [eraseType, stripType_erased enter k seen r1 h1, stripType_erased enter e r1.1 r2 h2]
  | TypeDesc.func ps rs _, seen, r, h => by
    rw [stripType, Option.bind_eq_some] at h
    obtain ⟨r1, h1, h2⟩ := h
    rw [Option.map_eq_some'] at h2
    obtain ⟨r2, h2, rfl⟩ := h2
    rw [eraseType, stripFields_erased enter true ps seen r1 h1,
      stripFields_erased enter true rs r1.1 r2 h2]
  | TypeDesc.struct fs, seen, r, h => by
    rw [stripType, Option.map_eq_some'] at h
    obtain ⟨r1, h1, rfl⟩ := h
    rw [eraseType, stripFields_erased enter false fs seen r1 h1]
theorem stripFields_erased (enter : Seen → Nat → Option Seen) (strip : Bool) :
    ∀ (l : FieldList) (seen : Seen) (r : Seen × FieldList),
      stripFields enter strip seen l = some r → eraseFields strip r.2 = r.2
  | FieldList.nil, _, r, h => by
    rw [stripFields] at h
    rw [← Option.some.inj h, eraseFields]
  | FieldList.cons _ t rest, seen, r, h => by
    rw [stripFields, Option.bind_eq_some] at h
    obtain ⟨r1, h1, h2⟩ := h
    rw [Option.map_eq_some'] at h2
    obtain ⟨r2, h2, rfl⟩ := h2
    rw [eraseFields, stripType_erased enter t seen r1 h1,
      stripFields_erased enter strip rest r1.1 r2 h2]
    cases strip <;> rfl
end

theorem toFunc_erased (s : Symbol) (f : CanonFunc)
    (h : toFuncWithNoIdentifiersRemoveVendor s = some f) :
    eraseFields true f.params = f.params ∧ eraseFields true f.results = f.results := by
  unfold toFuncWithNoIdentifiersRemoveVendor at h
  simp only [Option.bind_eq_some, Option.map_eq_some'] at h
  obtain ⟨r0, _, r1, h1, r2, h2, rfl⟩ := h
  exact ⟨stripFields_erased _ true _ _ r1 h1, stripFields_erased _ true _ _ r2 h2⟩

/-- C15. In the model of the canonicalizer, a symbol reached through vendored copies of
packages (package paths replaced by a prefix, `/vendor/` and the path) has the same
canonical signature as the original symbol, and the canonical path of such a vendored
path is the original path when that has no segment `vendor`. -/
theorem vendored_same_signature (s : Symbol) (vend : String → String)
    (hv : ∀ q, vend q = q ∨ ∃ pre, vend q = pre ++ "/vendor/" ++ q) :
    canonicalSignature (s.mapPaths vend) = canonicalSignature s ∧
      ∀ pre q : String, (∀ seg ∈ splitSlash q.data, seg ≠ "vendor".data) →
        canonicalPath (pre ++ "/vendor/" ++ q) = q := by
  constructor
  · apply canonicalSignature_mapPaths
    intro p
    rcases hv p with h | ⟨pre, h⟩
    · rw [h]
    · rw [h, canonicalPath_vendored]
  · intro pre q hq
    rw [canonicalPath_vendored, canonicalPath_of_no_vendor q hq]

/-- C16. In the model of the canonicalizer, canonicalization returns a signature for
every symbol, whatever cycles its type graph has: the bound on nested entries is never
reached.  For `LexEnter` of the circular definitions `StateFn` and `Lexer` the signature
is the one the tests expect, for the package itself and for its vendored copy. -/
theorem canonicalization_terminates (s : Symbol) :
    (∃ str, canonicalSignature s = some str) ∧
      canonicalSignature exLexEnter =
        some "func github.com/bar.LexEnter(*github.com/bar.Lexer) github.com/bar.StateFn" ∧
      canonicalSignature (exLexEnter.mapPaths exVendored) =
        some "func github.com/bar.LexEnter(*github.com/bar.Lexer) github.com/bar.StateFn" :=
  ⟨canonicalSignature_total s, by decide, by decide⟩

/-- C17. In the model of the canonicalizer, two symbols that differ only in the names of
receiver, parameters and results have the same canonical signature, and the function
object the canonicalizer returns has no such names. -/
theorem names_do_not_matter (s1 s2 : Symbol) (h : s1.stripNames = s2.stripNames) :
    canonicalSignature s1 = canonicalSignature s2 ∧
      ∀ f, toFuncWithNoIdentifiersRemoveVendor s1 = some f →
        eraseFields true f.params = f.params ∧ eraseFields true f.results = f.results := by
  refine ⟨?_, toFunc_erased s1⟩
  rw [← canonicalSignature_stripNames s1, ← canonicalSignature_stripNames s2, h]

/-- C15, witness: `Bar` reached through the vendor directory of the module of the tests;
its call matches the denylist key `func github.com/bar.Bar()`. -/
theorem vendored_same_signature_witness :
    canonicalSignature (exBar.mapPaths exVendored) = canonicalSignature exBar ∧
      canonicalSignature (exBar.mapPaths exVendored) = some "func github.com/bar.Bar()" ∧
      PrintBadFuncRefs (exSymEnv [exPkgVendoredBar]) ["./..."]
          (exSigs "func github.com/bar.Bar()" "") "" "" =
        (some (GoError.errorf ""),
          "foo/foo.go:9:6: references to \"func github.com/bar.Bar()\" are not allowed. Remove this reference or whitelist it by adding a comment of the form '// OK: [reason]' to the line before it.\n") :=
  ⟨(vendored_same_signature exBar exVendored
      (fun _ => Or.inr ⟨"github.com/palantir/go-nobadfuncs-test", rfl⟩)).1,
    by decide, by decide⟩

/-- C17, witness: `Client.Do` declared with the parameter name `req` and with other
names. -/
theorem names_do_not_matter_witness :
    exClientDo.stripNames = exClientDoRenamed.stripNames ∧
      canonicalSignature exClientDo = canonicalSignature exClientDoRenamed ∧
      canonicalSignature exClientDo =
        some "func (*net/http.Client).Do(*net/http.Request) (*net/http.Response, error)" :=
  ⟨rfl, (names_do_not_matter exClientDo exClientDoRenamed rfl).1, by decide⟩

/-! ### Concrete runs, continued -/

theorem refAt_of_perm (m1 m2 : RefMap) (h : List.Perm m1.entries m2.entries) :
    (∀ file, file ∈ m1.keys ↔ file ∈ m2.keys) ∧
      ∀ file pos, refAt m1 file pos = refAt m2 file pos := by
  constructor
  · intro file
    rw [mem_keys_iff_lookup, mem_keys_iff_lookup, AList.perm_lookup h]
  · intro file pos
    unfold refAt
    rw [AList.perm_lookup h]

theorem lineColDistinctMap_iff (m : RefMap) (h : lineColDistinctMap m = true) :
    ∀ file pos1 pos2 r1 r2, refAt m file pos1 = some r1 → refAt m file pos2 = some r2 →
      pos1.Line = pos2.Line → pos1.Column = pos2.Column → pos1 = pos2 := by
  intro file pos1 pos2 r1 r2 h1 h2
  unfold lineColDistinctMap at h
  simp only [List.all_eq_true, decide_eq_true_eq] at h
  unfold refAt at h1 h2
  cases hinner : AList.lookup file m with
  | none => rw [hinner] at h1; simp at h1
  | some inner =>
    rw [hinner, Option.some_bind] at h1 h2
    have he : (⟨file, inner⟩ : Sigma (fun _ : String => GoMap Position FuncRef)) ∈ m.entries :=
      AList.mem_lookup_iff.mp hinner
    exact h _ he pos1 ((mem_keys_iff_lookup inner pos1).mpr ⟨r1, h1⟩) pos2
      ((mem_keys_iff_lookup inner pos2).mpr ⟨r2, h2⟩)

/-- C11, witness: the package of two files under the denylist of `exDo`; two lines are
written and the error is returned. -/
theorem verdict_iff_lines_witness :
    (exEnv [exPkgTwoFiles]).Load "" ["./..."] = Except.ok [exPkgTwoFiles] ∧
      (exSigs exDo "No").keys.length ≠ 0 ∧
      (PrintBadFuncRefs (exEnv [exPkgTwoFiles]) ["./..."] (exSigs exDo "No") "" "").1 =
        some (GoError.errorf "") :=
  ⟨rfl, by decide,
    (verdict_iff_lines (exEnv [exPkgTwoFiles]) ["./..."] (exSigs exDo "No") "" ""
      [exPkgTwoFiles] rfl (by decide)).2.1.mpr (by decide)⟩

/-- C12, witness: list-all mode on the package of two files. -/
theorem list_all_returns_nil_witness :
    (exEnv [exPkgTwoFiles]).Load "" ["./..."] = Except.ok [exPkgTwoFiles] ∧
      (PrintAllFuncRefs (exEnv [exPkgTwoFiles]) ["./..."] "" "").1 = none :=
  ⟨rfl, list_all_returns_nil (exEnv [exPkgTwoFiles]) ["./..."] "" "" [exPkgTwoFiles] rfl⟩

/-- C13, witness: a load step that fails with the error `no Go files`. -/
theorem load_error_is_wrapped_witness :
    (exEnvLoadError (GoError.errorf "no Go files")).Load "" ["./..."] =
        Except.error (GoError.errorf "no Go files") ∧
      PrintAllFuncRefs (exEnvLoadError (GoError.errorf "no Go files")) ["./..."] "" "" =
        (some (GoError.wrapf (GoError.errorf "no Go files") "failed to load packages"), "") ∧
      (GoError.wrapf (GoError.errorf "no Go files") "failed to load packages").Error =
        "failed to load packages: no Go files" :=
  ⟨rfl,
    (load_error_is_wrapped (exEnvLoadError (GoError.errorf "no Go files")) ["./..."]
      (exSigs exDo "No") "" "" (GoError.errorf "no Go files") rfl).1,
    by decide⟩

/-- C14, witness: the policy failure on the package of two files and the load failure
`no Go files`. -/
theorem policy_error_differs_from_load_error_witness :
    (PrintBadFuncRefs (exEnv [exPkgTwoFiles]) ["./..."] (exSigs exDo "No") "" "").2 ≠ "" ∧
      ∃ e1 e2 : GoError,
        (PrintBadFuncRefs (exEnv [exPkgTwoFiles]) ["./..."] (exSigs exDo "No") "" "").1 =
          some e1 ∧
        (PrintBadFuncRefs (exEnvLoadError (GoError.errorf "no Go files")) ["./..."]
          (exSigs exDo "No") "" "").1 = some e2 ∧
        e1.Error = "" ∧ e2.Error ≠ "" ∧
        List.isPrefixOf "failed to load packages".data e2.Error.data = true ∧
        e1.Error ≠ e2.Error ∧ e1 ≠ e2 :=
  ⟨by decide,
    policy_error_differs_from_load_error (exEnv [exPkgTwoFiles])
      (exEnvLoadError (GoError.errorf "no Go files")) ["./..."] ["./..."]
      (exSigs exDo "No") (exSigs exDo "No") "" "" "" "" [exPkgTwoFiles]
      (GoError.errorf "no Go files") rfl (by decide) (by decide) rfl (by decide)⟩

/-- C18, counterexample. The configuration `null` is not empty and is not a JSON object,
yet no error is returned and nothing is written; and an object whose value is `null` is
accepted as a denylist with the empty message, so the packages are loaded and checked. -/
theorem json_null_is_accepted :
    "null" ≠ "" ∧ "null".data.head? ≠ some '\x7b' ∧
      printBadFuncRefsJSONConfig (exEnv [exPkgA]) (fun _ => GoError.errorf "invalid")
        ["./..."] "null" "" "" = (none, "") ∧
      printBadFuncRefsJSONConfig (exEnv [exPkgA]) (fun _ => GoError.errorf "invalid")
        ["./..."] "\x7b\"func a.f()\":null\x7d" "" "" =
        (some (GoError.errorf ""),
          "a/z.go:3:2: references to \"func a.f()\" are not allowed. Remove this reference or whitelist it by adding a comment of the form '// OK: [reason]' to the line before it.\n") := by
  decide

/-- C20, witness: the reference map of two files under two enumeration orders and two
sorting routines, and two runs on the package of two files. -/
theorem deterministic_output_witness :
    visitInOrder insertionSortImpl exRefMap recordVisits [] =
        visitInOrder reverseSortImpl exRefMapReordered recordVisits [] ∧
      PrintBadFuncRefs (exEnv [exPkgTwoFiles]) ["./..."] (exSigs exDo "No") "" "" =
        PrintBadFuncRefs exEnvSecondRun ["./..."] (exSigs exDo "No") "" "" :=
  ⟨(@deterministic_output FuncRef).1 insertionSortImpl reverseSortImpl exRefMap
      exRefMapReordered
      (refAt_of_perm exRefMap exRefMapReordered (List.Perm.swap _ _ _)).1
      (refAt_of_perm exRefMap exRefMapReordered (List.Perm.swap _ _ _)).2
      (lineColDistinctMap_iff exRefMap (by decide)),
    ((@deterministic_output FuncRef).2 (exEnv [exPkgTwoFiles]) exEnvSecondRun ["./..."]
      (exSigs exDo "No") "" "" [exPkgTwoFiles] [exPkgTwoFilesReordered] rfl rfl rfl rfl
      (List.Forall₂.cons ⟨rfl, rfl, (List.reverse_perm _).symm⟩ List.Forall₂.nil)
      (fun p hp => by
        rw [List.mem_singleton] at hp
        subst hp
        exact ⟨by unfold identsDistinct; decide, by unfold lineColDistinct; decide⟩)).1⟩

/-! ### The marker at any offset -/

theorem MatchString_cons (r : Regex) (c : Char) (w : List Char) :
    r.MatchString (String.mk (c :: w)) =
      (r.matchesPrefix (c :: w) || r.MatchString (String.mk w)) := by
  unfold Regex.MatchString
  simp only [List.tails, List.any_cons]

theorem okCommentRegxp_matchesPrefix_shape (w : List Char)
    (h : okCommentRegxp.matchesPrefix w = true) :
    ∃ (c : Char) (rest : List Char),
      w = '/' :: '/' :: ' ' :: 'O' :: 'K' :: ':' :: ' ' :: c :: rest ∧ isSpace c = false := by
  obtain ⟨c, rest, hw, hc⟩ := (okCommentRegxp_matchesPrefix_iff w).mp h
  exact ⟨c, rest, hw, hc⟩

theorem okCommentRegxp_matchesPrefix_head (c : Char) (w : List Char) (hc : c ≠ '/') :
    okCommentRegxp.matchesPrefix (c :: w) = false := by
  rw [Bool.eq_false_iff]
  intro h
  obtain ⟨d, rest, hw, _⟩ := okCommentRegxp_matchesPrefix_shape _ h
  exact hc (List.cons.inj hw).1

theorem okCommentRegxp_MatchString_spaces (w : List Char) :
    ∀ n : Nat, okCommentRegxp.MatchString (String.mk (List.replicate n ' ' ++ w)) =
      okCommentRegxp.MatchString (String.mk w) := by
  intro n
  induction n with
  | zero => rfl
  | succ n ih =>
    rw [List.replicate_succ, List.cons_append, MatchString_cons,
      okCommentRegxp_matchesPrefix_head ' ' _ (by decide), Bool.false_or, ih]

theorem okCommentRegxp_MatchString_wide_gap (n : Nat) (r : String) (hn : 2 ≤ n) :
    okCommentRegxp.MatchString (String.mk ("// OK:".data ++ List.replicate n ' ' ++ r.data)) =
      okCommentRegxp.MatchString r := by
  obtain ⟨k, rfl⟩ : ∃ k, n = k + 2 := ⟨n - 2, by omega⟩
  have hm : "// OK:".data = ['/', '/', ' ', 'O', 'K', ':'] := rfl
  have h0 : okCommentRegxp.matchesPrefix
      ('/' :: '/' :: ' ' :: 'O' :: 'K' :: ':' :: ' ' :: ' ' :: (List.replicate k ' ' ++ r.data)) =
        false := by
    rw [Bool.eq_false_iff]
    intro h
    obtain ⟨d, rest, hw, hd⟩ := okCommentRegxp_matchesPrefix_shape _ h
    simp only [List.cons.injEq, true_and] at hw
    rw [← hw.1] at hd
    exact Bool.noConfusion hd
  have h1 : okCommentRegxp.matchesPrefix
      ('/' :: ' ' :: 'O' :: 'K' :: ':' :: ' ' :: ' ' :: (List.replicate k ' ' ++ r.data)) =
        false := by
    rw [Bool.eq_false_iff]
    intro h
    obtain ⟨d, rest, hw, _⟩ := okCommentRegxp_matchesPrefix_shape _ h
    simp at hw
  rw [hm, List.replicate_succ, List.replicate_succ]
  simp only [List.cons_append, List.nil_append]
  rw [MatchString_cons, h0, Bool.false_or, MatchString_cons, h1, Bool.false_or,
    MatchString_cons, okCommentRegxp_matchesPrefix_head ' ' _ (by decide), Bool.false_or,
    MatchString_cons, okCommentRegxp_matchesPrefix_head 'O' _ (by decide), Bool.false_or,
    MatchString_cons, okCommentRegxp_matchesPrefix_head 'K' _ (by decide), Bool.false_or,
    MatchString_cons, okCommentRegxp_matchesPrefix_head ':' _ (by decide), Bool.false_or,
    MatchString_cons, okCommentRegxp_matchesPrefix_head ' ' _ (by decide), Bool.false_or,
    MatchString_cons, okCommentRegxp_matchesPrefix_head ' ' _ (by decide), Bool.false_or,
    okCommentRegxp_MatchString_spaces]

/-- C22. The predicate `okCommentRegxp.MatchString` accepts exactly the texts that contain,
at some offset, the marker `// OK: ` immediately followed by a character outside the class
`\s`.  So the texts `// note // OK: x` and `/* // OK: x */` are accepted and a comment of
either text on the line before a denylisted reference suppresses it; and the text made of
`// OK:`, two or more spaces and a rest is accepted exactly when the rest is, so that
`// OK:  reviewed` does not suppress while `// OK:  see // OK: x` does. -/
theorem okCommentRegxp_marker_at_any_offset :
    (∀ s : String, okCommentRegxp.MatchString s = true ↔
      ∃ (pre : List Char) (c : Char) (rest : List Char),
        s.data = pre ++ ("// OK: ".data ++ c :: rest) ∧ isSpace c = false) ∧
    okCommentRegxp.MatchString "// note // OK: x" = true ∧
    okCommentRegxp.MatchString "/* // OK: x */" = true ∧
    PrintBadFuncRefs (exEnv [exPkgComment "// note // OK: x"]) ["./..."] (exSigs exDo "No")
      "" "" = (none, "") ∧
    PrintBadFuncRefs (exEnv [exPkgComment "/* // OK: x */"]) ["./..."] (exSigs exDo "No")
      "" "" = (none, "") ∧
    (∀ (n : Nat) (r : String), 2 ≤ n →
      okCommentRegxp.MatchString (String.mk ("// OK:".data ++ List.replicate n ' ' ++ r.data)) =
        okCommentRegxp.MatchString r) ∧
    okCommentRegxp.MatchString "// OK:  reviewed" = false ∧
    okCommentRegxp.MatchString "// OK:  see // OK: x" = true ∧
    PrintBadFuncRefs (exEnv [exPkgComment "// OK:  reviewed"]) ["./..."] (exSigs exDo "No")
      "" "" = (some (GoError.errorf ""), "foo/foo.go:9:21: No\n") ∧
    PrintBadFuncRefs (exEnv [exPkgComment "// OK:  see // OK: x"]) ["./..."] (exSigs exDo "No")
      "" "" = (none, "") :=
  ⟨okCommentRegxp_MatchString_iff, by decide, by decide, by decide, by decide,
    fun n r hn => okCommentRegxp_MatchString_wide_gap n r hn, by decide, by decide, by decide,
    by decide⟩

/-! ### The comment table -/

theorem fileLineCommentMap_eq_foldl (fset : FileSet) (files : List File) :
    fileLineCommentMap fset files = (allComments files).foldl (commentStep fset) ∅ := by
  unfold fileLineCommentMap allComments
  rw [foldl_flatMap_eq]
  congr 1
  funext m f
  rw [foldl_flatMap_eq]
  rfl

theorem commentAt_empty (file : String) (line : Int) : commentAt ∅ file line = none := by
  unfold commentAt
  rw [AList.lookup_empty]
  rfl

theorem commentAt_commentStep (fset : FileSet) (m : CommentMap) (c : Comment)
    (file : String) (line : Int) :
    commentAt (commentStep fset m c) file line =
      if (fset.Position c.Slash).Filename = file ∧ (fset.Position c.Slash).Line = line
      then some c.Text else commentAt m file line := by
  unfold commentAt commentStep
  simp only
  by_cases hf : file = (fset.Position c.Slash).Filename
  · subst hf
    rw [AList.lookup_insert, Option.some_bind]
    by_cases hl : line = (fset.Position c.Slash).Line
    · subst hl
      simp [AList.lookup_insert]
    · rw [AList.lookup_insert_ne hl]
      have hl2 : ¬ (fset.Position c.Slash).Line = line := fun h => hl h.symm
      cases hm : AList.lookup (fset.Position c.Slash).Filename m with
      | none => simp [hl2, AList.lookup_empty]
      | some inner => simp [hl2]
  · rw [AList.lookup_insert_ne hf]
    have hf2 : ¬ (fset.Position c.Slash).Filename = file := fun h => hf h.symm
    simp [hf2]

theorem commentAt_foldl (fset : FileSet) (file : String) (line : Int) (m : CommentMap)
    (cs : List Comment) :
    commentAt (cs.foldl (commentStep fset) m) file line =
      (((cs.filter (fun c => decide ((fset.Position c.Slash).Filename = file ∧
        (fset.Position c.Slash).Line = line))).getLast?).map Comment.Text).or
        (commentAt m file line) := by
  induction cs using List.reverseRecOn with
  | nil => simp
  | append_singleton l c ih =>
    rw [List.foldl_append, List.foldl_cons, List.foldl_nil, commentAt_commentStep,
      List.filter_append]
    by_cases hc : (fset.Position c.Slash).Filename = file ∧ (fset.Position c.Slash).Line = line
    · rw [if_pos hc]
      simp [List.filter_cons, hc]
    · rw [if_neg hc, ih]
      simp [List.filter_cons, hc]

theorem commentAt_fileLineCommentMap (fset : FileSet) (files : List File) (file : String)
    (line : Int) :
    commentAt (fileLineCommentMap fset files) file line =
      ((commentsStartingAt fset files file line).getLast?).map Comment.Text := by
  rw [fileLineCommentMap_eq_foldl, commentAt_foldl, commentAt_empty]
  unfold commentsStartingAt
  cases ((allComments files).filter (fun c => decide ((fset.Position c.Slash).Filename = file ∧
    (fset.Position c.Slash).Line = line))).getLast? <;> rfl

theorem suppressed_iff_commentAt {Func : Type} (p : Package Func) (pos : Position) :
    suppressed p pos ↔
      ∃ text, commentAt (fileLineCommentMap p.Fset p.Syntax) pos.Filename (pos.Line - 1) =
        some text ∧ okCommentRegxp.MatchString text = true := by
  unfold suppressed commentAt
  constructor
  · rintro ⟨lineToComment, text, hf, hl, hm⟩
    exact ⟨text, by rw [hf, Option.some_bind, hl], hm⟩
  · rintro ⟨text, ht, hm⟩
    cases hf : AList.lookup pos.Filename (fileLineCommentMap p.Fset p.Syntax) with
    | none => rw [hf] at ht; simp at ht
    | some lineToComment =>
      rw [hf, Option.some_bind] at ht
      exact ⟨lineToComment, text, rfl, ht, hm⟩

/-- C24. The map returned by `fileLineCommentMap` holds at a file and a line the text of
the last comment, in traversal order, that starts on that line of that file, and it has
an entry there exactly when some comment starts there.  A reference is suppressed exactly
when the last comment that starts on the line before it is accepted by `okCommentRegxp`.
So a block comment over lines 7 and 8 has its entry at line 7 only and does not suppress a
reference on line 9; and of two comments that start on line 8 the second alone decides. -/
theorem fileLineCommentMap_last_comment {Func : Type} :
    (∀ (fset : FileSet) (files : List File) (file : String) (line : Int),
      commentAt (fileLineCommentMap fset files) file line =
        ((commentsStartingAt fset files file line).getLast?).map Comment.Text) ∧
    (∀ (fset : FileSet) (files : List File) (file : String) (line : Int),
      (commentAt (fileLineCommentMap fset files) file line).isSome = true ↔
        ∃ c ∈ allComments files,
          (fset.Position c.Slash).Filename = file ∧ (fset.Position c.Slash).Line = line) ∧
    (∀ (p : Package Func) (pos : Position),
      suppressed p pos ↔
        ∃ c, (commentsStartingAt p.Fset p.Syntax pos.Filename (pos.Line - 1)).getLast? =
          some c ∧ okCommentRegxp.MatchString c.Text = true) ∧
    commentAt (fileLineCommentMap exPkgBlockComment.Fset exPkgBlockComment.Syntax)
      "foo/foo.go" 7 = some "/* // OK: reviewed\n\t// OK: reviewed */" ∧
    commentAt (fileLineCommentMap exPkgBlockComment.Fset exPkgBlockComment.Syntax)
      "foo/foo.go" 8 = none ∧
    PrintBadFuncRefs (exEnv [exPkgBlockComment]) ["./..."] (exSigs exDo "No") "" "" =
      (some (GoError.errorf ""), "foo/foo.go:9:21: No\n") ∧
    PrintBadFuncRefs (exEnv [exPkgTwoComments "/* // OK: x */" "// later"]) ["./..."]
      (exSigs exDo "No") "" "" = (some (GoError.errorf ""), "foo/foo.go:9:21: No\n") ∧
    PrintBadFuncRefs (exEnv [exPkgTwoComments "/* later */" "// OK: x"]) ["./..."]
      (exSigs exDo "No") "" "" = (none, "") := by
  refine ⟨commentAt_fileLineCommentMap, ?_, ?_, by decide, by decide, by decide, by decide,
    by decide⟩
  · intro fset files file line
    rw [commentAt_fileLineCommentMap]
    unfold commentsStartingAt
    constructor
    · intro h
      cases hl : ((allComments files).filter (fun c =>
          decide ((fset.Position c.Slash).Filename = file ∧
            (fset.Position c.Slash).Line = line))).getLast? with
      | none =>
        rw [hl] at h
        exact Bool.noConfusion h
      | some c =>
        have hmem := List.mem_of_mem_getLast? hl
        rw [List.mem_filter, decide_eq_true_eq] at hmem
        exact ⟨c, hmem.1, hmem.2⟩
    · rintro ⟨c, hc, hp⟩
      have hmem : c ∈ (allComments files).filter (fun c =>
          decide ((fset.Position c.Slash).Filename = file ∧
            (fset.Position c.Slash).Line = line)) := by
        rw [List.mem_filter, decide_eq_true_eq]
        exact ⟨hc, hp⟩
      cases hl : ((allComments files).filter (fun c =>
          decide ((fset.Position c.Slash).Filename = file ∧
            (fset.Position c.Slash).Line = line))).getLast? with
      | some d => rfl
      | none =>
        rw [List.getLast?_eq_none_iff] at hl
        rw [hl] at hmem
        exact absurd hmem (List.not_mem_nil _)
  · intro p pos
    rw [suppressed_iff_commentAt]
    constructor
    · rintro ⟨text, ht, hm⟩
      rw [commentAt_fileLineCommentMap] at ht
      obtain ⟨c, hc, rfl⟩ := Option.map_eq_some'.mp ht
      exact ⟨c, hc, hm⟩
    · rintro ⟨c, hc, hm⟩
      exact ⟨c.Text, by rw [commentAt_fileLineCommentMap, hc]; rfl, hm⟩

/-! ### The visits and the entries of the map -/

theorem keys_map_lookup {κ ν β : Type} [DecidableEq κ] (m : GoMap κ ν) (g : κ → Option ν → β) :
    m.keys.map (fun k => g k (m.lookup k)) = m.entries.map (fun e => g e.1 (some e.2)) := by
  show (m.entries.map Sigma.fst).map (fun k => g k (m.lookup k)) = _
  rw [List.map_map]
  apply List.map_congr_left
  intro e he
  have hl : AList.lookup e.1 m = some e.2 := AList.mem_lookup_iff.mpr he
  show g e.1 (AList.lookup e.1 m) = _
  rw [hl]

theorem keys_flatMap_lookup {κ ν β : Type} [DecidableEq κ] (m : GoMap κ ν)
    (g : κ → Option ν → List β) :
    m.keys.flatMap (fun k => g k (m.lookup k)) = m.entries.flatMap (fun e => g e.1 (some e.2)) := by
  show (m.entries.map Sigma.fst).flatMap (fun k => g k (m.lookup k)) = _
  rw [List.flatMap_map]
  apply flatMap_congr_mem
  intro e he
  have hl : AList.lookup e.1 m = some e.2 := AList.mem_lookup_iff.mpr he
  show g e.1 (AList.lookup e.1 m) = _
  rw [hl]

theorem visitSeq_perm_entries (S : SortImpl) (m : RefMap) :
    List.Perm (visitSeq S m) ((refEntries m).map (fun t => (t.2.1, t.2.2))) := by
  unfold visitSeq refEntries
  rw [List.map_flatMap]
  simp only [List.map_map, Function.comp_def]
  refine (List.Perm.flatMap_right _ (S.perm strLess m.keys)).trans ?_
  have hk := keys_flatMap_lookup m
    (fun _ o => (o.getD ∅).entries.map (fun c : Sigma (fun _ : Position => FuncRef) => (c.1, c.2)))
  simp only [Option.getD_some] at hk
  rw [← hk]
  apply List.Perm.flatMap_left
  intro file _
  refine ((S.perm posSliceLess ((AList.lookup file m).getD ∅).keys).map _).trans ?_
  rw [keys_map_lookup ((AList.lookup file m).getD ∅) (fun pos o => (pos, o.getD ""))]
  exact List.Perm.refl _

theorem refEntries_nodup (m : RefMap) :
    ((refEntries m).map (fun t => (t.1, t.2.1))).Nodup := by
  unfold refEntries
  rw [List.map_flatMap]
  simp only [List.map_map, Function.comp_def]
  rw [List.nodup_flatMap]
  constructor
  · intro e _
    have hk : e.2.entries.map (fun c => (e.1, c.1)) = e.2.keys.map (fun pos => (e.1, pos)) := by
      show _ = (e.2.entries.map Sigma.fst).map _
      rw [List.map_map]
      rfl
    rw [hk]
    exact List.Nodup.map (fun a b h => (Prod.mk.inj h).2) e.2.keys_nodup
  · have hn : m.entries.Pairwise (fun e1 e2 => e1.1 ≠ e2.1) :=
      List.nodupKeys_iff_pairwise.mp m.nodupKeys
    refine hn.imp ?_
    intro e1 e2 hne x h1 h2
    rw [List.mem_map] at h1 h2
    obtain ⟨c1, _, rfl⟩ := h1
    obtain ⟨c2, _, h⟩ := h2
    exact hne (Prod.mk.inj h).1.symm

theorem mem_refEntries (m : RefMap) (file : String) (pos : Position) (ref : FuncRef) :
    (file, pos, ref) ∈ refEntries m ↔ refAt m file pos = some ref := by
  unfold refEntries refAt
  rw [List.mem_flatMap]
  constructor
  · rintro ⟨e, he, hc⟩
    rw [List.mem_map] at hc
    obtain ⟨c, hc, h⟩ := hc
    obtain ⟨rfl, rfl, rfl⟩ := Prod.mk.inj h |>.imp id Prod.mk.inj
    have hl : AList.lookup e.1 m = some e.2 := AList.mem_lookup_iff.mpr he
    rw [hl, Option.some_bind]
    exact AList.mem_lookup_iff.mpr hc
  · intro h
    cases hl : AList.lookup file m with
    | none => rw [hl] at h; simp at h
    | some inner =>
      rw [hl, Option.some_bind] at h
      refine ⟨⟨file, inner⟩, AList.mem_lookup_iff.mp hl, ?_⟩
      rw [List.mem_map]
      exact ⟨⟨pos, ref⟩, AList.mem_lookup_iff.mp h, rfl⟩

/-- C23. For every reference map and every sorting routine, the calls `visitInOrder` makes
to its visitor are, as (position, signature) pairs, a rearrangement of the entries of the
map, each of which is listed once under its file and position; every visitor is run on
exactly that sequence of calls, a call is made with a position and a signature exactly
when some file of the map holds that signature at that position, and there are as many
calls as entries.  The map is an argument that `visitInOrder` only reads. -/
theorem visitInOrder_visits_entries (S : SortImpl) (m : RefMap) :
    List.Perm (visitInOrder S m recordVisits []) ((refEntries m).map (fun t => (t.2.1, t.2.2))) ∧
    ((refEntries m).map (fun t => (t.1, t.2.1))).Nodup ∧
    (∀ file pos ref, (file, pos, ref) ∈ refEntries m ↔ refAt m file pos = some ref) ∧
    (∀ (σ : Type) (visitor : Position → FuncRef → σ → σ) (s : σ),
      visitInOrder S m visitor s =
        (visitInOrder S m recordVisits []).foldl (fun st x => visitor x.1 x.2 st) s) ∧
    (∀ pos ref, (pos, ref) ∈ visitInOrder S m recordVisits [] ↔
      ∃ file, refAt m file pos = some ref) ∧
    (visitInOrder S m recordVisits []).length = (refEntries m).length := by
  rw [visitInOrder_recordVisits]
  refine ⟨visitSeq_perm_entries S m, refEntries_nodup m, mem_refEntries m,
    fun σ visitor s => visitInOrder_eq_foldl S m visitor s, mem_visitSeq S m, ?_⟩
  rw [(visitSeq_perm_entries S m).length_eq, List.length_map]

/-- C22, witness: `// OK:`, three spaces and the rest `reviewed`. -/
theorem okCommentRegxp_marker_at_any_offset_witness :
    2 ≤ 3 ∧
      okCommentRegxp.MatchString (String.mk ("// OK:".data ++ List.replicate 3 ' ' ++
        "reviewed".data)) = okCommentRegxp.MatchString "reviewed" ∧
      okCommentRegxp.MatchString "reviewed" = false :=
  ⟨by decide, okCommentRegxp_marker_at_any_offset.2.2.2.2.2.1 3 "reviewed" (by decide),
    by decide⟩

/-! ### Configuration: the decoder and the grammar -/

theorem getu4_hex (a b c d : Char) (r : Nat) (h : getu4 a b c d = some r) :
    isHexDigit a = true ∧ isHexDigit b = true ∧ isHexDigit c = true ∧ isHexDigit d = true := by
  unfold getu4 at h
  unfold isHexDigit
  cases ha : hexVal a <;> cases hb : hexVal b <;> cases hc : hexVal c <;>
    cases hd : hexVal d <;> simp_all

theorem jsonTokens_lex : ∀ (st : Option (List Char)) (l : List Char) (ts : List JSONToken),
    jsonTokens st l = some ts → JSONLex st.isSome l (ts.map JSONToken.kind) := by
  intro st l
  induction st, l using jsonTokens.induct with
  | case1 => 
    intro ts h
    simp [jsonTokens] at h
    subst h
    exact JSONLex.done
  | case2 => intro ts h; simp [jsonTokens] at h
  | case3 rest ih =>
    intro ts h
    simp only [jsonTokens, Option.map_eq_some'] at h
    obtain ⟨ts1, h1, rfl⟩ := h
    exact JSONLex.null _ _ (ih ts1 h1)
  | case4 c rest hn hsp ih =>
    intro ts h
    rw [jsonTokens] at h
    · rw [if_pos hsp] at h
      exact JSONLex.space _ _ _ hsp (ih ts h)
    · exact hn
  | case5 rest hn hsp ih =>
    intro ts h
    simp only [jsonTokens, if_neg hsp, if_true, Option.map_eq_some'] at h
    obtain ⟨ts1, h1, rfl⟩ := h
    exact JSONLex.lbrace _ _ (ih ts1 h1)
  | case6 rest hn hsp h1 ih =>
    intro ts h
    simp only [jsonTokens, if_neg hsp, if_neg h1, if_true, Option.map_eq_some'] at h
    obtain ⟨ts1, h1, rfl⟩ := h
    exact JSONLex.rbrace _ _ (ih ts1 h1)
  | case7 rest hn hsp h1 h2 ih =>
    intro ts h
    simp only [jsonTokens, if_neg hsp, if_neg h1, if_neg h2, if_true, Option.map_eq_some'] at h
    obtain ⟨ts1, h1, rfl⟩ := h
    exact JSONLex.colon _ _ (ih ts1 h1)
  | case8 rest hn hsp h1 h2 h3 ih =>
    intro ts h
    simp only [jsonTokens, if_neg hsp, if_neg h1, if_neg h2, if_neg h3, if_true,
      Option.map_eq_some'] at h
    obtain ⟨ts1, h1, rfl⟩ := h
    exact JSONLex.comma _ _ (ih ts1 h1)
  | case9 rest hn hsp h1 h2 h3 h4 ih =>
    intro ts h
    simp only [jsonTokens, if_neg hsp, if_neg h1, if_neg h2, if_neg h3, if_neg h4, if_true] at h
    exact JSONLex.quote _ _ (ih ts h)
  | case10 c rest hn h1 h2 h3 h4 h5 h6 =>
    intro ts h
    rw [jsonTokens] at h
    · rw [if_neg h1, if_neg h2, if_neg h3, if_neg h4, if_neg h5, if_neg h6] at h
      exact Option.noConfusion h
    · exact hn
  | case11 acc rest ih =>
    intro ts h
    simp only [jsonTokens, Option.map_eq_some'] at h
    obtain ⟨ts1, h1, rfl⟩ := h
    exact JSONLex.close _ _ (ih ts1 h1)
  | case12 acc a b c d a2 b2 c2 d2 rest hr =>
    intro ts h
    simp only [jsonTokens, hr] at h
    exact Option.noConfusion h
  | case13 acc a b c d a2 b2 c2 d2 rest r hr hs r2 hr2 hp ih =>
    intro ts h
    simp only [jsonTokens, hr, hr2, if_pos hs, if_pos hp] at h
    obtain ⟨x1, x2, x3, x4⟩ := getu4_hex _ _ _ _ _ hr
    obtain ⟨y1, y2, y3, y4⟩ := getu4_hex _ _ _ _ _ hr2
    exact JSONLex.unicode _ _ _ _ _ _ x1 x2 x3 x4 (JSONLex.unicode _ _ _ _ _ _ y1 y2 y3 y4 (ih ts h))
  | case14 acc a b c d a2 b2 c2 d2 rest r hr hs r2 hr2 hp ih =>
    intro ts h
    simp only [jsonTokens, hr, hr2, if_pos hs, if_neg hp] at h
    obtain ⟨x1, x2, x3, x4⟩ := getu4_hex _ _ _ _ _ hr
    exact JSONLex.unicode _ _ _ _ _ _ x1 x2 x3 x4 (ih ts h)
  | case15 acc a b c d a2 b2 c2 d2 rest r hr hs hr2 ih =>
    intro ts h
    simp only [jsonTokens, hr, hr2, if_pos hs] at h
    obtain ⟨x1, x2, x3, x4⟩ := getu4_hex _ _ _ _ _ hr
    exact JSONLex.unicode _ _ _ _ _ _ x1 x2 x3 x4 (ih ts h)
  | case16 acc a b c d a2 b2 c2 d2 rest r hr hs ih =>
    intro ts h
    simp only [jsonTokens, hr, if_neg hs] at h
    obtain ⟨x1, x2, x3, x4⟩ := getu4_hex _ _ _ _ _ hr
    exact JSONLex.unicode _ _ _ _ _ _ x1 x2 x3 x4 (ih ts h)
  | case17 acc a b c d rest hn hr =>
    intro ts h
    rw [jsonTokens] at h
    · simp only [hr] at h
      exact Option.noConfusion h
    · exact hn
  | case18 acc a b c d rest hn r hr hs ih =>
    intro ts h
    rw [jsonTokens] at h
    · simp only [hr, if_pos hs] at h
      obtain ⟨x1, x2, x3, x4⟩ := getu4_hex _ _ _ _ _ hr
      exact JSONLex.unicode _ _ _ _ _ _ x1 x2 x3 x4 (ih ts h)
    · exact hn
  | case19 acc a b c d rest hn r hr hs ih =>
    intro ts h
    rw [jsonTokens] at h
    · simp only [hr, if_neg hs] at h
      obtain ⟨x1, x2, x3, x4⟩ := getu4_hex _ _ _ _ _ hr
      exact JSONLex.unicode _ _ _ _ _ _ x1 x2 x3 x4 (ih ts h)
    · exact hn
  | case20 acc rest =>
    rename_i ih
    intro ts h
    simp [jsonTokens] at h
    exact JSONLex.escaped _ _ _ (by simp) (ih ts h)
  | case21 acc rest =>
    rename_i ih
    intro ts h
    simp [jsonTokens] at h
    exact JSONLex.escaped _ _ _ (by simp) (ih ts h)
  | case22 acc rest =>
    rename_i ih
    intro ts h
    simp [jsonTokens] at h
    exact JSONLex.escaped _ _ _ (by simp) (ih ts h)
  | case23 acc rest =>
    rename_i ih
    intro ts h
    simp [jsonTokens] at h
    exact JSONLex.escaped _ _ _ (by simp) (ih ts h)
  | case24 acc rest =>
    rename_i ih
    intro ts h
    simp [jsonTokens] at h
    exact JSONLex.escaped _ _ _ (by simp) (ih ts h)
  | case25 acc rest =>
    rename_i ih
    intro ts h
    simp [jsonTokens] at h
    exact JSONLex.escaped _ _ _ (by simp) (ih ts h)
  | case26 acc rest =>
    rename_i ih
    intro ts h
    simp [jsonTokens] at h
    exact JSONLex.escaped _ _ _ (by simp) (ih ts h)
  | case27 acc rest =>
    rename_i ih
    intro ts h
    simp [jsonTokens] at h
    exact JSONLex.escaped _ _ _ (by simp) (ih ts h)
  | case28 acc e rest hn1 hn2 h1 h2 h3 h4 h5 h6 h7 h8 =>
    intro ts h
    rw [jsonTokens] at h
    · rw [if_neg h1, if_neg h2, if_neg h3, if_neg h4, if_neg h5, if_neg h6, if_neg h7,
        if_neg h8] at h
      exact Option.noConfusion h
    all_goals assumption
  | case29 acc c rest hn1 hn2 hn3 hn4 hc =>
    intro ts h
    rw [jsonTokens] at h
    · rw [if_pos hc] at h
      exact Option.noConfusion h
    all_goals assumption
  | case30 acc c rest hn1 hn2 hn3 hn4 hc ih =>
    intro ts h
    rw [jsonTokens] at h
    · rw [if_neg hc] at h
      have h20 : 0x20 ≤ c.toNat := by
        by_contra hlt
        exact hc (Or.inl (by omega))
      exact JSONLex.unescaped _ _ _ h20 hn1 (fun h => hc (Or.inr h)) (ih ts h)
    all_goals assumption


theorem lex_false_nil_inv (ks : List JSONKind) (h : JSONLex false [] ks) : ks = [] := by
  cases h
  rfl

theorem lex_true_nil_inv (ks : List JSONKind) (h : JSONLex true [] ks) : False := by
  cases h

theorem lex_false_cons_inv (c : Char) (rest : List Char) (ks : List JSONKind)
    (h : JSONLex false (c :: rest) ks) :
    (isJSONSpace c = true ∧ JSONLex false rest ks) ∨
    (c = '\x7b' ∧ ∃ ks1, ks = JSONKind.lbrace :: ks1 ∧ JSONLex false rest ks1) ∨
    (c = '\x7d' ∧ ∃ ks1, ks = JSONKind.rbrace :: ks1 ∧ JSONLex false rest ks1) ∨
    (c = ':' ∧ ∃ ks1, ks = JSONKind.colon :: ks1 ∧ JSONLex false rest ks1) ∨
    (c = ',' ∧ ∃ ks1, ks = JSONKind.comma :: ks1 ∧ JSONLex false rest ks1) ∨
    (c = 'n' ∧ ∃ rest1 ks1, rest = 'u' :: 'l' :: 'l' :: rest1 ∧ ks = JSONKind.null :: ks1 ∧
      JSONLex false rest1 ks1) ∨
    (c = '"' ∧ JSONLex true rest ks) := by
  generalize hl : c :: rest = l at h
  cases h with
  | done => exact absurd hl (List.cons_ne_nil _ _)
  | space c1 rest1 _ hsp h1 =>
    obtain ⟨rfl, rfl⟩ := List.cons.inj hl
    exact Or.inl ⟨hsp, h1⟩
  | lbrace rest1 ks1 h1 =>
    obtain ⟨rfl, rfl⟩ := List.cons.inj hl
    exact Or.inr (Or.inl ⟨rfl, ks1, rfl, h1⟩)
  | rbrace rest1 ks1 h1 =>
    obtain ⟨rfl, rfl⟩ := List.cons.inj hl
    exact Or.inr (Or.inr (Or.inl ⟨rfl, ks1, rfl, h1⟩))
  | colon rest1 ks1 h1 =>
    obtain ⟨rfl, rfl⟩ := List.cons.inj hl
    exact Or.inr (Or.inr (Or.inr (Or.inl ⟨rfl, ks1, rfl, h1⟩)))
  | comma rest1 ks1 h1 =>
    obtain ⟨rfl, rfl⟩ := List.cons.inj hl
    exact Or.inr (Or.inr (Or.inr (Or.inr (Or.inl ⟨rfl, ks1, rfl, h1⟩))))
  | null rest1 ks1 h1 =>
    obtain ⟨rfl, rfl⟩ := List.cons.inj hl
    exact Or.inr (Or.inr (Or.inr (Or.inr (Or.inr (Or.inl ⟨rfl, rest1, ks1, rfl, rfl, h1⟩)))))
  | quote rest1 _ h1 =>
    obtain ⟨rfl, rfl⟩ := List.cons.inj hl
    exact Or.inr (Or.inr (Or.inr (Or.inr (Or.inr (Or.inr ⟨rfl, h1⟩)))))

theorem lex_true_cons_inv (c : Char) (rest : List Char) (ks : List JSONKind)
    (h : JSONLex true (c :: rest) ks) :
    (c = '"' ∧ ∃ ks1, ks = JSONKind.str :: ks1 ∧ JSONLex false rest ks1) ∨
    (0x20 ≤ c.toNat ∧ c ≠ '"' ∧ c ≠ '\\' ∧ JSONLex true rest ks) ∨
    (c = '\\' ∧ ∃ e rest1, rest = e :: rest1 ∧
      e ∈ ['"', '\\', '/', 'b', 'f', 'n', 'r', 't'] ∧ JSONLex true rest1 ks) ∨
    (c = '\\' ∧ ∃ a b c d rest1, rest = 'u' :: a :: b :: c :: d :: rest1 ∧
      isHexDigit a = true ∧ isHexDigit b = true ∧ isHexDigit c = true ∧ isHexDigit d = true ∧
      JSONLex true rest1 ks) := by
  generalize hl : c :: rest = l at h
  cases h with
  | close rest1 ks1 h1 =>
    obtain ⟨rfl, rfl⟩ := List.cons.inj hl
    exact Or.inl ⟨rfl, ks1, rfl, h1⟩
  | unescaped c1 rest1 _ h20 hq hb h1 =>
    obtain ⟨rfl, rfl⟩ := List.cons.inj hl
    exact Or.inr (Or.inl ⟨h20, hq, hb, h1⟩)
  | escaped e rest1 _ he h1 =>
    obtain ⟨rfl, rfl⟩ := List.cons.inj hl
    exact Or.inr (Or.inr (Or.inl ⟨rfl, e, rest1, rfl, he, h1⟩))
  | unicode a b c d rest1 _ ha hb hc hd h1 =>
    obtain ⟨rfl, rfl⟩ := List.cons.inj hl
    exact Or.inr (Or.inr (Or.inr ⟨rfl, a, b, c, d, rest1, rfl, ha, hb, hc, hd, h1⟩))

theorem lex_true_backslash_inv (e : Char) (rest : List Char) (ks : List JSONKind)
    (h : JSONLex true ('\\' :: e :: rest) ks) :
    (e ∈ ['"', '\\', '/', 'b', 'f', 'n', 'r', 't'] ∧ JSONLex true rest ks) ∨
    (e = 'u' ∧ ∃ a b c d rest1, rest = a :: b :: c :: d :: rest1 ∧
      isHexDigit a = true ∧ isHexDigit b = true ∧ isHexDigit c = true ∧ isHexDigit d = true ∧
      JSONLex true rest1 ks) := by
  rcases lex_true_cons_inv _ _ _ h with ⟨hc, _⟩ | ⟨_, _, hc, _⟩ | ⟨_, e1, rest1, hr, he, h1⟩ |
    ⟨_, a, b, c, d, rest1, hr, ha, hb, hc, hd, h1⟩
  · exact absurd hc (by decide)
  · exact absurd rfl hc
  · obtain ⟨rfl, rfl⟩ := List.cons.inj hr
    exact Or.inl ⟨he, h1⟩
  · obtain ⟨rfl, rfl⟩ := List.cons.inj hr
    exact Or.inr ⟨rfl, a, b, c, d, rest1, rfl, ha, hb, hc, hd, h1⟩

theorem lex_true_unicode_inv (a b c d : Char) (rest : List Char) (ks : List JSONKind)
    (h : JSONLex true ('\\' :: 'u' :: a :: b :: c :: d :: rest) ks) :
    (isHexDigit a = true ∧ isHexDigit b = true ∧ isHexDigit c = true ∧ isHexDigit d = true) ∧
      JSONLex true rest ks := by
  rcases lex_true_backslash_inv _ _ _ h with ⟨he, _⟩ | ⟨_, a1, b1, c1, d1, rest1, hr, ha, hb, hc, hd, h1⟩
  · exact absurd he (by decide)
  · simp only [List.cons.injEq] at hr
    obtain ⟨rfl, rfl, rfl, rfl, rfl⟩ := hr
    exact ⟨⟨ha, hb, hc, hd⟩, h1⟩

theorem hex_getu4 (a b c d : Char) (ha : isHexDigit a = true) (hb : isHexDigit b = true)
    (hc : isHexDigit c = true) (hd : isHexDigit d = true) : ∃ r, getu4 a b c d = some r := by
  unfold isHexDigit at ha hb hc hd
  obtain ⟨x, hx⟩ := Option.isSome_iff_exists.mp ha
  obtain ⟨y, hy⟩ := Option.isSome_iff_exists.mp hb
  obtain ⟨z, hz⟩ := Option.isSome_iff_exists.mp hc
  obtain ⟨t, ht⟩ := Option.isSome_iff_exists.mp hd
  unfold getu4
  rw [hx, hy, hz, ht]
  exact ⟨_, rfl⟩


theorem lex_jsonTokens : ∀ (st : Option (List Char)) (l : List Char) (ks : List JSONKind),
    JSONLex st.isSome l ks → ∃ ts, jsonTokens st l = some ts ∧ ts.map JSONToken.kind = ks := by
  intro st l
  induction st, l using jsonTokens.induct with
  | case1 =>
    intro ks h
    rw [lex_false_nil_inv ks h]
    exact ⟨[], rfl, rfl⟩
  | case2 => intro ks h; exact absurd h (lex_true_nil_inv ks)
  | case3 rest ih =>
    intro ks h
    rcases lex_false_cons_inv _ _ _ h with ⟨hs, _⟩ | ⟨hc, _⟩ | ⟨hc, _⟩ | ⟨hc, _⟩ | ⟨hc, _⟩ |
      ⟨_, rest1, ks1, hr, rfl, h1⟩ | ⟨hc, _⟩
    · exact absurd hs (by decide)
    · exact absurd hc (by decide)
    · exact absurd hc (by decide)
    · exact absurd hc (by decide)
    · exact absurd hc (by decide)
    · simp only [List.cons.injEq, true_and] at hr
      subst hr
      obtain ⟨ts1, ht, hk⟩ := ih ks1 h1
      refine ⟨JSONToken.null :: ts1, ?_, ?_⟩
      · simp only [jsonTokens, ht, Option.map_some']
      · rw [List.map_cons, hk]
        rfl
    · exact absurd hc (by decide)
  | case4 c rest hn hsp ih =>
    intro ks h
    have hsp2 := hsp
    unfold isJSONSpace at hsp2
    simp only [Bool.or_eq_true, beq_iff_eq] at hsp2
    rcases lex_false_cons_inv _ _ _ h with ⟨_, h1⟩ | ⟨hc, _⟩ | ⟨hc, _⟩ | ⟨hc, _⟩ | ⟨hc, _⟩ |
      ⟨hc, _⟩ | ⟨hc, _⟩
    · obtain ⟨ts1, ht, hk⟩ := ih ks h1
      refine ⟨ts1, ?_, hk⟩
      rw [jsonTokens]
      · rw [if_pos hsp, ht]
      · exact hn
    all_goals (subst hc; simp at hsp2)
  | case5 rest hn hsp ih =>
    intro ks h
    rcases lex_false_cons_inv _ _ _ h with ⟨hs, _⟩ | ⟨_, ks1, rfl, h1⟩ | ⟨hc, _⟩ | ⟨hc, _⟩ |
      ⟨hc, _⟩ | ⟨hc, _⟩ | ⟨hc, _⟩
    · exact absurd hs hsp
    · obtain ⟨ts1, ht, hk⟩ := ih ks1 h1
      refine ⟨JSONToken.lbrace :: ts1, ?_, ?_⟩
      · simp only [jsonTokens, if_neg hsp, if_true, ht, Option.map_some']
      · rw [List.map_cons, hk]
        rfl
    all_goals exact absurd hc (by decide)
  | case6 rest hn hsp h1 ih =>
    intro ks h
    rcases lex_false_cons_inv _ _ _ h with ⟨hs, _⟩ | ⟨hc, _⟩ | ⟨_, ks1, rfl, h2⟩ | ⟨hc, _⟩ |
      ⟨hc, _⟩ | ⟨hc, _⟩ | ⟨hc, _⟩
    · exact absurd hs hsp
    · exact absurd hc (by decide)
    · obtain ⟨ts1, ht, hk⟩ := ih ks1 h2
      refine ⟨JSONToken.rbrace :: ts1, ?_, ?_⟩
      · simp only [jsonTokens, if_neg hsp, if_neg h1, if_true, ht, Option.map_some']
      · rw [List.map_cons, hk]
        rfl
    all_goals exact absurd hc (by decide)
  | case7 rest hn hsp h1 h2 ih =>
    intro ks h
    rcases lex_false_cons_inv _ _ _ h with ⟨hs, _⟩ | ⟨hc, _⟩ | ⟨hc, _⟩ | ⟨_, ks1, rfl, h3⟩ |
      ⟨hc, _⟩ | ⟨hc, _⟩ | ⟨hc, _⟩
    · exact absurd hs hsp
    · exact absurd hc (by decide)
    · exact absurd hc (by decide)
    · obtain ⟨ts1, ht, hk⟩ := ih ks1 h3
      refine ⟨JSONToken.colon :: ts1, ?_, ?_⟩
      · simp only [jsonTokens, if_neg hsp, if_neg h1, if_neg h2, if_true, ht, Option.map_some']
      · rw [List.map_cons, hk]
        rfl
    all_goals exact absurd hc (by decide)
  | case8 rest hn hsp h1 h2 h3 ih =>
    intro ks h
    rcases lex_false_cons_inv _ _ _ h with ⟨hs, _⟩ | ⟨hc, _⟩ | ⟨hc, _⟩ | ⟨hc, _⟩ |
      ⟨_, ks1, rfl, h4⟩ | ⟨hc, _⟩ | ⟨hc, _⟩
    · exact absurd hs hsp
    · exact absurd hc (by decide)
    · exact absurd hc (by decide)
    · exact absurd hc (by decide)
    · obtain ⟨ts1, ht, hk⟩ := ih ks1 h4
      refine ⟨JSONToken.comma :: ts1, ?_, ?_⟩
      · simp only [jsonTokens, if_neg hsp, if_neg h1, if_neg h2, if_neg h3, if_true, ht,
          Option.map_some']
      · rw [List.map_cons, hk]
        rfl
    all_goals exact absurd hc (by decide)
  | case9 rest hn hsp h1 h2 h3 h4 ih =>
    intro ks h
    rcases lex_false_cons_inv _ _ _ h with ⟨hs, _⟩ | ⟨hc, _⟩ | ⟨hc, _⟩ | ⟨hc, _⟩ |
      ⟨hc, _⟩ | ⟨hc, _⟩ | ⟨_, h5⟩
    · exact absurd hs hsp
    · exact absurd hc (by decide)
    · exact absurd hc (by decide)
    · exact absurd hc (by decide)
    · exact absurd hc (by decide)
    · exact absurd hc (by decide)
    · obtain ⟨ts1, ht, hk⟩ := ih ks h5
      refine ⟨ts1, ?_, hk⟩
      simp only [jsonTokens, if_neg hsp, if_neg h1, if_neg h2, if_neg h3, if_neg h4, if_true, ht]
  | case10 c rest hn h1 h2 h3 h4 h5 h6 =>
    intro ks h
    rcases lex_false_cons_inv _ _ _ h with ⟨hs, _⟩ | ⟨hc, _⟩ | ⟨hc, _⟩ | ⟨hc, _⟩ |
      ⟨hc, _⟩ | ⟨hc, rest1, ks1, hr, _⟩ | ⟨hc, _⟩
    · exact absurd hs h1
    · exact absurd hc h2
    · exact absurd hc h3
    · exact absurd hc h4
    · exact absurd hc h5
    · exact absurd hr (hn rest1 hc)
    · exact absurd hc h6
  | case11 acc rest ih =>
    intro ks h
    rcases lex_true_cons_inv _ _ _ h with ⟨_, ks1, rfl, h1⟩ | ⟨_, hc, _⟩ | ⟨hc, _⟩ | ⟨hc, _⟩
    · obtain ⟨ts1, ht, hk⟩ := ih ks1 h1
      refine ⟨JSONToken.str (String.mk acc) :: ts1, ?_, ?_⟩
      · simp only [jsonTokens, ht, Option.map_some']
      · rw [List.map_cons, hk]
        rfl
    · exact absurd rfl hc
    · exact absurd hc (by decide)
    · exact absurd hc (by decide)
  | case12 acc a b c d a2 b2 c2 d2 rest hr =>
    intro ks h
    obtain ⟨⟨ha, hb, hc, hd⟩, _⟩ := lex_true_unicode_inv _ _ _ _ _ _ h
    obtain ⟨r, hr2⟩ := hex_getu4 a b c d ha hb hc hd
    rw [hr] at hr2
    exact Option.noConfusion hr2
  | case13 acc a b c d a2 b2 c2 d2 rest r hr hs r2 hr2 hp ih =>
    intro ks h
    obtain ⟨_, h1⟩ := lex_true_unicode_inv _ _ _ _ _ _ h
    obtain ⟨_, h2⟩ := lex_true_unicode_inv _ _ _ _ _ _ h1
    obtain ⟨ts1, ht, hk⟩ := ih ks h2
    refine ⟨ts1, ?_, hk⟩
    simp only [jsonTokens, hr, hr2, if_pos hs, if_pos hp, ht]
  | case14 acc a b c d a2 b2 c2 d2 rest r hr hs r2 hr2 hp ih =>
    intro ks h
    obtain ⟨_, h1⟩ := lex_true_unicode_inv _ _ _ _ _ _ h
    obtain ⟨ts1, ht, hk⟩ := ih ks h1
    refine ⟨ts1, ?_, hk⟩
    simp only [jsonTokens, hr, hr2, if_pos hs, if_neg hp, ht]
  | case15 acc a b c d a2 b2 c2 d2 rest r hr hs hr2 ih =>
    intro ks h
    obtain ⟨_, h1⟩ := lex_true_unicode_inv _ _ _ _ _ _ h
    obtain ⟨ts1, ht, hk⟩ := ih ks h1
    refine ⟨ts1, ?_, hk⟩
    simp only [jsonTokens, hr, hr2, if_pos hs, ht]
  | case16 acc a b c d a2 b2 c2 d2 rest r hr hs ih =>
    intro ks h
    obtain ⟨_, h1⟩ := lex_true_unicode_inv _ _ _ _ _ _ h
    obtain ⟨ts1, ht, hk⟩ := ih ks h1
    refine ⟨ts1, ?_, hk⟩
    simp only [jsonTokens, hr, if_neg hs, ht]
  | case17 acc a b c d rest hn hr =>
    intro ks h
    obtain ⟨⟨ha, hb, hc, hd⟩, _⟩ := lex_true_unicode_inv _ _ _ _ _ _ h
    obtain ⟨r, hr2⟩ := hex_getu4 a b c d ha hb hc hd
    rw [hr] at hr2
    exact Option.noConfusion hr2
  | case18 acc a b c d rest hn r hr hs ih =>
    intro ks h
    obtain ⟨_, h1⟩ := lex_true_unicode_inv _ _ _ _ _ _ h
    obtain ⟨ts1, ht, hk⟩ := ih ks h1
    refine ⟨ts1, ?_, hk⟩
    rw [jsonTokens]
    · simp only [hr, if_pos hs, ht]
    · exact hn
  | case19 acc a b c d rest hn r hr hs ih =>
    intro ks h
    obtain ⟨_, h1⟩ := lex_true_unicode_inv _ _ _ _ _ _ h
    obtain ⟨ts1, ht, hk⟩ := ih ks h1
    refine ⟨ts1, ?_, hk⟩
    rw [jsonTokens]
    · simp only [hr, if_neg hs, ht]
    · exact hn
  | case20 acc rest =>
    rename_i ih
    intro ks h
    rcases lex_true_backslash_inv _ _ _ h with ⟨_, h1⟩ | ⟨hc, _⟩
    · obtain ⟨ts1, ht, hk⟩ := ih ks h1
      exact ⟨ts1, by simp [jsonTokens, ht], hk⟩
    · exact absurd hc (by decide)
  | case21 acc rest =>
    rename_i ih
    intro ks h
    rcases lex_true_backslash_inv _ _ _ h with ⟨_, h1⟩ | ⟨hc, _⟩
    · obtain ⟨ts1, ht, hk⟩ := ih ks h1
      exact ⟨ts1, by simp [jsonTokens, ht], hk⟩
    · exact absurd hc (by decide)
  | case22 acc rest =>
    rename_i ih
    intro ks h
    rcases lex_true_backslash_inv _ _ _ h with ⟨_, h1⟩ | ⟨hc, _⟩
    · obtain ⟨ts1, ht, hk⟩ := ih ks h1
      exact ⟨ts1, by simp [jsonTokens, ht], hk⟩
    · exact absurd hc (by decide)
  | case23 acc rest =>
    rename_i ih
    intro ks h
    rcases lex_true_backslash_inv _ _ _ h with ⟨_, h1⟩ | ⟨hc, _⟩
    · obtain ⟨ts1, ht, hk⟩ := ih ks h1
      exact ⟨ts1, by simp [jsonTokens, ht], hk⟩
    · exact absurd hc (by decide)
  | case24 acc rest =>
    rename_i ih
    intro ks h
    rcases lex_true_backslash_inv _ _ _ h with ⟨_, h1⟩ | ⟨hc, _⟩
    · obtain ⟨ts1, ht, hk⟩ := ih ks h1
      exact ⟨ts1, by simp [jsonTokens, ht], hk⟩
    · exact absurd hc (by decide)
  | case25 acc rest =>
    rename_i ih
    intro ks h
    rcases lex_true_backslash_inv _ _ _ h with ⟨_, h1⟩ | ⟨hc, _⟩
    · obtain ⟨ts1, ht, hk⟩ := ih ks h1
      exact ⟨ts1, by simp [jsonTokens, ht], hk⟩
    · exact absurd hc (by decide)
  | case26 acc rest =>
    rename_i ih
    intro ks h
    rcases lex_true_backslash_inv _ _ _ h with ⟨_, h1⟩ | ⟨hc, _⟩
    · obtain ⟨ts1, ht, hk⟩ := ih ks h1
      exact ⟨ts1, by simp [jsonTokens, ht], hk⟩
    · exact absurd hc (by decide)
  | case27 acc rest =>
    rename_i ih
    intro ks h
    rcases lex_true_backslash_inv _ _ _ h with ⟨_, h1⟩ | ⟨hc, _⟩
    · obtain ⟨ts1, ht, hk⟩ := ih ks h1
      exact ⟨ts1, by simp [jsonTokens, ht], hk⟩
    · exact absurd hc (by decide)
  | case28 acc e rest hn1 hn2 h1 h2 h3 h4 h5 h6 h7 h8 =>
    intro ks h
    rcases lex_true_backslash_inv _ _ _ h with ⟨he, _⟩ | ⟨hc, a, b, c, d, rest1, hr, _⟩
    · simp only [List.mem_cons, List.mem_singleton, List.not_mem_nil, or_false] at he
      rcases he with he | he | he | he | he | he | he | he
      · exact absurd he h1
      · exact absurd he h2
      · exact absurd he h3
      · exact absurd he h4
      · exact absurd he h5
      · exact absurd he h6
      · exact absurd he h7
      · exact absurd he h8
    · exact absurd hr (hn2 a b c d rest1 hc)
  | case29 acc c rest hn1 hn2 hn3 hn4 hc =>
    intro ks h
    rcases lex_true_cons_inv _ _ _ h with ⟨hq, _⟩ | ⟨h20, _, hb, _⟩ | ⟨hb, e, rest1, hr, _⟩ |
      ⟨hb, a, b, c1, d, rest1, hr, _⟩
    · exact absurd hq hn1
    · rcases hc with hc | hc
      · omega
      · exact absurd hc hb
    · exact absurd hr (hn4 e rest1 hb)
    · exact absurd hr (hn4 _ _ hb)
  | case30 acc c rest hn1 hn2 hn3 hn4 hc ih =>
    intro ks h
    rcases lex_true_cons_inv _ _ _ h with ⟨hq, _⟩ | ⟨_, _, _, h1⟩ | ⟨hb, e, rest1, hr, _⟩ |
      ⟨hb, a, b, c1, d, rest1, hr, _⟩
    · exact absurd hq hn1
    · obtain ⟨ts1, ht, hk⟩ := ih ks h1
      refine ⟨ts1, ?_, hk⟩
      rw [jsonTokens]
      · rw [if_neg hc, ht]
      all_goals assumption
    · exact absurd hr (hn4 e rest1 hb)
    · exact absurd hr (hn4 _ _ hb)

/-! #### The tokens and the grammar -/

theorem spaces_nil : JSONSpaces [] := fun _ h => absurd h (List.not_mem_nil _)

theorem spaces_cons (c : Char) (s : List Char) (hc : isJSONSpace c = true) (hs : JSONSpaces s) :
    JSONSpaces (c :: s) := by
  intro x hx
  rcases List.mem_cons.mp hx with rfl | hx
  · exact hc
  · exact hs x hx

theorem spaces_append (s t : List Char) (hs : JSONSpaces s) (ht : JSONSpaces t) :
    JSONSpaces (s ++ t) := by
  intro x hx
  rcases List.mem_append.mp hx with hx | hx
  · exact hs x hx
  · exact ht x hx

theorem lex_spaces (s : List Char) (hs : JSONSpaces s) (rest : List Char) (ks : List JSONKind)
    (h : JSONLex false rest ks) : JSONLex false (s ++ rest) ks := by
  induction s with
  | nil => exact h
  | cons c s ih =>
    exact JSONLex.space c _ _ (hs c (List.mem_cons_self _ _))
      (ih (fun x hx => hs x (List.mem_cons_of_mem _ hx)))

theorem lex_body (body : List Char) (hb : JSONStringBody body) (rest : List Char)
    (ks : List JSONKind) (h : JSONLex false rest ks) :
    JSONLex true (body ++ '"' :: rest) (JSONKind.str :: ks) := by
  induction hb with
  | done => exact JSONLex.close _ _ h
  | unescaped c b h20 hq hbs _ ih => exact JSONLex.unescaped c _ _ h20 hq hbs ih
  | escaped e b he _ ih => exact JSONLex.escaped e _ _ he ih
  | unicode a b c d r ha hb hc hd _ ih => exact JSONLex.unicode a b c d _ _ ha hb hc hd ih

theorem lex_token (k : JSONKind) (tok : List Char) (ht : k.Text tok) (rest : List Char)
    (ks : List JSONKind) (h : JSONLex false rest ks) : JSONLex false (tok ++ rest) (k :: ks) := by
  cases k with
  | lbrace => cases ht; exact JSONLex.lbrace _ _ h
  | rbrace => cases ht; exact JSONLex.rbrace _ _ h
  | colon => cases ht; exact JSONLex.colon _ _ h
  | comma => cases ht; exact JSONLex.comma _ _ h
  | null => cases ht; exact JSONLex.null _ _ h
  | str =>
    obtain ⟨body, hb, rfl⟩ := ht
    have := JSONLex.quote _ _ (lex_body body hb rest ks h)
    simpa using this

theorem lex_true_split : ∀ (b : Bool) (l : List Char) (ks : List JSONKind), JSONLex b l ks →
    b = true → ∃ body rest ks1, JSONStringBody body ∧ l = body ++ '"' :: rest ∧
      ks = JSONKind.str :: ks1 ∧ JSONLex false rest ks1 := by
  intro b l ks h
  induction h with
  | done => intro hb; exact Bool.noConfusion hb
  | space => intro hb; exact Bool.noConfusion hb
  | lbrace => intro hb; exact Bool.noConfusion hb
  | rbrace => intro hb; exact Bool.noConfusion hb
  | colon => intro hb; exact Bool.noConfusion hb
  | comma => intro hb; exact Bool.noConfusion hb
  | null => intro hb; exact Bool.noConfusion hb
  | quote => intro hb; exact Bool.noConfusion hb
  | close rest ks1 h1 _ => intro _; exact ⟨[], rest, ks1, JSONStringBody.done, rfl, rfl, h1⟩
  | unescaped c rest ks1 h20 hq hbs _ ih =>
    intro _
    obtain ⟨body, rest1, ks2, hb, rfl, rfl, h2⟩ := ih rfl
    exact ⟨c :: body, rest1, ks2, JSONStringBody.unescaped c body h20 hq hbs hb, rfl, rfl, h2⟩
  | escaped e rest ks1 he _ ih =>
    intro _
    obtain ⟨body, rest1, ks2, hb, rfl, rfl, h2⟩ := ih rfl
    exact ⟨'\\' :: e :: body, rest1, ks2, JSONStringBody.escaped e body he hb, rfl, rfl, h2⟩
  | unicode a b c d rest ks1 ha hb hc hd _ ih =>
    intro _
    obtain ⟨body, rest1, ks2, hbody, rfl, rfl, h2⟩ := ih rfl
    exact ⟨'\\' :: 'u' :: a :: b :: c :: d :: body, rest1, ks2,
      JSONStringBody.unicode a b c d body ha hb hc hd hbody, rfl, rfl, h2⟩

theorem lex_false_nil : ∀ (b : Bool) (l : List Char) (ks : List JSONKind), JSONLex b l ks →
    b = false → ks = [] → JSONSpaces l := by
  intro b l ks h
  induction h with
  | done => intro _ _; exact spaces_nil
  | space c rest ks1 hsp _ ih => intro hb hk; exact spaces_cons c rest hsp (ih hb hk)
  | lbrace => intro _ hk; exact absurd hk (List.cons_ne_nil _ _)
  | rbrace => intro _ hk; exact absurd hk (List.cons_ne_nil _ _)
  | colon => intro _ hk; exact absurd hk (List.cons_ne_nil _ _)
  | comma => intro _ hk; exact absurd hk (List.cons_ne_nil _ _)
  | null => intro _ hk; exact absurd hk (List.cons_ne_nil _ _)
  | quote rest ks1 h1 _ =>
    intro _ hk
    obtain ⟨_, _, _, _, _, hks, _⟩ := lex_true_split _ _ _ h1 rfl
    rw [hk] at hks
    exact absurd hks.symm (List.cons_ne_nil _ _)
  | close => intro hb; exact Bool.noConfusion hb
  | unescaped => intro hb; exact Bool.noConfusion hb
  | escaped => intro hb; exact Bool.noConfusion hb
  | unicode => intro hb; exact Bool.noConfusion hb

theorem lex_false_split : ∀ (b : Bool) (l : List Char) (ks0 : List JSONKind), JSONLex b l ks0 →
    b = false → ∀ (k : JSONKind) (ks : List JSONKind), ks0 = k :: ks →
      ∃ s tok rest, JSONSpaces s ∧ k.Text tok ∧ l = s ++ (tok ++ rest) ∧ JSONLex false rest ks := by
  intro b l ks0 h
  induction h with
  | done => intro _ k ks hk; exact absurd hk.symm (List.cons_ne_nil _ _)
  | space c rest ks1 hsp _ ih =>
    intro hb k ks hk
    obtain ⟨s, tok, rest1, hs, ht, rfl, h2⟩ := ih hb k ks hk
    exact ⟨c :: s, tok, rest1, spaces_cons c s hsp hs, ht, rfl, h2⟩
  | lbrace rest ks1 h1 _ =>
    intro _ k ks hk
    obtain ⟨rfl, rfl⟩ := List.cons.inj hk
    exact ⟨[], ['\x7b'], rest, spaces_nil, rfl, rfl, h1⟩
  | rbrace rest ks1 h1 _ =>
    intro _ k ks hk
    obtain ⟨rfl, rfl⟩ := List.cons.inj hk
    exact ⟨[], ['\x7d'], rest, spaces_nil, rfl, rfl, h1⟩
  | colon rest ks1 h1 _ =>
    intro _ k ks hk
    obtain ⟨rfl, rfl⟩ := List.cons.inj hk
    exact ⟨[], [':'], rest, spaces_nil, rfl, rfl, h1⟩
  | comma rest ks1 h1 _ =>
    intro _ k ks hk
    obtain ⟨rfl, rfl⟩ := List.cons.inj hk
    exact ⟨[], [','], rest, spaces_nil, rfl, rfl, h1⟩
  | null rest ks1 h1 _ =>
    intro _ k ks hk
    obtain ⟨rfl, rfl⟩ := List.cons.inj hk
    exact ⟨[], ['n', 'u', 'l', 'l'], rest, spaces_nil, rfl, rfl, h1⟩
  | quote rest ks1 h1 _ =>
    intro _ k ks hk
    obtain ⟨body, rest1, ks2, hb, rfl, hks, h2⟩ := lex_true_split _ _ _ h1 rfl
    rw [hk] at hks
    obtain ⟨rfl, rfl⟩ := List.cons.inj hks
    refine ⟨[], '"' :: (body ++ ['"']), rest1, spaces_nil, ⟨body, hb, rfl⟩, ?_, h2⟩
    simp
  | close => intro hb; exact Bool.noConfusion hb
  | unescaped => intro hb; exact Bool.noConfusion hb
  | escaped => intro hb; exact Bool.noConfusion hb
  | unicode => intro hb; exact Bool.noConfusion hb

theorem lex_cons_split (l : List Char) (k : JSONKind) (ks : List JSONKind)
    (h : JSONLex false l (k :: ks)) :
    ∃ s tok rest, JSONSpaces s ∧ k.Text tok ∧ l = s ++ (tok ++ rest) ∧ JSONLex false rest ks :=
  lex_false_split false l (k :: ks) h rfl k ks rfl

theorem lex_nil_spaces (l : List Char) (h : JSONLex false l []) : JSONSpaces l :=
  lex_false_nil false l [] h rfl rfl

theorem lex_member (m : List Char) (hm : JSONMember m) (rest : List Char) (ks : List JSONKind)
    (h : JSONLex false rest ks) :
    ∃ vk, (vk = JSONKind.str ∨ vk = JSONKind.null) ∧
      JSONLex false (m ++ rest) (JSONKind.str :: JSONKind.colon :: vk :: ks) := by
  obtain ⟨k, s1, s2, v, hk, hs1, hs2, hv, rfl⟩ := hm
  have hval : ∃ vk, (vk = JSONKind.str ∨ vk = JSONKind.null) ∧ vk.Text v := by
    rcases hv with hv | hv
    · exact ⟨JSONKind.str, Or.inl rfl, hv⟩
    · exact ⟨JSONKind.null, Or.inr rfl, hv⟩
  obtain ⟨vk, hvk, hvt⟩ := hval
  refine ⟨vk, hvk, ?_⟩
  have h1 := lex_token vk v hvt rest ks h
  have h2 := lex_spaces s2 hs2 _ _ h1
  have h3 := lex_token JSONKind.colon [':'] rfl _ _ h2
  have h4 := lex_spaces s1 hs1 _ _ h3
  have h5 := lex_token JSONKind.str k hk _ _ h4
  simpa [List.append_assoc] using h5

theorem lex_members (ms : List Char) (hms : JSONMembers ms) :
    ∀ tail : List Char, JSONLex false tail [JSONKind.rbrace] →
      ∃ ks, JSONMemberKinds ks ∧ JSONLex false (ms ++ tail) ks := by
  induction hms with
  | one m hm =>
    intro tail ht
    obtain ⟨vk, hvk, h1⟩ := lex_member m hm tail _ ht
    rcases hvk with rfl | rfl
    · exact ⟨_, JSONMemberKinds.lastStr, h1⟩
    · exact ⟨_, JSONMemberKinds.lastNull, h1⟩
  | more m s1 s2 rest hm hs1 hs2 _ ih =>
    intro tail ht
    obtain ⟨ks, hks, h1⟩ := ih tail ht
    have h2 := lex_spaces s2 hs2 _ _ h1
    have h3 := lex_token JSONKind.comma [','] rfl _ _ h2
    have h4 := lex_spaces s1 hs1 _ _ h3
    obtain ⟨vk, hvk, h5⟩ := lex_member m hm _ _ h4
    have h6 : JSONLex false ((m ++ (s1 ++ (',' :: (s2 ++ rest)))) ++ tail)
        (JSONKind.str :: JSONKind.colon :: vk :: JSONKind.comma :: ks) := by
      simpa [List.append_assoc] using h5
    rcases hvk with rfl | rfl
    · exact ⟨_, JSONMemberKinds.moreStr ks hks, h6⟩
    · exact ⟨_, JSONMemberKinds.moreNull ks hks, h6⟩

theorem lex_of_null (l : List Char) (h : JSONNullText l) : JSONLex false l [JSONKind.null] := by
  obtain ⟨s0, s1, hs0, hs1, rfl⟩ := h
  have h1 : JSONLex false s1 [] := by
    have := lex_spaces s1 hs1 [] [] JSONLex.done
    simpa using this
  exact lex_spaces s0 hs0 _ _ (JSONLex.null _ _ h1)

theorem lex_of_object (l : List Char) (h : JSONObjectOfStrings l) :
    ∃ ks1, JSONLex false l (JSONKind.lbrace :: ks1) ∧
      (ks1 = [JSONKind.rbrace] ∨ JSONMemberKinds ks1) := by
  obtain ⟨s0, s1, s2, hs0, hs1, hs2, h⟩ := h
  have h2 : JSONLex false s2 [] := by
    have := lex_spaces s2 hs2 [] [] JSONLex.done
    simpa using this
  have hclose : JSONLex false ('\x7d' :: s2) [JSONKind.rbrace] := JSONLex.rbrace _ _ h2
  rcases h with rfl | ⟨ms, s3, hms, hs3, rfl⟩
  · exact ⟨[JSONKind.rbrace],
      lex_spaces s0 hs0 _ _ (JSONLex.lbrace _ _ (lex_spaces s1 hs1 _ _ hclose)), Or.inl rfl⟩
  · obtain ⟨ks, hks, h3⟩ := lex_members ms hms (s3 ++ '\x7d' :: s2) (lex_spaces s3 hs3 _ _ hclose)
    exact ⟨ks, lex_spaces s0 hs0 _ _ (JSONLex.lbrace _ _ (lex_spaces s1 hs1 _ _ h3)), Or.inr hks⟩

theorem null_of_lex (l : List Char) (h : JSONLex false l [JSONKind.null]) : JSONNullText l := by
  obtain ⟨s, tok, rest, hs, ht, rfl, h1⟩ := lex_cons_split l _ _ h
  cases ht
  exact ⟨s, rest, hs, lex_nil_spaces rest h1, rfl⟩

theorem member_of_lex (l : List Char) (vk : JSONKind)
    (hvk : vk = JSONKind.str ∨ vk = JSONKind.null) (ks : List JSONKind)
    (h : JSONLex false l (JSONKind.str :: JSONKind.colon :: vk :: ks)) :
    ∃ s m rest, JSONSpaces s ∧ JSONMember m ∧ l = s ++ (m ++ rest) ∧ JSONLex false rest ks := by
  obtain ⟨s, k, r1, hs, hk, rfl, h1⟩ := lex_cons_split l _ _ h
  obtain ⟨s1, c, r2, hs1, hc, rfl, h2⟩ := lex_cons_split r1 _ _ h1
  obtain ⟨s2, v, r3, hs2, hv, rfl, h3⟩ := lex_cons_split r2 _ _ h2
  cases hc
  have hval : JSONStringOrNull v := by
    rcases hvk with rfl | rfl
    · exact Or.inl hv
    · exact Or.inr hv
  refine ⟨s, k ++ (s1 ++ (':' :: (s2 ++ v))), r3, hs, ⟨k, s1, s2, v, hk, hs1, hs2, hval, rfl⟩, ?_,
    h3⟩
  simp [List.append_assoc]

theorem members_of_lex (ks : List JSONKind) (hks : JSONMemberKinds ks) :
    ∀ l : List Char, JSONLex false l ks →
      ∃ s1 ms s3 s2, JSONSpaces s1 ∧ JSONMembers ms ∧ JSONSpaces s3 ∧ JSONSpaces s2 ∧
        l = s1 ++ (ms ++ (s3 ++ ('\x7d' :: s2))) := by
  induction hks with
  | lastStr =>
    intro l h
    obtain ⟨s, m, rest, hs, hm, rfl, h1⟩ := member_of_lex l _ (Or.inl rfl) _ h
    obtain ⟨s3, tok, s2, hs3, ht, rfl, h2⟩ := lex_cons_split rest _ _ h1
    cases ht
    exact ⟨s, m, s3, s2, hs, JSONMembers.one m hm, hs3, lex_nil_spaces s2 h2, rfl⟩
  | lastNull =>
    intro l h
    obtain ⟨s, m, rest, hs, hm, rfl, h1⟩ := member_of_lex l _ (Or.inr rfl) _ h
    obtain ⟨s3, tok, s2, hs3, ht, rfl, h2⟩ := lex_cons_split rest _ _ h1
    cases ht
    exact ⟨s, m, s3, s2, hs, JSONMembers.one m hm, hs3, lex_nil_spaces s2 h2, rfl⟩
  | moreStr ks1 _ ih =>
    intro l h
    obtain ⟨s, m, rest, hs, hm, rfl, h1⟩ := member_of_lex l _ (Or.inl rfl) _ h
    obtain ⟨sa, tok, r2, hsa, ht, rfl, h2⟩ := lex_cons_split rest _ _ h1
    cases ht
    obtain ⟨sb, ms, s3, s2, hsb, hms, hs3, hs2, rfl⟩ := ih r2 h2
    refine ⟨s, m ++ (sa ++ (',' :: (sb ++ ms))), s3, s2, hs,
      JSONMembers.more m sa sb ms hm hsa hsb hms, hs3, hs2, ?_⟩
    simp [List.append_assoc]
  | moreNull ks1 _ ih =>
    intro l h
    obtain ⟨s, m, rest, hs, hm, rfl, h1⟩ := member_of_lex l _ (Or.inr rfl) _ h
    obtain ⟨sa, tok, r2, hsa, ht, rfl, h2⟩ := lex_cons_split rest _ _ h1
    cases ht
    obtain ⟨sb, ms, s3, s2, hsb, hms, hs3, hs2, rfl⟩ := ih r2 h2
    refine ⟨s, m ++ (sa ++ (',' :: (sb ++ ms))), s3, s2, hs,
      JSONMembers.more m sa sb ms hm hsa hsb hms, hs3, hs2, ?_⟩
    simp [List.append_assoc]

theorem object_of_lex (l : List Char) (ks1 : List JSONKind)
    (h : JSONLex false l (JSONKind.lbrace :: ks1))
    (hk : ks1 = [JSONKind.rbrace] ∨ JSONMemberKinds ks1) : JSONObjectOfStrings l := by
  obtain ⟨s0, tok, r1, hs0, ht, rfl, h1⟩ := lex_cons_split l _ _ h
  cases ht
  rcases hk with rfl | hk
  · obtain ⟨s1, tok, s2, hs1, ht, rfl, h2⟩ := lex_cons_split r1 _ _ h1
    cases ht
    exact ⟨s0, s1, s2, hs0, hs1, lex_nil_spaces s2 h2, Or.inl rfl⟩
  · obtain ⟨s1, ms, s3, s2, hs1, hms, hs3, hs2, rfl⟩ := members_of_lex ks1 hk r1 h1
    exact ⟨s0, s1, s2, hs0, hs1, hs2, Or.inr ⟨ms, s3, hms, hs3, rfl⟩⟩

theorem acceptedKinds_iff_grammar (l : List Char) :
    (∃ ks, JSONLex false l ks ∧ JSONAcceptedKinds ks) ↔ JSONNullText l ∨ JSONObjectOfStrings l := by
  constructor
  · rintro ⟨ks, h, hk⟩
    rcases hk with rfl | rfl | ⟨ks1, rfl, hm⟩
    · exact Or.inl (null_of_lex l h)
    · exact Or.inr (object_of_lex l _ h (Or.inl rfl))
    · exact Or.inr (object_of_lex l _ h (Or.inr hm))
  · rintro (h | h)
    · exact ⟨_, lex_of_null l h, Or.inl rfl⟩
    · obtain ⟨ks1, h1, hk⟩ := lex_of_object l h
      rcases hk with rfl | hk
      · exact ⟨_, h1, Or.inr (Or.inl rfl)⟩
      · exact ⟨_, h1, Or.inr (Or.inr ⟨ks1, rfl, hk⟩)⟩

/-! #### The decoder and the grammar -/

theorem kind_eq_str (t : JSONToken) (h : t.kind = JSONKind.str) : ∃ s, t = JSONToken.str s := by
  cases t <;> first | exact ⟨_, rfl⟩ | exact JSONKind.noConfusion h

theorem kind_eq_null (t : JSONToken) (h : t.kind = JSONKind.null) : t = JSONToken.null := by
  cases t <;> first | rfl | exact JSONKind.noConfusion h

theorem kind_eq_lbrace (t : JSONToken) (h : t.kind = JSONKind.lbrace) : t = JSONToken.lbrace := by
  cases t <;> first | rfl | exact JSONKind.noConfusion h

theorem kind_eq_rbrace (t : JSONToken) (h : t.kind = JSONKind.rbrace) : t = JSONToken.rbrace := by
  cases t <;> first | rfl | exact JSONKind.noConfusion h

theorem kind_eq_colon (t : JSONToken) (h : t.kind = JSONKind.colon) : t = JSONToken.colon := by
  cases t <;> first | rfl | exact JSONKind.noConfusion h

theorem kind_eq_comma (t : JSONToken) (h : t.kind = JSONKind.comma) : t = JSONToken.comma := by
  cases t <;> first | rfl | exact JSONKind.noConfusion h

theorem jsonMembers_kinds : ∀ (m : GoMap String String) (ts : List JSONToken)
    (r : GoMap String String), jsonMembers m ts = some r →
      JSONMemberKinds (ts.map JSONToken.kind) := by
  intro m ts
  induction m, ts using jsonMembers.induct with
  | case1 m k v => intro r _; exact JSONMemberKinds.lastStr
  | case2 m k => intro r _; exact JSONMemberKinds.lastNull
  | case3 m k v rest ih =>
    intro r h
    rw [jsonMembers] at h
    exact JSONMemberKinds.moreStr _ (ih r h)
  | case4 m k rest ih =>
    intro r h
    rw [jsonMembers] at h
    exact JSONMemberKinds.moreNull _ (ih r h)
  | case5 m ts h1 h2 h3 h4 =>
    intro r h
    rw [jsonMembers] at h
    · exact Option.noConfusion h
    all_goals assumption

theorem kinds_cons (ts : List JSONToken) (k : JSONKind) (ks : List JSONKind)
    (h : ts.map JSONToken.kind = k :: ks) :
    ∃ t ts1, ts = t :: ts1 ∧ t.kind = k ∧ ts1.map JSONToken.kind = ks := by
  cases ts with
  | nil => exact absurd h.symm (List.cons_ne_nil _ _)
  | cons t ts1 =>
    rw [List.map_cons] at h
    exact ⟨t, ts1, rfl, (List.cons.inj h).1, (List.cons.inj h).2⟩

theorem kinds_nil (ts : List JSONToken) (h : ts.map JSONToken.kind = []) : ts = [] :=
  List.map_eq_nil_iff.mp h

theorem kinds_jsonMembers (ks : List JSONKind) (hks : JSONMemberKinds ks) :
    ∀ (m : GoMap String String) (ts : List JSONToken), ts.map JSONToken.kind = ks →
      ∃ r, jsonMembers m ts = some r := by
  induction hks with
  | lastStr =>
    intro m ts h
    obtain ⟨t1, r1, rfl, h1, g1⟩ := kinds_cons _ _ _ h
    obtain ⟨t2, r2, rfl, h2, g2⟩ := kinds_cons _ _ _ g1
    obtain ⟨t3, r3, rfl, h3, g3⟩ := kinds_cons _ _ _ g2
    obtain ⟨t4, r4, rfl, h4, g4⟩ := kinds_cons _ _ _ g3
    obtain rfl := kinds_nil _ g4
    obtain ⟨k, rfl⟩ := kind_eq_str t1 h1
    obtain rfl := kind_eq_colon t2 h2
    obtain ⟨v, rfl⟩ := kind_eq_str t3 h3
    obtain rfl := kind_eq_rbrace t4 h4
    exact ⟨_, rfl⟩
  | lastNull =>
    intro m ts h
    obtain ⟨t1, r1, rfl, h1, g1⟩ := kinds_cons _ _ _ h
    obtain ⟨t2, r2, rfl, h2, g2⟩ := kinds_cons _ _ _ g1
    obtain ⟨t3, r3, rfl, h3, g3⟩ := kinds_cons _ _ _ g2
    obtain ⟨t4, r4, rfl, h4, g4⟩ := kinds_cons _ _ _ g3
    obtain rfl := kinds_nil _ g4
    obtain ⟨k, rfl⟩ := kind_eq_str t1 h1
    obtain rfl := kind_eq_colon t2 h2
    obtain rfl := kind_eq_null t3 h3
    obtain rfl := kind_eq_rbrace t4 h4
    exact ⟨_, rfl⟩
  | moreStr ks1 _ ih =>
    intro m ts h
    obtain ⟨t1, r1, rfl, h1, g1⟩ := kinds_cons _ _ _ h
    obtain ⟨t2, r2, rfl, h2, g2⟩ := kinds_cons _ _ _ g1
    obtain ⟨t3, r3, rfl, h3, g3⟩ := kinds_cons _ _ _ g2
    obtain ⟨t4, r4, rfl, h4, g4⟩ := kinds_cons _ _ _ g3
    obtain ⟨k, rfl⟩ := kind_eq_str t1 h1
    obtain rfl := kind_eq_colon t2 h2
    obtain ⟨v, rfl⟩ := kind_eq_str t3 h3
    obtain rfl := kind_eq_comma t4 h4
    obtain ⟨r, hr⟩ := ih (m.insert k v) r4 g4
    exact ⟨r, by rw [jsonMembers, hr]⟩
  | moreNull ks1 _ ih =>
    intro m ts h
    obtain ⟨t1, r1, rfl, h1, g1⟩ := kinds_cons _ _ _ h
    obtain ⟨t2, r2, rfl, h2, g2⟩ := kinds_cons _ _ _ g1
    obtain ⟨t3, r3, rfl, h3, g3⟩ := kinds_cons _ _ _ g2
    obtain ⟨t4, r4, rfl, h4, g4⟩ := kinds_cons _ _ _ g3
    obtain ⟨k, rfl⟩ := kind_eq_str t1 h1
    obtain rfl := kind_eq_colon t2 h2
    obtain rfl := kind_eq_null t3 h3
    obtain rfl := kind_eq_comma t4 h4
    obtain ⟨r, hr⟩ := ih (m.insert k "") r4 g4
    exact ⟨r, by rw [jsonMembers, hr]⟩

theorem jsonUnmarshal_accepts (text : String) (sigs : GoMap String String)
    (h : jsonUnmarshal text = some sigs) :
    ∃ ks, JSONLex false text.data ks ∧ JSONAcceptedKinds ks := by
  unfold jsonUnmarshal at h
  split at h
  · rename_i ht
    exact ⟨_, jsonTokens_lex none _ _ ht, Or.inl rfl⟩
  · rename_i ht
    exact ⟨_, jsonTokens_lex none _ _ ht, Or.inr (Or.inl rfl)⟩
  · rename_i rest _ ht
    exact ⟨_, jsonTokens_lex none _ _ ht,
      Or.inr (Or.inr ⟨_, rfl, jsonMembers_kinds _ _ _ h⟩)⟩
  · exact Option.noConfusion h

theorem accepts_jsonUnmarshal (text : String) (ks : List JSONKind)
    (hl : JSONLex false text.data ks) (hk : JSONAcceptedKinds ks) :
    ∃ sigs, jsonUnmarshal text = some sigs := by
  obtain ⟨ts, ht, hmap⟩ := lex_jsonTokens none text.data ks hl
  unfold jsonUnmarshal
  rw [ht]
  rcases hk with rfl | rfl | ⟨ks1, rfl, hm⟩
  · obtain ⟨t1, r1, rfl, h1, h⟩ := kinds_cons _ _ _ hmap
    obtain rfl := kinds_nil _ h
    obtain rfl := kind_eq_null t1 h1
    exact ⟨_, rfl⟩
  · obtain ⟨t1, r1, rfl, h1, h⟩ := kinds_cons _ _ _ hmap
    obtain ⟨t2, r2, rfl, h2, h⟩ := kinds_cons _ _ _ h
    obtain rfl := kinds_nil _ h
    obtain rfl := kind_eq_lbrace t1 h1
    obtain rfl := kind_eq_rbrace t2 h2
    exact ⟨_, rfl⟩
  · obtain ⟨t1, ts1, rfl, h1, h⟩ := kinds_cons _ _ _ hmap
    obtain rfl := kind_eq_lbrace t1 h1
    obtain ⟨r, hr⟩ := kinds_jsonMembers ks1 hm ∅ ts1 h
    split
    · exact ⟨_, rfl⟩
    · exact ⟨_, rfl⟩
    · rename_i heq
      obtain rfl := (List.cons.inj (Option.some.inj heq)).2
      exact ⟨r, hr⟩
    · rename_i hne
      exact absurd rfl (hne ts1)

/-- The texts `jsonUnmarshal` accepts are exactly those of the grammar: the literal
`null`, or an object whose members map strings to strings or to `null`. -/
theorem jsonUnmarshal_isSome_iff (text : String) :
    (∃ sigs, jsonUnmarshal text = some sigs) ↔
      JSONNullText text.data ∨ JSONObjectOfStrings text.data := by
  rw [← acceptedKinds_iff_grammar]
  constructor
  · rintro ⟨sigs, h⟩
    exact jsonUnmarshal_accepts text sigs h
  · rintro ⟨ks, hl, hk⟩
    exact accepts_jsonUnmarshal text ks hl hk

theorem jsonUnmarshal_none_iff (text : String) :
    jsonUnmarshal text = none ↔
      ¬ JSONNullText text.data ∧ ¬ JSONObjectOfStrings text.data := by
  rw [← not_or, ← jsonUnmarshal_isSome_iff]
  cases h : jsonUnmarshal text with
  | none => simp
  | some sigs => simp

theorem jsonUnmarshal_null_text (text : String) (h : JSONNullText text.data) :
    jsonUnmarshal text = some ∅ := by
  obtain ⟨ts, ht, hmap⟩ := lex_jsonTokens none text.data _ (lex_of_null _ h)
  obtain ⟨t1, r1, rfl, h1, g1⟩ := kinds_cons _ _ _ hmap
  obtain rfl := kinds_nil _ g1
  obtain rfl := kind_eq_null t1 h1
  unfold jsonUnmarshal
  rw [ht]

theorem ne_empty_of_data (text : String) (c : Char) (hc : c ∈ text.data) : text ≠ "" := by
  intro h
  rw [h] at hc
  exact absurd hc (List.not_mem_nil _)

/-- C18, amended. A non-empty configuration that is neither the JSON literal `null` nor a
JSON object whose members map strings to strings or to `null` makes
`printBadFuncRefsJSONConfig` return the error of `json.Unmarshal`, wrapped, and write
nothing, in every environment, so whatever the load step would do; exactly these
configurations are the ones the decoder rejects.  The empty configuration behaves as the
empty denylist (nothing written, nil), and so does the literal `null`; an object of
strings or `null` is decoded and handed to `PrintBadFuncRefs`. -/
theorem json_config_error {Func : Type} (E : Env Func) (jsonErr : String → GoError)
    (pkgs : List String) (cfg : String) (dir : String) (w : String) :
    (cfg ≠ "" → ¬ JSONNullText cfg.data → ¬ JSONObjectOfStrings cfg.data →
      printBadFuncRefsJSONConfig E jsonErr pkgs cfg dir w =
        (some (GoError.wrapf (jsonErr cfg)
          ("failed to unmarshal configuration as JSON: " ++ Quote E.wide cfg)), w)) ∧
    (jsonUnmarshal cfg = none ↔ ¬ JSONNullText cfg.data ∧ ¬ JSONObjectOfStrings cfg.data) ∧
    printBadFuncRefsJSONConfig E jsonErr pkgs "" dir w = (none, w) ∧
    (JSONNullText cfg.data →
      printBadFuncRefsJSONConfig E jsonErr pkgs cfg dir w = (none, w)) ∧
    (JSONObjectOfStrings cfg.data → ∃ sigs, jsonUnmarshal cfg = some sigs ∧
      printBadFuncRefsJSONConfig E jsonErr pkgs cfg dir w =
        PrintBadFuncRefs E pkgs sigs dir w) := by
  refine ⟨?_, jsonUnmarshal_none_iff cfg, rfl, ?_, ?_⟩
  · intro hne hnull hobj
    unfold printBadFuncRefsJSONConfig
    rw [if_pos hne, (jsonUnmarshal_none_iff cfg).mpr ⟨hnull, hobj⟩]
  · intro hnull
    have hne : cfg ≠ "" := by
      obtain ⟨s0, s1, _, _, hd⟩ := hnull
      exact ne_empty_of_data cfg 'n' (by rw [hd]; simp)
    unfold printBadFuncRefsJSONConfig
    rw [if_pos hne, jsonUnmarshal_null_text cfg hnull]
    rfl
  · intro hobj
    have hne : cfg ≠ "" := by
      obtain ⟨s0, s1, s2, _, _, _, hd | ⟨ms, s3, _, _, hd⟩⟩ := hobj
      · exact ne_empty_of_data cfg '\x7b' (by rw [hd]; simp)
      · exact ne_empty_of_data cfg '\x7b' (by rw [hd]; simp)
    obtain ⟨sigs, hs⟩ := (jsonUnmarshal_isSome_iff cfg).mpr (Or.inr hobj)
    refine ⟨sigs, hs, ?_⟩
    unfold printBadFuncRefsJSONConfig
    rw [if_pos hne, hs]

/-- C18, witness: the configuration `[1]`, a JSON array, which is neither the literal
`null` nor an object. -/
theorem json_config_error_witness :
    "[1]" ≠ "" ∧ ¬ JSONNullText "[1]".data ∧ ¬ JSONObjectOfStrings "[1]".data ∧
      printBadFuncRefsJSONConfig (exEnv [exPkgA]) (fun _ => GoError.errorf "invalid")
          ["./..."] "[1]" "" "" =
        (some (GoError.wrapf (GoError.errorf "invalid")
          ("failed to unmarshal configuration as JSON: " ++ Quote (fun _ => true) "[1]")), "") :=
  ⟨by decide, ((jsonUnmarshal_none_iff "[1]").mp rfl).1, ((jsonUnmarshal_none_iff "[1]").mp rfl).2,
    (json_config_error (exEnv [exPkgA]) (fun _ => GoError.errorf "invalid") ["./..."] "[1]"
      "" "").1 (by decide) ((jsonUnmarshal_none_iff "[1]").mp rfl).1
      ((jsonUnmarshal_none_iff "[1]").mp rfl).2⟩

/-! ### The pipeline of the code and the pipeline of the specification -/

theorem posLE_antisymm (a b : Position) (hab : posLE a b) (hba : posLE b a) :
    a.Filename = b.Filename ∧ a.Line = b.Line ∧ a.Column = b.Column := by
  unfold posLE at hab hba
  rcases hab with h1 | ⟨hf, h1⟩
  · rcases hba with h2 | ⟨hf2, _⟩
    · rw [strLess_asymm _ _ h1] at h2
      exact Bool.noConfusion h2
    · rw [hf2] at h1
      have := strLess_asymm _ _ h1
      rw [h1] at this
      exact Bool.noConfusion this
  · rcases hba with h2 | ⟨_, h2⟩
    · rw [hf] at h2
      have := strLess_asymm _ _ h2
      rw [h2] at this
      exact Bool.noConfusion this
    · refine ⟨hf, ?_, ?_⟩ <;> omega

theorem checkVisits_pairwise {Func : Type} (E : Env Func) (sigs : GoMap String String)
    (p : Package Func) :
    (checkVisits E sigs p).Pairwise (fun x y => posLE x.1 y.1 ∧ x.1 ≠ y.1) := by
  unfold checkVisits
  rw [visitInOrder_recordVisits]
  exact visitSeq_pairwise _ _
    (filterFuncRefs_keyed _ _ _ (filePosFuncRefMap_keyed _ _ _ _ _))

theorem strLess_irrefl (a : String) : strLess a a = false := by
  cases h : strLess a a with
  | false => rfl
  | true =>
    have := strLess_asymm a a h
    rw [h] at this
    exact Bool.noConfusion this

theorem referenceLess_true_iff (a b : Reference) :
    referenceLess a b = true ↔
      strLess a.File b.File = true ∨
        (a.File = b.File ∧ (a.Line < b.Line ∨ (a.Line = b.Line ∧ a.Column < b.Column))) := by
  unfold referenceLess
  simp only [Bool.or_eq_true, Bool.and_eq_true, decide_eq_true_eq]

theorem referenceLess_false_iff (a b : Reference) :
    referenceLess a b = false ↔
      strLess a.File b.File = false ∧
        (a.File = b.File → b.Line < a.Line ∨ (a.Line = b.Line ∧ b.Column ≤ a.Column)) := by
  rw [← Bool.not_eq_true, referenceLess_true_iff]
  constructor
  · intro h
    refine ⟨?_, ?_⟩
    · cases hs : strLess a.File b.File with
      | false => rfl
      | true => exact absurd (Or.inl hs) h
    · intro hf
      have h2 : ¬ (a.Line < b.Line ∨ (a.Line = b.Line ∧ a.Column < b.Column)) :=
        fun hlt => h (Or.inr ⟨hf, hlt⟩)
      omega
  · rintro ⟨hs, hf⟩ (h | ⟨he, hlt⟩)
    · rw [hs] at h
      exact Bool.noConfusion h
    · have := hf he
      omega

theorem referenceLess_asymm (a b : Reference) (h : referenceLess a b = true) :
    referenceLess b a = false := by
  rw [referenceLess_true_iff] at h
  rw [referenceLess_false_iff]
  rcases h with h | ⟨hf, hlt⟩
  · refine ⟨strLess_asymm _ _ h, ?_⟩
    intro hf
    rw [hf, strLess_irrefl] at h
    exact Bool.noConfusion h
  · refine ⟨?_, ?_⟩
    · rw [hf]
      exact strLess_irrefl _
    · intro _
      omega

theorem referenceLess_negtrans (a b c : Reference) (hab : referenceLess a b = false)
    (hbc : referenceLess b c = false) : referenceLess a c = false := by
  rw [referenceLess_false_iff] at hab hbc ⊢
  refine ⟨strLess_negtrans _ _ _ hab.1 hbc.1, ?_⟩
  intro hf
  have hba : strLess b.File a.File = false := by
    rw [hf]
    exact hbc.1
  have hfab : a.File = b.File := strLess_total _ _ hab.1 hba
  have h1 := hab.2 hfab
  have h2 := hbc.2 (by rw [← hfab, hf])
  omega

theorem referenceLess_of_posLE (a b : Position) (sa sb : FuncRef) (h : posLE a b) :
    referenceLess ⟨b.Filename, b.Line, b.Column, sb⟩ ⟨a.Filename, a.Line, a.Column, sa⟩ =
      false := by
  rw [referenceLess_false_iff]
  unfold posLE at h
  simp only
  rcases h with h | ⟨hf, hlt⟩
  · refine ⟨strLess_asymm _ _ h, ?_⟩
    intro hf
    rw [hf, strLess_irrefl] at h
    exact Bool.noConfusion h
  · refine ⟨?_, ?_⟩
    · rw [hf]
      exact strLess_irrefl _
    · intro _
      omega

theorem reference_position_string (pos : Position) (sig : FuncRef) :
    (Reference.Position ⟨pos.Filename, pos.Line, pos.Column, sig⟩).String = pos.String := rfl

theorem specifiedSuppressed_iff {Func : Type} (p : Package Func) (pos : Position)
    (sig : FuncRef) :
    specifiedSuppressed p ⟨pos.Filename, pos.Line, pos.Column, sig⟩ = true ↔ suppressed p pos := by
  rw [suppressed_iff_commentAt]
  unfold specifiedSuppressed
  simp only
  cases h : commentAt (fileLineCommentMap p.Fset p.Syntax) pos.Filename (pos.Line - 1) with
  | none => simp
  | some text => simp

theorem mem_specifiedReferences {Func : Type} (canon : Func → FuncRef) (p : Package Func)
    (r : Reference) :
    r ∈ specifiedReferences canon p ↔
      ∃ id f, p.Uses.lookup id = some (Object.func f) ∧
        r = ⟨(p.Fset.Position id.Pos).Filename, (p.Fset.Position id.Pos).Line,
          (p.Fset.Position id.Pos).Column, canon f⟩ := by
  unfold specifiedReferences
  rw [List.mem_dedup, List.mem_filterMap]
  constructor
  · rintro ⟨e, he, hr⟩
    obtain ⟨id, o⟩ := e
    cases o with
    | func f =>
      simp only [Object.ref, Option.map_some', Option.some.injEq] at hr
      exact ⟨id, f, AList.mem_lookup_iff.mpr he, hr.symm⟩
    | other => simp [Object.ref] at hr
  · rintro ⟨id, f, hu, rfl⟩
    exact ⟨⟨id, Object.func f⟩, AList.mem_lookup_iff.mp hu, rfl⟩

theorem visit_ident {Func : Type} (E : Env Func) (sigs : GoMap String String)
    (hs : sigs.keys.length ≠ 0) (p : Package Func) (x : Position × FuncRef)
    (hx : x ∈ checkVisits E sigs p) :
    ∃ id f, p.Uses.lookup id = some (Object.func f) ∧ E.canon f = x.2 ∧
      (sigs.lookup x.2).isSome = true ∧ p.Fset.Position id.Pos = x.1 := by
  obtain ⟨pos, ref⟩ := x
  obtain ⟨id, f, hu, hcanon, hq, hpos, _⟩ := refAt_filePosFuncRefMap_sound _ _ _ _ _ _ _ _
    ((mem_checkVisits E sigs p pos ref).mp hx).1
  exact ⟨id, f, hu, hcanon, hq (Nat.pos_of_ne_zero hs), hpos⟩

theorem denylisted_func {Func : Type} (canon : Func → FuncRef) (sigs : GoMap String String)
    (f : Func) : denylisted canon sigs (Object.func f) = (sigs.lookup (canon f)).isSome := rfl

theorem visits_same_place {Func : Type} (E : Env Func) (sigs : GoMap String String)
    (hs : sigs.keys.length ≠ 0) (p : Package Func)
    (hd : denylistedPlacesDistinct E.canon sigs p) (x y : Position × FuncRef)
    (hx : x ∈ checkVisits E sigs p) (hy : y ∈ checkVisits E sigs p)
    (hf : x.1.Filename = y.1.Filename) (hl : x.1.Line = y.1.Line)
    (hc : x.1.Column = y.1.Column) : x = y := by
  obtain ⟨idx, fx, hux, hcx, hqx, hpx⟩ := visit_ident E sigs hs p x hx
  obtain ⟨idy, fy, huy, hcy, hqy, hpy⟩ := visit_ident E sigs hs p y hy
  have h := hd ⟨idx, Object.func fx⟩ (AList.mem_lookup_iff.mp hux) ⟨idy, Object.func fy⟩
    (AList.mem_lookup_iff.mp huy) (by rw [denylisted_func, hcx]; exact hqx)
    (by rw [denylisted_func, hcy]; exact hqy) (by rw [hpx, hpy]; exact hf)
    (by rw [hpx, hpy]; exact hl) (by rw [hpx, hpy]; exact hc)
  have h1 : x.1 = y.1 := by rw [← hpx, ← hpy]; exact h.1
  have h2 : x.2 = y.2 := by
    have := h.2
    simp only [Object.ref, Option.some.injEq] at this
    rw [← hcx, ← hcy, this]
  exact Prod.ext h1 h2

theorem mem_specifiedDiagnostics {Func : Type} (E : Env Func) (sigs : GoMap String String)
    (p : Package Func) (d : Reference × String) :
    d ∈ specifiedDiagnostics E sigs p ↔
      ∃ id f reason, p.Uses.lookup id = some (Object.func f) ∧
        ¬ suppressed p (p.Fset.Position id.Pos) ∧ sigs.lookup (E.canon f) = some reason ∧
        d = visitDiagnostic E.wide sigs (p.Fset.Position id.Pos, E.canon f) := by
  unfold specifiedDiagnostics
  simp only
  rw [(E.sorter.perm _ _).mem_iff, List.mem_filterMap]
  constructor
  · rintro ⟨r, hr, hm⟩
    rw [List.mem_filter, mem_specifiedReferences] at hr
    obtain ⟨⟨id, f, hu, rfl⟩, hsup⟩ := hr
    have hns : ¬ suppressed p (p.Fset.Position id.Pos) := by
      rw [← specifiedSuppressed_iff p (p.Fset.Position id.Pos) (E.canon f)]
      simpa using hsup
    unfold specifiedMatch at hm
    simp only at hm
    cases hl : AList.lookup (E.canon f) sigs with
    | none => rw [hl] at hm; simp at hm
    | some reason =>
      refine ⟨id, f, reason, hu, hns, hl, ?_⟩
      rw [hl] at hm
      simp only [Option.map_some', Option.some.injEq] at hm
      rw [← hm]
      unfold visitDiagnostic specifiedMatch
      simp only [hl, Option.map_some', Option.getD_some]
  · rintro ⟨id, f, reason, hu, hns, hl, rfl⟩
    refine ⟨⟨(p.Fset.Position id.Pos).Filename, (p.Fset.Position id.Pos).Line,
      (p.Fset.Position id.Pos).Column, E.canon f⟩, ?_, ?_⟩
    · rw [List.mem_filter, mem_specifiedReferences]
      refine ⟨⟨id, f, hu, rfl⟩, ?_⟩
      have : ¬ specifiedSuppressed p ⟨(p.Fset.Position id.Pos).Filename,
          (p.Fset.Position id.Pos).Line, (p.Fset.Position id.Pos).Column, E.canon f⟩ = true := by
        rw [specifiedSuppressed_iff p (p.Fset.Position id.Pos) (E.canon f)]
        exact hns
      simpa using this
    · unfold visitDiagnostic specifiedMatch
      simp only [hl, Option.map_some', Option.getD_some]

theorem specifiedDiagnostics_nodup {Func : Type} (E : Env Func) (sigs : GoMap String String)
    (p : Package Func) : (specifiedDiagnostics E sigs p).Nodup := by
  unfold specifiedDiagnostics
  simp only
  rw [(E.sorter.perm _ _).nodup_iff]
  apply List.Nodup.filterMap
  · intro a a1 b hb hb1
    simp only [Option.mem_def, Option.map_eq_some'] at hb hb1
    obtain ⟨m, _, rfl⟩ := hb
    obtain ⟨m1, _, h⟩ := hb1
    exact (Prod.mk.inj h).1.symm
  · exact (List.nodup_dedup _).filter _

theorem mem_visitDiagnostics {Func : Type} (E : Env Func) (sigs : GoMap String String)
    (hs : sigs.keys.length ≠ 0) (p : Package Func)
    (hd : denylistedPlacesDistinct E.canon sigs p) (d : Reference × String) :
    d ∈ (checkVisits E sigs p).map (visitDiagnostic E.wide sigs) ↔
      d ∈ specifiedDiagnostics E sigs p := by
  rw [mem_specifiedDiagnostics, List.mem_map]
  constructor
  · rintro ⟨x, hx, rfl⟩
    obtain ⟨id, f, hu, hcanon, hq, hpos⟩ := visit_ident E sigs hs p x hx
    obtain ⟨reason, hr⟩ := Option.isSome_iff_exists.mp hq
    have hns := ((mem_checkVisits E sigs p x.1 x.2).mp hx).2
    refine ⟨id, f, reason, hu, by rw [hpos]; exact hns, by rw [hcanon]; exact hr, ?_⟩
    rw [hpos, hcanon]
  · rintro ⟨id, f, reason, hu, hns, hl, rfl⟩
    refine ⟨(p.Fset.Position id.Pos, E.canon f), ?_, rfl⟩
    have hq : sigs.keys.length > 0 → (sigs.lookup (E.canon f)).isSome = true := by
      intro _
      rw [hl]
      rfl
    obtain ⟨ref1, h1⟩ := refAt_filePosFuncRefMap_complete E.sorter E.canon p.Uses p.Fset sigs
      id f hu hq
    have hx1 : (p.Fset.Position id.Pos, ref1) ∈ checkVisits E sigs p :=
      (mem_checkVisits E sigs p _ _).mpr ⟨h1, hns⟩
    obtain ⟨id1, f1, hu1, hc1, hq1, hp1⟩ := visit_ident E sigs hs p _ hx1
    have h := hd ⟨id, Object.func f⟩ (AList.mem_lookup_iff.mp hu) ⟨id1, Object.func f1⟩
      (AList.mem_lookup_iff.mp hu1) (by rw [denylisted_func, hl]; rfl)
      (by rw [denylisted_func, hc1]; exact hq1) (by simp only; rw [hp1])
      (by simp only; rw [hp1]) (by simp only; rw [hp1])
    have hsame : E.canon f = ref1 := by
      have := h.2
      simp only [Object.ref, Option.some.injEq] at this
      rw [this]
      exact hc1
    rw [hsame]
    exact hx1

theorem specifiedDiagnostics_eq {Func : Type} (E : Env Func) (sigs : GoMap String String)
    (hs : sigs.keys.length ≠ 0) (p : Package Func)
    (hd : denylistedPlacesDistinct E.canon sigs p) :
    (checkVisits E sigs p).map (visitDiagnostic E.wide sigs) = specifiedDiagnostics E sigs p := by
  have hinj : ∀ x ∈ checkVisits E sigs p, ∀ y ∈ checkVisits E sigs p,
      visitDiagnostic E.wide sigs x = visitDiagnostic E.wide sigs y → x = y := by
    intro x hx y hy h
    have h1 := (Prod.mk.inj h).1
    simp only [Reference.mk.injEq] at h1
    exact visits_same_place E sigs hs p hd x y hx hy h1.1 h1.2.1 h1.2.2.1
  have hn : (checkVisits E sigs p).Nodup :=
    List.Nodup.of_map Prod.fst (checkVisits_sorted_nodup E sigs p).2
  apply sorted_perm_unique (fun a b : Reference × String => referenceLess b.1 a.1 = false)
  · exact perm_of_nodup_of_mem_iff _ _ (List.Nodup.map_on hinj hn)
      (specifiedDiagnostics_nodup E sigs p) (mem_visitDiagnostics E sigs hs p hd)
  · rw [List.pairwise_map]
    refine (checkVisits_pairwise E sigs p).imp ?_
    intro x y hxy
    exact referenceLess_of_posLE x.1 y.1 _ _ hxy.1
  · unfold specifiedDiagnostics
    exact E.sorter.sorted (fun a b : Reference × String => referenceLess a.1 b.1) _
      (fun a b h => referenceLess_asymm a.1 b.1 h)
      (fun a b c hab hbc => referenceLess_negtrans a.1 b.1 c.1 hab hbc)
  · intro a ha b hb hab hba
    rw [List.mem_map] at ha hb
    obtain ⟨x, hx, rfl⟩ := ha
    obtain ⟨y, hy, rfl⟩ := hb
    rw [referenceLess_false_iff] at hab hba
    have hf : x.1.Filename = y.1.Filename := strLess_total _ _ hba.1 hab.1
    have h1 := hab.2 hf.symm
    have h2 := hba.2 hf
    simp only [visitDiagnostic] at h1 h2
    rw [visits_same_place E sigs hs p hd x y hx hy hf (by omega) (by omega)]

theorem all_map_congr {α β : Type} (f : α → β) (q : β → Bool) (g : α → Bool) :
    ∀ l : List α, (∀ x ∈ l, q (f x) = g x) → (l.map f).all q = l.all g := by
  intro l
  induction l with
  | nil => intro _; rfl
  | cons a l ih =>
    intro h
    rw [List.map_cons, List.all_cons, List.all_cons, h a (List.mem_cons_self _ _),
      ih (fun x hx => h x (List.mem_cons_of_mem _ hx))]

theorem specifiedLine_visitDiagnostic (wide : Char → Bool) (sigs : GoMap String String)
    (x : Position × FuncRef) (reason : String) (h : sigs.lookup x.2 = some reason) :
    specifiedLine (visitDiagnostic wide sigs x) = badLine wide sigs x := by
  rw [badLine_eq wide sigs x.1 x.2 reason h]
  unfold specifiedLine visitDiagnostic specifiedMatch
  simp only [h, Option.map_some', Option.getD_some]
  rfl

theorem specifiedCheckPackage_lines {Func : Type} (E : Env Func) (sigs : GoMap String String)
    (p : Package Func) (st : Bool × String) :
    specifiedCheckPackage E sigs p st =
      (st.1 && (specifiedDiagnostics E sigs p).all (fun _ => false),
        st.2 ++ joinLines ((specifiedDiagnostics E sigs p).map specifiedLine)) := by
  unfold specifiedCheckPackage
  have hfun : (fun (st : Bool × String) (d : Reference × String) =>
      (false, st.2 ++ specifiedLine d)) =
      (fun st d => (st.1 && (fun _ => false) d, st.2 ++ specifiedLine d)) := by
    funext st d
    simp
  rw [hfun, foldl_lines]

theorem specifiedCheckPackage_eq {Func : Type} (E : Env Func) (sigs : GoMap String String)
    (hs : sigs.keys.length ≠ 0) (p : Package Func)
    (hd : denylistedPlacesDistinct E.canon sigs p) (st : Bool × String) :
    specifiedCheckPackage E sigs p st =
      visitInOrder E.sorter
        (filterFuncRefs (filePosFuncRefMap E.sorter E.canon p.Uses p.Fset sigs)
          (fileLineCommentMap p.Fset p.Syntax) okCommentRegxp.MatchString)
        (printBadVisitor E.wide sigs) st := by
  rw [specifiedCheckPackage_lines, visitInOrder_printBad, ← specifiedDiagnostics_eq E sigs hs p hd]
  have hV : visitInOrder E.sorter
      (filterFuncRefs (filePosFuncRefMap E.sorter E.canon p.Uses p.Fset sigs)
        (fileLineCommentMap p.Fset p.Syntax) okCommentRegxp.MatchString) recordVisits [] =
      checkVisits E sigs p := rfl
  rw [hV, List.map_map]
  have h1 : ((checkVisits E sigs p).map (visitDiagnostic E.wide sigs)).all (fun _ => false) =
      (checkVisits E sigs p).all (fun x => (sigs.lookup x.2).isNone) := by
    apply all_map_congr
    intro x hx
    obtain ⟨reason, hr⟩ := checkVisits_lookup E sigs hs p x.1 x.2 hx
    rw [hr]
    rfl
  have h2 : (checkVisits E sigs p).map (specifiedLine ∘ visitDiagnostic E.wide sigs) =
      (checkVisits E sigs p).map (badLine E.wide sigs) := by
    apply List.map_congr_left
    intro x hx
    obtain ⟨reason, hr⟩ := checkVisits_lookup E sigs hs p x.1 x.2 hx
    exact specifiedLine_visitDiagnostic E.wide sigs x reason hr
  rw [h1, h2]

theorem specifiedPrintBadFuncRefs_eq {Func : Type} (E : Env Func) (pkgs : List String)
    (sigs : GoMap String String) (dir : String) (w : String) (ps : List (Package Func))
    (hload : E.Load dir pkgs = Except.ok ps) (hs : sigs.keys.length ≠ 0)
    (hd : ∀ p ∈ ps, denylistedPlacesDistinct E.canon sigs p) :
    specifiedPrintBadFuncRefs E pkgs sigs dir w = PrintBadFuncRefs E pkgs sigs dir w := by
  unfold specifiedPrintBadFuncRefs PrintBadFuncRefs printBadFuncRefsHelper printFuncRefUsages
  rw [if_neg hs, if_neg hs, hload]
  simp only
  rw [List.foldl_ext (fun st loadedPkg => specifiedCheckPackage E sigs loadedPkg st)
    (fun (st : Bool × String) loadedPkg =>
      if sigs.keys.length = 0 then
        visitInOrder E.sorter
          (filePosFuncRefMap E.sorter E.canon loadedPkg.Uses loadedPkg.Fset sigs)
          printAllVisitor st
      else
        visitInOrder E.sorter
          (filterFuncRefs (filePosFuncRefMap E.sorter E.canon loadedPkg.Uses loadedPkg.Fset sigs)
            (fileLineCommentMap loadedPkg.Fset loadedPkg.Syntax) okCommentRegxp.MatchString)
          (printBadVisitor E.wide sigs) st) (true, w)
    (fun st p hp => by
      beta_reduce
      rw [if_neg hs, specifiedCheckPackage_eq E sigs hs p (hd p hp) st])]

/-- C21, counterexample. Two identifiers of one package resolve to the same position
`gen.go:7`, the earlier to `Do` and the later to `Get`, and both signatures are in the
denylist.  The Reference set of the specification holds two References (same file, line
and column, two signatures), so the specified pipeline writes two lines; the implemented
pipeline keeps one signature at that position, the later one, and writes one line. -/
theorem pipelines_differ_at_shared_position :
    exPkgLineDirectiveDoGet.Uses.lookup ⟨40, "Do"⟩ = some (Object.func exDo) ∧
      exPkgLineDirectiveDoGet.Uses.lookup ⟨101, "Get"⟩ = some (Object.func exGet) ∧
      exPkgLineDirectiveDoGet.Fset.Position 40 = exPkgLineDirectiveDoGet.Fset.Position 101 ∧
      exSigsDoGet.lookup exDo = some "No Do" ∧ exSigsDoGet.lookup exGet = some "No Get" ∧
      specifiedReferences (fun f => f) exPkgLineDirectiveDoGet =
        [⟨"gen.go", 7, 0, exDo⟩, ⟨"gen.go", 7, 0, exGet⟩] ∧
      specifiedPrintBadFuncRefs (exEnv [exPkgLineDirectiveDoGet]) ["./..."] exSigsDoGet "" "" =
        (some (GoError.errorf ""), "gen.go:7: No Do\ngen.go:7: No Get\n") ∧
      PrintBadFuncRefs (exEnv [exPkgLineDirectiveDoGet]) ["./..."] exSigsDoGet "" "" =
        (some (GoError.errorf ""), "gen.go:7: No Get\n") := by
  decide

/-- C21, amended. In check mode with a non-empty denylist, every call of the visitor of the
implemented pipeline finds its signature in the denylist, so the branch for a signature
outside the denylist is never taken, for every package.  And when in every loaded package
two identifiers that resolve to denylisted functions and share file, line and column
resolve to one position and one signature, the implemented pipeline (pre-filter by the
denylist inside `filePosFuncRefMap`, suppression filter, lookup in the visitor) and the
pipeline in the order of the specification (Reference set, suppression filter, denylist
match, report in order) write the same text and return the same error. -/
theorem prefilter_equivalent_at_distinct_places {Func : Type} (E : Env Func)
    (pkgs : List String) (sigs : GoMap String String) (dir : String) (w : String)
    (ps : List (Package Func)) (hload : E.Load dir pkgs = Except.ok ps)
    (hs : sigs.keys.length ≠ 0) :
    (∀ p ∈ ps, ∀ x ∈ checkVisits E sigs p, ∀ st : Bool × String,
      ∃ reason, sigs.lookup x.2 = some reason ∧
        printBadVisitor E.wide sigs x.1 x.2 st =
          (false, st.2 ++ (x.1.String ++ ": " ++
            (if reason = "" then defaultReason E.wide x.2 else reason) ++ "\n"))) ∧
    ((∀ p ∈ ps, denylistedPlacesDistinct E.canon sigs p) →
      specifiedPrintBadFuncRefs E pkgs sigs dir w = PrintBadFuncRefs E pkgs sigs dir w) := by
  refine ⟨?_, specifiedPrintBadFuncRefs_eq E pkgs sigs dir w ps hload hs⟩
  intro p _ x hx st
  obtain ⟨reason, hr⟩ := checkVisits_lookup E sigs hs p x.1 x.2 hx
  refine ⟨reason, hr, ?_⟩
  unfold printBadVisitor
  rw [hr]

/-- C21, witness: the package in which `Do`, in the denylist, and `Println`, outside it,
resolve to the one position `gen.go:7`; both pipelines write the line of `Do`. -/
theorem prefilter_equivalent_at_distinct_places_witness :
    (exEnv [exPkgLineDirectiveMixed]).Load "" ["./..."] = Except.ok [exPkgLineDirectiveMixed] ∧
      (exSigs exDo "No").keys.length ≠ 0 ∧
      (∀ p ∈ [exPkgLineDirectiveMixed],
        denylistedPlacesDistinct (exEnv [exPkgLineDirectiveMixed]).canon (exSigs exDo "No") p) ∧
      specifiedPrintBadFuncRefs (exEnv [exPkgLineDirectiveMixed]) ["./..."] (exSigs exDo "No")
          "" "" =
        PrintBadFuncRefs (exEnv [exPkgLineDirectiveMixed]) ["./..."] (exSigs exDo "No") "" "" ∧
      PrintBadFuncRefs (exEnv [exPkgLineDirectiveMixed]) ["./..."] (exSigs exDo "No") "" "" =
        (some (GoError.errorf ""), "gen.go:7: No\n") :=
  ⟨rfl, by decide,
    fun p hp => by
      rw [List.mem_singleton] at hp
      subst hp
      unfold denylistedPlacesDistinct
      decide,
    (prefilter_equivalent_at_distinct_places (exEnv [exPkgLineDirectiveMixed]) ["./..."]
      (exSigs exDo "No") "" "" [exPkgLineDirectiveMixed] rfl (by decide)).2
      (fun p hp => by
        rw [List.mem_singleton] at hp
        subst hp
        unfold denylistedPlacesDistinct
        decide),
    by decide⟩

end NoBadFuncs
